import Mathlib

/-!
Verification of the gpv prompt-versioning core (src/gpv): a shallow
embedding of the version arithmetic (versioning.py), the filename codec
(commands/commit.py), the sqlite-backed stores (db.py) and the commit and
uncommit operations (commands/commit.py, commands/uncommit.py).

Modelling conventions:
* Python strings are Lean strings; str.split(".") is splitDot,
  ".".join is joinDot, int on digit strings is parseNat, str on a
  non-negative int is natToString.
* Python dicts are association lists with dict semantics (dictOf,
  dictInsert, dictGet): keys kept in first-insertion order, a repeated
  insert overwrites the value in place, lookup returns the stored value.
* The sqlite tables are Lean lists kept in rowid (insertion) order, with the
  AUTOINCREMENT counters carried explicitly (nextSubId, nextMasterId);
  a SELECT with fetchone over a predicate is List.find?.
* The created_at column is wall-clock provenance metadata and is not
  modelled; no claim depends on it.
* Master contents is stored in sqlite as the JSON encoding of an ordered
  integer list; json.dumps and json.loads are injective and inverse on such
  lists, so the model keeps the list itself and compares lists where the
  code compares the encoded strings (the UNIQUE contents constraint).
-/

/-! # Definitions -/

deriving instance DecidableEq for Except

/-! ## Characters and decimal digit strings -/

/-- Decimal digit character for a digit value, as produced by Python str. -/
def digitChar (d : Nat) : Char :=
  if d = 0 then '0' else if d = 1 then '1' else if d = 2 then '2'
  else if d = 3 then '3' else if d = 4 then '4' else if d = 5 then '5'
  else if d = 6 then '6' else if d = 7 then '7' else if d = 8 then '8'
  else '9'

/-- Whether a character is a decimal digit. -/
def isDigitChar (c : Char) : Bool :=
  48 ≤ c.toNat && c.toNat ≤ 57

/-- Model of Python int on a list of decimal digit characters. -/
def parseNatList (l : List Char) : Nat :=
  l.foldl (fun a c => a * 10 + (c.toNat - 48)) 0

/-- Model of Python int applied to a (digit) string. -/
def parseNat (s : String) : Nat :=
  parseNatList s.data

/-- Digits of a positive number, most significant first; fuel bounds the
recursion and any fuel at least n gives the same answer. -/
def natToDigits : Nat → Nat → List Char
  | 0, _ => []
  | fuel + 1, n => if n = 0 then [] else natToDigits fuel (n / 10) ++ [digitChar (n % 10)]

/-- Model of Python str on a non-negative integer. -/
def natToString (n : Nat) : String :=
  if n = 0 then "0" else String.mk (natToDigits n n)

/-! ## Splitting on dots -/

/-- Auxiliary splitter; acc holds the current segment reversed. -/
def splitDotAux : List Char → List Char → List String
  | [], acc => [String.mk acc.reverse]
  | c :: cs, acc => if c = '.' then String.mk acc.reverse :: splitDotAux cs [] else splitDotAux cs (c :: acc)

/-- Model of Python s.split("."). -/
def splitDot (s : String) : List String :=
  splitDotAux s.data []

/-- Model of Python ".".join(parts). -/
def joinDot : List String → String
  | [] => ""
  | [s] => s
  | s :: t :: rest => s ++ "." ++ joinDot (t :: rest)

/-! ## Version arithmetic (src/gpv/versioning.py) -/

/-- Model of increment_version: None becomes "1", otherwise the last
dot-segment is bumped by one. -/
def incrementVersion : Option String → String
  | none => "1"
  | some pv =>
    let parts := splitDot pv
    joinDot (parts.dropLast ++ [natToString (parseNat (parts.getLast!) + 1)])

/-- Model of branch_version: append ".1". -/
def branchVersion (pv : String) : String :=
  pv ++ ".1"

/-- Model of the padded segment-wise comparison loop in version_gt.  When
the first list is exhausted every remaining comparison pits 0 against a
padded or real old segment, which can never be strictly greater, so the
loop returns false. -/
def padCmpGt : List Nat → List Nat → Bool
  | [], _ => false
  | a :: as, [] => if 0 < a then true else padCmpGt as []
  | a :: as, b :: bs => if b < a then true else if a < b then false else padCmpGt as bs

/-- Model of version_gt. -/
def versionGt (newVersion oldVersion : String) : Bool :=
  padCmpGt ((splitDot newVersion).map parseNat) ((splitDot oldVersion).map parseNat)

/-- Model of version_segment_count. -/
def versionSegmentCount (v : String) : Nat :=
  (splitDot v).length

/-- Model of is_branched: strictly more segments. -/
def isBranched (newVersion oldVersion : String) : Bool :=
  versionSegmentCount oldVersion < versionSegmentCount newVersion

/-- A valid dotted version string: non-empty dot-separated decimal segments. -/
def ValidVersion (s : String) : Bool :=
  (splitDot s).all (fun seg => !seg.data.isEmpty && seg.data.all isDigitChar)

/-- A canonical version string: every segment is a positive decimal number
without leading zeros. -/
def CanonicalVersion (s : String) : Bool :=
  (splitDot s).all (fun seg =>
    !seg.data.isEmpty && seg.data.all isDigitChar && !(seg.data.head? == some '0'))

/-! ## Python dict model -/

/-- Dict lookup: value stored under the key, if present. -/
def dictGet {α β : Type} [BEq α] (d : List (α × β)) (k : α) : Option β :=
  (d.find? (fun p => p.1 == k)).map (fun p => p.2)

/-- Dict assignment: overwrite in place (keys are unique in a dict, so
replacing the first binding is Python semantics), else append. -/
def dictInsert {α β : Type} [BEq α] : List (α × β) → α → β → List (α × β)
  | [], k, v => [(k, v)]
  | p :: rest, k, v => if p.1 == k then (k, v) :: rest else p :: dictInsert rest k v

/-- Dict built from a list of key-value pairs in order (later wins). -/
def dictOf {α β : Type} [BEq α] (l : List (α × β)) : List (α × β) :=
  l.foldl (fun d p => dictInsert d p.1 p.2) []

/-- The loop body of derive_master_version (src/gpv/versioning.py): is the
composed fragment branched relative to the current master's fragment of
the same type?  The truthiness guards of the Python (if sub_type, if
new_ver and old_ver) are kept: an empty string is falsy. -/
def deriveBranchCheck (currentByType : List (String × String))
    (newIdToVersion newIdToType : List (Nat × String)) (newId : Nat) : Bool :=
  let newVer := dictGet newIdToVersion newId
  let subType := dictGet newIdToType newId
  let oldVer := match subType with
    | some t => if t = "" then none else dictGet currentByType t
    | none => none
  match newVer, oldVer with
  | some nv, some ov => if nv = "" then false else if ov = "" then false else isBranched nv ov
  | _, _ => false

/-- Model of derive_master_version (src/gpv/versioning.py): "1" for an
empty master table, else branch the current master version if any composed
fragment is branched against its type's current version, else increment. -/
def deriveMasterVersion (currentMasterVersion : Option String)
    (currentByType : List (String × String)) (newSubIds : List Nat)
    (newIdToVersion : List (Nat × String)) (newIdToType : List (Nat × String)) : String :=
  match currentMasterVersion with
  | none => "1"
  | some cmv =>
    let anyBranched := newSubIds.any (deriveBranchCheck currentByType newIdToVersion newIdToType)
    if anyBranched then branchVersion cmv else incrementVersion (some cmv)

/-! ## Filename codec (src/gpv/commands/commit.py) -/

/-- Failure cases of extract_type_from_filename (Python ValueError). -/
inductive FilenameErr where
  | notJ2 : FilenameErr
  | noUnderscore : FilenameErr
deriving Repr, DecidableEq

/-- Everything after the first occurrence of a character. -/
def afterFirst (c : Char) : List Char → List Char
  | [] => []
  | x :: xs => if x = c then xs else afterFirst c xs

/-- Model of extract_type_from_filename: require a ".j2" suffix, strip it,
then take everything after the first underscore. -/
def extractTypeFromFilename (filename : String) : Except FilenameErr String :=
  let cs := filename.data
  if cs.drop (cs.length - 3) ≠ ['.', 'j', '2'] then .error .notJ2
  else
    let name := cs.take (cs.length - 3)
    if '_' ∉ name then .error .noUnderscore
    else .ok (String.mk (afterFirst '_' name))

/-- Model of Python str.zfill for non-negative payloads: left-pad with
zeros to the requested width. -/
def zfill (s : String) (width : Nat) : String :=
  String.mk (List.replicate (width - s.data.length) '0' ++ s.data)

/-- Model of _index_to_prefix: 1-based zero-padded numeric position. -/
def prefixOfIndex (index total : Nat) : String :=
  zfill (natToString (index + 1)) (max 2 (natToString total).data.length)

/-- Model of type_to_filename. -/
def typeToFilename (typeName : String) (index total : Nat) : String :=
  prefixOfIndex index total ++ "_" ++ typeName ++ ".j2"

/-! ## Data model (src/gpv/db.py) -/

/-- A sub_prompts row (created_at omitted, see header). -/
structure SubPrompt where
  id : Nat
  type : String
  parentId : Option Nat
  version : String
  contents : String
  commitMessage : String
deriving Repr, DecidableEq

/-- A master_prompts row; contents is the decoded ordered id list. -/
structure MasterPrompt where
  id : Nat
  parentId : Option Nat
  version : String
  contents : List Nat
  isCurrent : Bool
  commitMessage : String
deriving Repr, DecidableEq

/-- The two tables plus the AUTOINCREMENT counters. -/
structure Store where
  subPrompts : List SubPrompt
  masterPrompts : List MasterPrompt
  nextSubId : Nat
  nextMasterId : Nat
deriving Repr, DecidableEq

/-- A store with both tables freshly created (sqlite rowids start at 1). -/
def emptyStore : Store :=
  ⟨[], [], 1, 1⟩

/-- Model of get_current_master. -/
def getCurrentMaster (s : Store) : Option MasterPrompt :=
  s.masterPrompts.find? (fun m => m.isCurrent)

/-- Model of get_master_by_id. -/
def getMasterById (s : Store) (i : Nat) : Option MasterPrompt :=
  s.masterPrompts.find? (fun m => m.id == i)

/-- Model of get_previous_master: parent of the current master. -/
def getPreviousMaster (s : Store) : Option MasterPrompt :=
  match getCurrentMaster s with
  | none => none
  | some c =>
    match c.parentId with
    | none => none
    | some p => getMasterById s p

/-- Model of get_sub_prompt_by_contents (contents are UNIQUE in the table). -/
def getSubPromptByContents (s : Store) (c : String) : Option SubPrompt :=
  s.subPrompts.find? (fun r => r.contents == c)

/-- Model of get_sub_prompt_by_id. -/
def getSubPromptById (s : Store) (i : Nat) : Option SubPrompt :=
  s.subPrompts.find? (fun r => r.id == i)

/-- Model of get_sub_prompts_by_ids: requested order, missing ids dropped. -/
def getSubPromptsByIds (s : Store) (ids : List Nat) : List SubPrompt :=
  ids.filterMap (fun i => s.subPrompts.find? (fun r => r.id == i))

/-- Model of insert_sub_prompt: append a row under the next rowid. -/
def insertSubPrompt (s : Store) (type : String) (parentId : Option Nat)
    (version contents commitMessage : String) : Store × Nat :=
  ({ s with
      subPrompts := s.subPrompts ++ [⟨s.nextSubId, type, parentId, version, contents, commitMessage⟩],
      nextSubId := s.nextSubId + 1 },
   s.nextSubId)

/-- Model of insert_master_prompt. -/
def insertMasterPrompt (s : Store) (parentId : Option Nat) (version : String)
    (contents : List Nat) (isCurrent : Bool) (commitMessage : String) : Store × Nat :=
  ({ s with
      masterPrompts := s.masterPrompts ++ [⟨s.nextMasterId, parentId, version, contents, isCurrent, commitMessage⟩],
      nextMasterId := s.nextMasterId + 1 },
   s.nextMasterId)

/-- Model of clear_current_master: set is_current to 0 where it is 1. -/
def clearCurrentMaster (s : Store) : Store :=
  { s with masterPrompts := s.masterPrompts.map (fun m =>
      if m.isCurrent then { m with isCurrent := false } else m) }

/-- Model of set_current_master: clear every current flag, then set it on
the row with the given id. -/
def setCurrentMaster (s : Store) (masterId : Nat) : Store :=
  let s' := clearCurrentMaster s
  { s' with masterPrompts := s'.masterPrompts.map (fun m =>
      if m.id == masterId then { m with isCurrent := true } else m) }

/-- Model of delete_master_prompt. -/
def deleteMasterPrompt (s : Store) (masterId : Nat) : Store :=
  { s with masterPrompts := s.masterPrompts.filter (fun m => !(m.id == masterId)) }

/-- Model of delete_sub_prompts. -/
def deleteSubPrompts (s : Store) (ids : List Nat) : Store :=
  { s with subPrompts := s.subPrompts.filter (fun r => !(ids.contains r.id)) }

/-! ## Commit (src/gpv/commands/commit.py) -/

/-- One entry of files_data: (path, contents, type_name).  The path stands
for the resolved filename; contents have already been read; jinja
validation (an external concern) is not modelled. -/
structure FileData where
  path : String
  contents : String
  typeName : String
deriving Repr, DecidableEq

/-- The commit failure modes of run_commit (CommitError and subclasses,
plus the sqlite IntegrityError on the master UNIQUE contents index). -/
inductive CommitErr where
  | emptyMessage : CommitErr
  | invalidFilename : FilenameErr → CommitErr
  | duplicateTypeInCommit : CommitErr
  | duplicateTypeInCurrent : String → CommitErr
  | parentNotFound : Nat → CommitErr
  | parentTypeMismatch : Nat → String → String → CommitErr
  | masterContentsNotUnique : CommitErr
deriving Repr, DecidableEq

/-- Result of a commit invocation: the error if it raised, whether it ended
in the "nothing to commit" success path, and the store as left on disk
(fragment inserts are committed one by one in the source, so an error can
leave a grown sub_prompts table behind). -/
structure CommitResult where
  error : Option CommitErr
  noop : Bool
  store : Store
deriving Repr, DecidableEq

/-- Whether the working set has two files with the same type (the seen dict
check in run_commit). -/
def hasDupTypes (filesData : List FileData) : Bool :=
  let ts := filesData.map (fun f => f.typeName)
  ts.any (fun t => 1 < ts.count t)

/-- State threaded through the per-fragment resolution loop of run_commit:
the store (each insert is committed immediately), the three dicts, and the
inserted_any flag. -/
structure ResolveState where
  store : Store
  typeToId : List (String × Nat)
  idToVersion : List (Nat × String)
  idToType : List (Nat × String)
  insertedAny : Bool
deriving Repr, DecidableEq

/-- The per-fragment resolution loop of run_commit (lines 145-189): reuse a
row with identical contents, otherwise derive a version from the prior of
the same type in the current master (or from an explicit branch directive)
and insert.  An error aborts with the store as already committed. -/
def resolveFragments (message : String) (branchByPath : List (String × Nat))
    (currentSubs : List SubPrompt) :
    List FileData → ResolveState → Except (CommitErr × Store) ResolveState
  | [], st => .ok st
  | f :: rest, st =>
    match getSubPromptByContents st.store f.contents with
    | some existing =>
      resolveFragments message branchByPath currentSubs rest
        { st with
            typeToId := dictInsert st.typeToId f.typeName existing.id,
            idToVersion := dictInsert st.idToVersion existing.id existing.version,
            idToType := dictInsert st.idToType existing.id existing.type }
    | none =>
      let prior := currentSubs.find? (fun sub => sub.type == f.typeName)
      match dictGet branchByPath f.path with
      | some parentPk =>
        match getSubPromptById st.store parentPk with
        | none => .error (.parentNotFound parentPk, st.store)
        | some parentRow =>
          if parentRow.type ≠ f.typeName then
            .error (.parentTypeMismatch parentPk parentRow.type f.typeName, st.store)
          else
            let version := branchVersion parentRow.version
            let ins := insertSubPrompt st.store f.typeName (some parentPk) version f.contents message
            resolveFragments message branchByPath currentSubs rest
              ⟨ins.1, dictInsert st.typeToId f.typeName ins.2,
                dictInsert st.idToVersion ins.2 version,
                dictInsert st.idToType ins.2 f.typeName, true⟩
      | none =>
        let version := incrementVersion (prior.map (fun sub => sub.version))
        let ins := insertSubPrompt st.store f.typeName (prior.map (fun sub => sub.id)) version f.contents message
        resolveFragments message branchByPath currentSubs rest
          ⟨ins.1, dictInsert st.typeToId f.typeName ins.2,
            dictInsert st.idToVersion ins.2 version,
            dictInsert st.idToType ins.2 f.typeName, true⟩

/-- The store left on disk by the resolution loop, whether it finished or
raised (inserts are committed immediately, so both carry a store). -/
def resolveOutStore : Except (CommitErr × Store) ResolveState → Store
  | .error es => es.2
  | .ok st => st.store

/-- The loop of run_commit lines 194-200: append to the type order every
type of the current master not in the commit; a repeat of such a type is
the DuplicateTypeInCurrentError. -/
def extendTypeOrder (typesInCommit : List String) :
    List SubPrompt → List String → Except String (List String)
  | [], acc => .ok acc
  | row :: rest, acc =>
    if typesInCommit.contains row.type then extendTypeOrder typesInCommit rest acc
    else if acc.contains row.type then .error row.type
    else extendTypeOrder typesInCommit rest (acc ++ [row.type])

/-- The loop of run_commit lines 202-213: turn the type order into the new
ordered id list, carrying forward from the current master and recording
carried versions and types in the dicts. -/
def composeIds (typeToId : List (String × Nat)) (hasCurrent : Bool)
    (currentSubs : List SubPrompt) :
    List String → List Nat × List (Nat × String) × List (Nat × String) →
    List Nat × List (Nat × String) × List (Nat × String)
  | [], acc => acc
  | t :: rest, (ids, iv, it) =>
    match dictGet typeToId t with
    | some i => composeIds typeToId hasCurrent currentSubs rest (ids ++ [i], iv, it)
    | none =>
      if hasCurrent then
        match currentSubs.find? (fun sub => sub.type == t) with
        | some sub =>
          composeIds typeToId hasCurrent currentSubs rest
            (ids ++ [sub.id], dictInsert iv sub.id sub.version, dictInsert it sub.id sub.type)
        | none => composeIds typeToId hasCurrent currentSubs rest (ids, iv, it)
      else composeIds typeToId hasCurrent currentSubs rest (ids, iv, it)

/-- The tail of run_commit after the per-fragment resolution loop (lines
191-244): compose the type order and the new id list, detect no-ops,
derive the version and atomically swap the current master.  Factored out
of runCommit so that each phase can be reasoned about separately; the
context arguments are exactly the values run_commit computed before its
loop. -/
def runCommitFinish (message : String) (filesData : List FileData)
    (current : Option MasterPrompt) (currentIds : List Nat)
    (currentSubs : List SubPrompt) (currentByType : List (String × String))
    (res : Except (CommitErr × Store) ResolveState) : CommitResult :=
  match res with
  | .error es => ⟨some es.1, false, es.2⟩
  | .ok rs =>
    let typesInCommit := filesData.map (fun f => f.typeName)
    match extendTypeOrder typesInCommit currentSubs typesInCommit with
    | .error t => ⟨some (.duplicateTypeInCurrent t), false, rs.store⟩
    | .ok typeOrder =>
      let composed := composeIds rs.typeToId current.isSome currentSubs typeOrder
        ([], rs.idToVersion, rs.idToType)
      let newIds := composed.1
      if newIds.isEmpty then ⟨none, true, rs.store⟩
      else if !rs.insertedAny && current.isSome && newIds == currentIds then
        ⟨none, true, rs.store⟩
      else
        let newMasterVersion := deriveMasterVersion (current.map (fun m => m.version))
          currentByType newIds composed.2.1 composed.2.2
        if rs.store.masterPrompts.any (fun m => m.contents == newIds) then
          ⟨some .masterContentsNotUnique, false, rs.store⟩
        else
          let s1 := match current with
            | some _ => clearCurrentMaster rs.store
            | none => rs.store
          let ins := insertMasterPrompt s1 (current.map (fun m => m.id))
            newMasterVersion newIds true message
          ⟨none, false, ins.1⟩

/-- The composition computed by runCommitFinish from the resolution state
and the extended type order (run_commit lines 202-213). -/
def newComposition (rs : ResolveState) (current : Option MasterPrompt)
    (currentSubs : List SubPrompt) (typeOrder : List String) :
    List Nat × List (Nat × String) × List (Nat × String) :=
  composeIds rs.typeToId current.isSome currentSubs typeOrder
    ([], rs.idToVersion, rs.idToType)

/-- The store written by a successful runCommitFinish: clear the current
flag if a current master existed, then insert the new master row. -/
def successStore (message : String) (current : Option MasterPrompt)
    (currentByType : List (String × String)) (rs : ResolveState)
    (composed : List Nat × List (Nat × String) × List (Nat × String)) : Store :=
  (insertMasterPrompt
    (match current with | some _ => clearCurrentMaster rs.store | none => rs.store)
    (current.map (fun m => m.id))
    (deriveMasterVersion (current.map (fun m => m.version)) currentByType
      composed.1 composed.2.1 composed.2.2)
    composed.1 true message).1

/-- The rows the resolution loop inserts when every file's contents are
fresh and no branch directive applies, starting at the given rowid. -/
def freshInserted (message : String) (curSubs : List SubPrompt) :
    List FileData → Nat → List SubPrompt
  | [], _ => []
  | f :: rest, n =>
    ⟨n, f.typeName,
     (curSubs.find? (fun sub => sub.type == f.typeName)).map (fun sub => sub.id),
     incrementVersion ((curSubs.find? (fun sub => sub.type == f.typeName)).map
       (fun sub => sub.version)),
     f.contents, message⟩ :: freshInserted message curSubs rest (n + 1)

/-- The ordered id list composeIds produces when a current master exists,
phrased without the accumulator. -/
def composedIdsSpec (tti : List (String × Nat)) (cs : List SubPrompt) :
    List String → List Nat
  | [] => []
  | t :: rest =>
    match dictGet tti t with
    | some i => i :: composedIdsSpec tti cs rest
    | none =>
      match cs.find? (fun sub => sub.type == t) with
      | some sub => sub.id :: composedIdsSpec tti cs rest
      | none => composedIdsSpec tti cs rest

/-- Model of run_commit from the point where files_data is built (lines
118-244).  filesData is the working set in sorted-filename order;
branchSpecs are the (parent_pk, path) pairs.  Kept faithful to the source:
each fragment insert is committed at once; only the final clear-current plus
master insert runs inside a transaction, so a failing master insert (the
UNIQUE contents index) rolls back only that block. -/
def runCommit (message : String) (filesData : List FileData)
    (branchSpecs : List (Nat × String)) (store : Store) : CommitResult :=
  if message = "" then ⟨some .emptyMessage, false, store⟩
  else if filesData.isEmpty then ⟨none, true, store⟩
  else if hasDupTypes filesData then ⟨some .duplicateTypeInCommit, false, store⟩
  else
    let branchByPath := dictOf (branchSpecs.map (fun sp => (sp.2, sp.1)))
    let current := getCurrentMaster store
    let currentIds := match current with | some m => m.contents | none => []
    let currentSubs := getSubPromptsByIds store currentIds
    let currentByType := dictOf (currentSubs.map (fun r => (r.type, r.version)))
    runCommitFinish message filesData current currentIds currentSubs currentByType
      (resolveFragments message branchByPath currentSubs filesData ⟨store, [], [], [], false⟩)

/-- Build files_data from (filename, contents) pairs in sorted order,
decomposing each filename into a type label; the first ValueError aborts
before any store access (run_commit lines 106-116, no_validate mode). -/
def buildFilesData : List (String × String) → Except FilenameErr (List FileData)
  | [] => .ok []
  | (name, contents) :: rest =>
    match extractTypeFromFilename name with
    | .error e => .error e
    | .ok t =>
      match buildFilesData rest with
      | .error e => .error e
      | .ok l => .ok (⟨name, contents, t⟩ :: l)

/-- Full commit invocation on already-read, name-sorted files: the message
check, filename decomposition, then runCommit. -/
def runCommitFiles (message : String) (files : List (String × String))
    (branchSpecs : List (Nat × String)) (store : Store) : CommitResult :=
  if message = "" then ⟨some .emptyMessage, false, store⟩
  else
    match buildFilesData files with
    | .error e => ⟨some (.invalidFilename e), false, store⟩
    | .ok filesData => runCommit message filesData branchSpecs store

/-! ## Uncommit (src/gpv/commands/uncommit.py) -/

/-- The uncommit failure modes. -/
inductive UncommitErr where
  | noCurrentMaster : UncommitErr
  | noPreviousMaster : UncommitErr
deriving Repr, DecidableEq

/-- The deletion loop of run_uncommit lines 55-63: walk the current
by-type dict; delete the id when the type is absent from the previous
master or its version is strictly later. -/
def computeToDelete (currentByType previousByType : List (String × Nat × String)) : List Nat :=
  currentByType.foldl (fun acc p =>
    match dictGet previousByType p.1 with
    | none => acc ++ [p.2.1]
    | some q => if versionGt p.2.2 q.2 then acc ++ [p.2.1] else acc) []

/-- Model of run_uncommit (confirm already answered yes): revert to the
parent of the current master, deleting sub-prompts by the type/version
rule. -/
def runUncommit (store : Store) : Except UncommitErr Store :=
  match getCurrentMaster store with
  | none => .error .noCurrentMaster
  | some current =>
    match getPreviousMaster store with
    | none => .error .noPreviousMaster
    | some previous =>
      let currentSubs := getSubPromptsByIds store current.contents
      let previousSubs := getSubPromptsByIds store previous.contents
      let currentByType := dictOf (currentSubs.map (fun r => (r.type, (r.id, r.version))))
      let previousByType := dictOf (previousSubs.map (fun r => (r.type, (r.id, r.version))))
      let toDelete := computeToDelete currentByType previousByType
      let s1 := deleteMasterPrompt store current.id
      let s2 := setCurrentMaster s1 previous.id
      .ok (deleteSubPrompts s2 toDelete)

/-! ## Reachability and store well-formedness -/

/-- States reachable from a fresh store by commit and uncommit invocations
(including failing commits, whose partial writes persist). -/
inductive Reachable : Store → Prop where
  | init : Reachable emptyStore
  | commit (m : String) (files : List (String × String)) (specs : List (Nat × String))
      {s : Store} : Reachable s → Reachable (runCommitFiles m files specs s).store
  | uncommit {s s' : Store} : Reachable s → runUncommit s = .ok s' → Reachable s'

/-- Well-formedness of the sub_prompts table: distinct ids below the
AUTOINCREMENT counter, globally unique contents, valid version strings. -/
def subTableInv (s : Store) : Prop :=
  (s.subPrompts.map (fun r => r.id)).Nodup ∧
  (∀ r ∈ s.subPrompts, r.id < s.nextSubId) ∧
  (s.subPrompts.map (fun r => r.contents)).Nodup ∧
  (∀ r ∈ s.subPrompts, ValidVersion r.version = true)

/-- Well-formedness of the master_prompts table: distinct ids below the
counter, at most one current row, contents referencing allocated sub ids. -/
def masterTableInv (s : Store) : Prop :=
  (s.masterPrompts.map (fun m => m.id)).Nodup ∧
  (∀ m ∈ s.masterPrompts, m.id < s.nextMasterId) ∧
  (s.masterPrompts.filter (fun m => m.isCurrent)).length ≤ 1 ∧
  (∀ m ∈ s.masterPrompts, ∀ i ∈ m.contents, i < s.nextSubId)

/-- Well-formedness of a store. -/
def storeInv (s : Store) : Prop :=
  subTableInv s ∧ masterTableInv s

instance subTableInvDecidable (s : Store) : Decidable (subTableInv s) := by
  unfold subTableInv
  infer_instance

instance masterTableInvDecidable (s : Store) : Decidable (masterTableInv s) := by
  unfold masterTableInv
  infer_instance

instance storeInvDecidable (s : Store) : Decidable (storeInv s) := by
  unfold storeInv
  infer_instance

/-- The deletion rule run_uncommit actually implements, per candidate row
id: the id is the surviving (last) dict entry for its type among the
current master rows, and that type is either absent from the previous
master rows or carries a strictly later version. -/
def typeBasedDeleted (store : Store) (current previous : MasterPrompt) (i : Nat) : Bool :=
  let currentByType := dictOf ((getSubPromptsByIds store current.contents).map
    (fun r => (r.type, (r.id, r.version))))
  let previousByType := dictOf ((getSubPromptsByIds store previous.contents).map
    (fun r => (r.type, (r.id, r.version))))
  currentByType.any (fun p =>
    p.2.1 == i &&
      match dictGet previousByType p.1 with
      | none => true
      | some q => versionGt p.2.2 q.2)

/-! # Theorems -/

/-! ## Digit and string groundwork -/

theorem digitChar_toNat (d : Nat) (h : d < 10) : (digitChar d).toNat = 48 + d := by
  interval_cases d <;> rfl

theorem isDigitChar_digitChar (d : Nat) (h : d < 10) : isDigitChar (digitChar d) = true := by
  interval_cases d <;> rfl

theorem char_eq_of_toNat_eq {c d : Char} (h : c.toNat = d.toNat) : c = d :=
  Char.ext (UInt32.ext h)

theorem digitChar_of_isDigit {c : Char} (h : isDigitChar c = true) :
    digitChar (c.toNat - 48) = c := by
  simp only [isDigitChar, Bool.and_eq_true, decide_eq_true_eq] at h
  apply char_eq_of_toNat_eq
  rw [digitChar_toNat (c.toNat - 48) (by omega)]
  omega

theorem isDigitChar_ne_dot {c : Char} (h : isDigitChar c = true) : c ≠ '.' := by
  simp only [isDigitChar, Bool.and_eq_true, decide_eq_true_eq] at h
  intro heq
  subst heq
  revert h
  decide

theorem natToDigits_fuel (f g n : Nat) (hf : n ≤ f) (hg : n ≤ g) :
    natToDigits f n = natToDigits g n := by
  induction f using Nat.strong_induction_on generalizing g n with
  | _ f ih =>
    match f, g with
    | 0, g => interval_cases n; cases g <;> rfl
    | f + 1, 0 => interval_cases n; rfl
    | f + 1, g + 1 =>
      by_cases hn : n = 0
      · subst hn; simp [natToDigits]
      · simp only [natToDigits, if_neg hn]
        have hd : n / 10 < n := Nat.div_lt_self (Nat.pos_of_ne_zero hn) (by omega)
        rw [ih f (by omega) g (n / 10) (by omega) (by omega)]

theorem parseNatList_append_digit (l : List Char) (c : Char) :
    parseNatList (l ++ [c]) = parseNatList l * 10 + (c.toNat - 48) := by
  simp [parseNatList, List.foldl_append]

theorem parseNatList_natToDigits (fuel n : Nat) (h : n ≤ fuel) :
    parseNatList (natToDigits fuel n) = n := by
  induction fuel using Nat.strong_induction_on generalizing n with
  | _ fuel ih =>
    match fuel with
    | 0 => interval_cases n; rfl
    | fuel + 1 =>
      by_cases hn : n = 0
      · subst hn; rfl
      · simp only [natToDigits, if_neg hn]
        rw [parseNatList_append_digit]
        have hd : n / 10 < n := Nat.div_lt_self (Nat.pos_of_ne_zero hn) (by omega)
        rw [ih fuel (by omega) (n / 10) (by omega)]
        rw [digitChar_toNat (n % 10) (Nat.mod_lt n (by omega))]
        omega

theorem parseNat_natToString (n : Nat) : parseNat (natToString n) = n := by
  by_cases hn : n = 0
  · subst hn; rfl
  · simp only [natToString, if_neg hn, parseNat]
    exact parseNatList_natToDigits n n le_rfl

theorem natToDigits_all_digits (fuel n : Nat) :
    (natToDigits fuel n).all isDigitChar = true := by
  induction fuel generalizing n with
  | zero => rfl
  | succ fuel ih =>
    by_cases hn : n = 0
    · subst hn; rfl
    · simp only [natToDigits, if_neg hn, List.all_append, Bool.and_eq_true]
      exact ⟨ih (n / 10), by simp [isDigitChar_digitChar (n % 10) (Nat.mod_lt n (by omega))]⟩

theorem natToDigits_ne_nil (fuel n : Nat) (hf : 0 < fuel) (hn : 0 < n) :
    natToDigits fuel n ≠ [] := by
  match fuel with
  | f + 1 =>
    simp only [natToDigits, if_neg (by omega : ¬ n = 0)]
    simp

theorem natToString_all_digits (n : Nat) :
    (natToString n).data.all isDigitChar = true := by
  by_cases hn : n = 0
  · subst hn; rfl
  · simp only [natToString, if_neg hn]
    exact natToDigits_all_digits n n

theorem natToString_ne_empty (n : Nat) : (natToString n).data ≠ [] := by
  by_cases hn : n = 0
  · subst hn; decide
  · simp only [natToString, if_neg hn]
    exact natToDigits_ne_nil n n (by omega) (by omega)

/-! ## Split and join -/

theorem joinDot_cons_cons (s t : String) (rest : List String) :
    joinDot (s :: t :: rest) = s ++ "." ++ joinDot (t :: rest) := by
  rfl

theorem splitDotAux_ne_nil (cs acc : List Char) : splitDotAux cs acc ≠ [] := by
  induction cs generalizing acc with
  | nil => simp [splitDotAux]
  | cons c cs ih =>
    simp only [splitDotAux]
    split
    · simp
    · exact ih _

theorem splitDot_ne_nil (s : String) : splitDot s ≠ [] :=
  splitDotAux_ne_nil s.data []

theorem string_data_inj {s t : String} (h : s.data = t.data) : s = t := by
  cases s; cases t; exact congrArg String.mk h

theorem string_data_append (s t : String) : (s ++ t).data = s.data ++ t.data := by
  cases s; cases t; rfl

theorem splitDotAux_append_dot (cs : List Char) (acc : List Char) (r : List Char) :
    splitDotAux (cs ++ '.' :: r) acc = splitDotAux cs acc ++ splitDotAux r [] := by
  induction cs generalizing acc with
  | nil => simp [splitDotAux]
  | cons c cs ih =>
    simp only [List.cons_append, splitDotAux]
    split
    · simp [ih]
    · exact ih _

theorem splitDotAux_no_dot (cs : List Char) (acc : List Char)
    (h : '.' ∉ cs) : splitDotAux cs acc = [String.mk (acc.reverse ++ cs)] := by
  induction cs generalizing acc with
  | nil => simp [splitDotAux]
  | cons c cs ih =>
    simp only [List.mem_cons, not_or] at h
    have hc : ¬ c = '.' := fun hc => h.1 hc.symm
    simp only [splitDotAux, if_neg hc]
    rw [ih _ h.2]
    simp

theorem joinDot_splitDotAux (cs acc : List Char) :
    (joinDot (splitDotAux cs acc)).data = acc.reverse ++ cs := by
  induction cs generalizing acc with
  | nil => simp [splitDotAux, joinDot]
  | cons c cs ih =>
    simp only [splitDotAux]
    by_cases hc : c = '.'
    · subst hc
      rw [if_pos rfl]
      have hne := splitDotAux_ne_nil cs ([] : List Char)
      match hsp : splitDotAux cs [] with
      | [] => exact absurd hsp hne
      | t :: rest =>
        rw [joinDot_cons_cons]
        rw [string_data_append, string_data_append]
        have := ih ([] : List Char)
        rw [hsp] at this
        simp only [List.reverse_nil, List.nil_append] at this
        simp [this]
    · rw [if_neg hc, ih (c :: acc)]
      simp

theorem joinDot_splitDot (s : String) : joinDot (splitDot s) = s := by
  apply string_data_inj
  rw [splitDot, joinDot_splitDotAux]
  simp

theorem splitDot_joinDot (l : List String) (hne : l ≠ [])
    (hnd : ∀ seg ∈ l, '.' ∉ seg.data) : splitDot (joinDot l) = l := by
  induction l with
  | nil => exact absurd rfl hne
  | cons s rest ih =>
    match rest with
    | [] =>
      have hs := hnd s (by simp)
      simp only [joinDot, splitDot]
      rw [splitDotAux_no_dot s.data [] hs]
      simp
    | t :: rest' =>
      rw [joinDot_cons_cons]
      simp only [splitDot]
      rw [string_data_append, string_data_append]
      have hdot : ("." : String).data = ['.'] := rfl
      rw [hdot]
      have hs := hnd s (by simp)
      rw [List.append_assoc]
      have hassoc : s.data ++ (['.'] ++ (joinDot (t :: rest')).data)
          = s.data ++ '.' :: (joinDot (t :: rest')).data := by simp
      rw [hassoc, splitDotAux_append_dot s.data [] ((joinDot (t :: rest')).data)]
      rw [splitDotAux_no_dot s.data [] hs]
      have hr : splitDotAux (joinDot (t :: rest')).data [] = splitDot (joinDot (t :: rest')) := rfl
      rw [hr, ih (by simp) (fun seg hseg => hnd seg (by simp [hseg]))]
      simp

/-! ## Padded comparison order lemmas -/

theorem padCmpGt_nil_left (b : List Nat) : padCmpGt [] b = false := rfl

theorem padCmpGt_irrefl (a : List Nat) : padCmpGt a a = false := by
  induction a with
  | nil => rfl
  | cons x xs ih => simp [padCmpGt, ih]

theorem padCmpGt_common (common as bs : List Nat) :
    padCmpGt (common ++ as) (common ++ bs) = padCmpGt as bs := by
  induction common with
  | nil => rfl
  | cons x xs ih => simp [padCmpGt, ih]

theorem padCmpGt_append_succ (xs : List Nat) (k : Nat) :
    padCmpGt (xs ++ [k + 1]) (xs ++ [k]) = true := by
  rw [padCmpGt_common]
  simp [padCmpGt]

theorem padCmpGt_asymm (a : List Nat) : ∀ b, padCmpGt a b = true → padCmpGt b a = false := by
  induction a with
  | nil => intro b h; rw [padCmpGt_nil_left] at h; exact absurd h (by simp)
  | cons x xs ih =>
    intro b h
    cases b with
    | nil => rfl
    | cons y ys =>
      simp only [padCmpGt] at h ⊢
      by_cases h1 : y < x
      · rw [if_neg (by omega : ¬ x < y), if_pos h1]
      · by_cases h2 : x < y
        · rw [if_neg h1, if_pos h2] at h
          exact absurd h (by simp)
        · rw [if_neg h1, if_neg h2] at h
          rw [if_neg h2, if_neg h1]
          exact ih ys h

theorem padCmpGt_trans (a : List Nat) :
    ∀ b c, padCmpGt a b = true → padCmpGt b c = true → padCmpGt a c = true := by
  induction a with
  | nil => intro b c h _; rw [padCmpGt_nil_left] at h; exact absurd h (by simp)
  | cons x xs ih =>
    intro b c h1 h2
    cases b with
    | nil => rw [padCmpGt_nil_left] at h2; exact absurd h2 (by simp)
    | cons y ys =>
      cases c with
      | nil =>
        simp only [padCmpGt] at h1 h2 ⊢
        by_cases hyx : y < x
        · by_cases hy : 0 < y
          · rw [if_pos (by omega)]
          · rw [if_pos (by omega)]
        · by_cases hxy : x < y
          · rw [if_neg hyx, if_pos hxy] at h1
            exact absurd h1 (by simp)
          · have heq : x = y := by omega
            subst heq
            rw [if_neg hyx, if_neg hxy] at h1
            by_cases hx : 0 < x
            · rw [if_pos hx]
            · rw [if_neg hx] at h2 ⊢
              exact ih ys [] h1 h2
      | cons z zs =>
        simp only [padCmpGt] at h1 h2 ⊢
        by_cases hyx : y < x
        · by_cases hzy : z < y
          · rw [if_pos (by omega)]
          · by_cases hyz : y < z
            · rw [if_neg hzy, if_pos hyz] at h2
              exact absurd h2 (by simp)
            · have hzx : z < x := by omega
              rw [if_pos hzx]
        · by_cases hxy : x < y
          · rw [if_neg hyx, if_pos hxy] at h1
            exact absurd h1 (by simp)
          · have heq : x = y := by omega
            subst heq
            rw [if_neg hyx, if_neg hxy] at h1
            by_cases hzx : z < x
            · rw [if_pos hzx]
            · by_cases hxz : x < z
              · rw [if_neg hzx, if_pos hxz] at h2
                exact absurd h2 (by simp)
              · rw [if_neg hzx, if_neg hxz] at h2 ⊢
                exact ih ys zs h1 h2

theorem padCmpGt_total_pos (a : List Nat) :
    ∀ b, (∀ x ∈ a, 0 < x) → (∀ x ∈ b, 0 < x) → a ≠ b →
    padCmpGt a b = true ∨ padCmpGt b a = true := by
  induction a with
  | nil =>
    intro b _ hb hne
    cases b with
    | nil => exact absurd rfl hne
    | cons y ys =>
      right
      simp only [padCmpGt]
      rw [if_pos (hb y (by simp))]
  | cons x xs ih =>
    intro b hx hb hne
    cases b with
    | nil =>
      left
      simp only [padCmpGt]
      rw [if_pos (hx x (by simp))]
    | cons y ys =>
      rcases Nat.lt_trichotomy x y with hlt | heq | hgt
      · right; simp only [padCmpGt]; rw [if_pos hlt]
      · subst heq
        have hne' : xs ≠ ys := fun h => hne (by rw [h])
        rcases ih ys (fun z hz => hx z (by simp [hz])) (fun z hz => hb z (by simp [hz])) hne' with h | h
        · left; simp only [padCmpGt]; rw [if_neg (by omega), if_neg (by omega)]; exact h
        · right; simp only [padCmpGt]; rw [if_neg (by omega), if_neg (by omega)]; exact h
      · left; simp only [padCmpGt]; rw [if_pos hgt]

/-! ## Valid and canonical version strings -/

theorem no_dot_of_all_digits {l : List Char} (h : l.all isDigitChar = true) : '.' ∉ l := by
  intro hm
  have := List.all_eq_true.mp h '.' hm
  exact absurd this (by decide)

theorem validVersion_segment {s seg : String} (h : ValidVersion s = true)
    (hm : seg ∈ splitDot s) : seg.data ≠ [] ∧ seg.data.all isDigitChar = true := by
  have hseg := List.all_eq_true.mp h seg hm
  simp only [Bool.and_eq_true] at hseg
  refine ⟨?_, hseg.2⟩
  intro hnil
  rw [hnil] at hseg
  simp at hseg

theorem canonicalVersion_segment {s seg : String} (h : CanonicalVersion s = true)
    (hm : seg ∈ splitDot s) :
    seg.data ≠ [] ∧ seg.data.all isDigitChar = true ∧ seg.data.head? ≠ some '0' := by
  have hseg := List.all_eq_true.mp h seg hm
  simp only [Bool.and_eq_true] at hseg
  refine ⟨?_, hseg.1.2, ?_⟩
  · intro hnil
    rw [hnil] at hseg
    simp at hseg
  · intro hhead
    have := hseg.2
    rw [hhead] at this
    simp at this

theorem canonicalVersion_valid {s : String} (h : CanonicalVersion s = true) :
    ValidVersion s = true := by
  rw [ValidVersion, List.all_eq_true]
  intro seg hm
  have hseg := List.all_eq_true.mp h seg hm
  simp only [Bool.and_eq_true] at hseg
  simp [hseg.1.1, hseg.1.2]

/-! ## Increment and branch over valid version strings -/

theorem getLastBang_concat {α : Type} [Inhabited α] (l : List α) (a : α) :
    (l ++ [a]).getLast! = a := by
  have h : (l ++ [a]).getLast? = some a := List.getLast?_concat l
  have hne : l ++ [a] ≠ [] := by simp
  cases hl : l ++ [a] with
  | nil => exact absurd hl hne
  | cons x xs =>
    rw [hl] at h
    rw [List.getLast?_eq_getLast _ (by simp)] at h
    simp only [List.getLast!]
    exact Option.some_injective _ h

theorem splitDot_increment (v : String) (h : ValidVersion v = true)
    {Q : List String} {L : String} (hQL : splitDot v = Q ++ [L]) :
    splitDot (incrementVersion (some v)) = Q ++ [natToString (parseNat L + 1)] := by
  have hdrop : (splitDot v).dropLast = Q := by rw [hQL]; exact List.dropLast_concat
  have hlast : (splitDot v).getLast! = L := by rw [hQL]; exact getLastBang_concat Q L
  show splitDot (joinDot ((splitDot v).dropLast ++ [natToString (parseNat ((splitDot v).getLast!) + 1)])) = _
  rw [hdrop, hlast]
  apply splitDot_joinDot
  · simp
  · intro seg hseg
    rcases List.mem_append.mp hseg with hq | hl
    · have hv : seg ∈ splitDot v := by rw [hQL]; exact List.mem_append.mpr (Or.inl hq)
      exact no_dot_of_all_digits (validVersion_segment h hv).2
    · have : seg = natToString (parseNat L + 1) := by simpa using hl
      subst this
      exact no_dot_of_all_digits (natToString_all_digits _)

theorem splitDot_branch (v : String) : splitDot (branchVersion v) = splitDot v ++ ["1"] := by
  show splitDotAux (v ++ ".1").data [] = _
  rw [string_data_append]
  have hdot : (".1" : String).data = '.' :: ['1'] := rfl
  rw [hdot, splitDotAux_append_dot]
  have h1 : splitDotAux ['1'] [] = ["1"] := by decide
  rw [h1]
  rfl

theorem validVersion_increment_some (v : String) (h : ValidVersion v = true) :
    ValidVersion (incrementVersion (some v)) = true := by
  obtain ⟨Q, L, hQL⟩ := (splitDot v).eq_nil_or_concat'.resolve_left (splitDot_ne_nil v)
  rw [ValidVersion, splitDot_increment v h hQL, List.all_eq_true]
  intro seg hseg
  rcases List.mem_append.mp hseg with hq | hl
  · have hv : seg ∈ splitDot v := by rw [hQL]; exact List.mem_append.mpr (Or.inl hq)
    obtain ⟨h1, h2⟩ := validVersion_segment h hv
    simp [h1, h2, List.isEmpty_iff]
  · have : seg = natToString (parseNat L + 1) := by simpa using hl
    subst this
    simp [natToString_ne_empty, natToString_all_digits, List.isEmpty_iff]

theorem validVersion_increment_none : ValidVersion (incrementVersion none) = true := by decide

theorem validVersion_branch (v : String) (h : ValidVersion v = true) :
    ValidVersion (branchVersion v) = true := by
  rw [ValidVersion, splitDot_branch, List.all_eq_true]
  intro seg hseg
  rcases List.mem_append.mp hseg with hq | hl
  · obtain ⟨h1, h2⟩ := validVersion_segment h hq
    simp [h1, h2, List.isEmpty_iff]
  · have : seg = "1" := by simpa using hl
    subst this
    decide

/-- C5: for every valid dotted version string v, increment preserves the
segment depth and strictly increases the version; branch is recognised by
isBranched and adds one segment; increment of an absent parent is "1". -/
theorem c5_version_arithmetic (v : String) (h : ValidVersion v = true) :
    versionSegmentCount (incrementVersion (some v)) = versionSegmentCount v ∧
    versionGt (incrementVersion (some v)) v = true ∧
    isBranched (branchVersion v) v = true ∧
    versionSegmentCount (branchVersion v) = versionSegmentCount v + 1 ∧
    incrementVersion none = "1" := by
  obtain ⟨Q, L, hQL⟩ := (splitDot v).eq_nil_or_concat'.resolve_left (splitDot_ne_nil v)
  have hinc := splitDot_increment v h hQL
  refine ⟨?_, ?_, ?_, ?_, rfl⟩
  · rw [versionSegmentCount, versionSegmentCount, hinc, hQL]
    simp
  · rw [versionGt, hinc, hQL, List.map_append, List.map_append]
    simp only [List.map_cons, List.map_nil]
    rw [parseNat_natToString]
    exact padCmpGt_append_succ _ _
  · simp [isBranched, versionSegmentCount, splitDot_branch]
  · simp [versionSegmentCount, splitDot_branch]

/-- C5 witness at the concrete version "4.3". -/
theorem c5_witness :
    ValidVersion "4.3" = true ∧
    (versionSegmentCount (incrementVersion (some "4.3")) = versionSegmentCount "4.3" ∧
     versionGt (incrementVersion (some "4.3")) "4.3" = true ∧
     isBranched (branchVersion "4.3") "4.3" = true ∧
     versionSegmentCount (branchVersion "4.3") = versionSegmentCount "4.3" + 1 ∧
     incrementVersion none = "1") :=
  ⟨by decide, c5_version_arithmetic "4.3" (by decide)⟩

/-! ## Canonical digit strings are uniquely parsed -/

theorem natToDigits_zero (fuel : Nat) : natToDigits fuel 0 = [] := by
  cases fuel <;> rfl

theorem parseFoldl_ge (l : List Char) (a : Nat) :
    a ≤ l.foldl (fun x c => x * 10 + (c.toNat - 48)) a := by
  induction l generalizing a with
  | nil => exact le_rfl
  | cons c cs ih =>
    calc a ≤ a * 10 + (c.toNat - 48) := by omega
    _ ≤ cs.foldl (fun x c => x * 10 + (c.toNat - 48)) (a * 10 + (c.toNat - 48)) := ih _

theorem parseNatList_cons_pos {c : Char} (rest : List Char)
    (hd : isDigitChar c = true) (h0 : c ≠ '0') : 0 < parseNatList (c :: rest) := by
  have hc : 1 ≤ c.toNat - 48 := by
    simp only [isDigitChar, Bool.and_eq_true, decide_eq_true_eq] at hd
    rcases Nat.lt_or_ge 49 c.toNat with h | h
    · omega
    · have : c.toNat = 48 ∨ c.toNat = 49 := by omega
      rcases this with h48 | h49
      · exact absurd (char_eq_of_toNat_eq (show c.toNat = ('0' : Char).toNat from h48)) h0
      · omega
  have : parseNatList (c :: rest) = rest.foldl (fun x c => x * 10 + (c.toNat - 48)) (c.toNat - 48) := by
    simp [parseNatList]
  rw [this]
  calc 0 < c.toNat - 48 := hc
  _ ≤ _ := parseFoldl_ge rest _

theorem natToString_data_mul_add (m d : Nat) (hm : 0 < m) (hd : d < 10) :
    (natToString (m * 10 + d)).data = (natToString m).data ++ [digitChar d] := by
  have hn : ¬ m * 10 + d = 0 := by omega
  simp only [natToString, if_neg hn, if_neg (by omega : ¬ m = 0)]
  cases he : m * 10 + d with
  | zero => omega
  | succ k =>
    have hdiv : (k + 1) / 10 = m := by omega
    have hmod : (k + 1) % 10 = d := by omega
    have hk : natToDigits (k + 1) (k + 1) =
        natToDigits k ((k + 1) / 10) ++ [digitChar ((k + 1) % 10)] := by
      simp [natToDigits]
    show natToDigits (k + 1) (k + 1) = natToDigits m m ++ [digitChar d]
    rw [hk, hdiv, hmod, natToDigits_fuel k m m (by omega) le_rfl]

theorem natToString_parseNatList_canonical (l : List Char) (hne : l ≠ [])
    (hdig : l.all isDigitChar = true) (hhead : l.head? ≠ some '0') :
    (natToString (parseNatList l)).data = l := by
  induction l using List.reverseRecOn with
  | nil => exact absurd rfl hne
  | append_singleton l c ih =>
    cases l with
    | nil =>
      simp only [List.nil_append] at hne hdig hhead ⊢
      have hc : isDigitChar c = true := by
        have := List.all_eq_true.mp hdig c (by simp)
        exact this
      have h0 : c ≠ '0' := by
        intro h; exact hhead (by simp [h])
      have hval : parseNatList [c] = c.toNat - 48 := by simp [parseNatList]
      have hpos : 0 < c.toNat - 48 := by
        have := parseNatList_cons_pos [] hc h0
        rw [hval] at this
        exact this
      rw [hval]
      simp only [natToString, if_neg (by omega : ¬ c.toNat - 48 = 0)]
      cases he : c.toNat - 48 with
      | zero => omega
      | succ k =>
        have hk : natToDigits (k + 1) (k + 1) =
            natToDigits k ((k + 1) / 10) ++ [digitChar ((k + 1) % 10)] := by
          simp [natToDigits]
        have hlt : c.toNat - 48 < 10 := by
          simp only [isDigitChar, Bool.and_eq_true, decide_eq_true_eq] at hc
          omega
        rw [he] at hlt
        have hdiv : (k + 1) / 10 = 0 := by omega
        have hmod : (k + 1) % 10 = k + 1 := by omega
        rw [hk, hdiv, hmod, natToDigits_zero]
        rw [← he, digitChar_of_isDigit hc]
        rfl
    | cons c0 l' =>
      have hdig' : (c0 :: l').all isDigitChar = true := by
        rw [List.all_eq_true] at hdig ⊢
        intro x hx
        exact hdig x (by simp [List.mem_cons] at hx ⊢; tauto)
      have hhead' : (c0 :: l').head? ≠ some '0' := by
        simpa using hhead
      have hc : isDigitChar c = true :=
        List.all_eq_true.mp hdig c (by simp)
      have hclt : c.toNat - 48 < 10 := by
        simp only [isDigitChar, Bool.and_eq_true, decide_eq_true_eq] at hc
        omega
      have hpos : 0 < parseNatList (c0 :: l') := by
        apply parseNatList_cons_pos l'
        · exact List.all_eq_true.mp hdig' c0 (by simp)
        · intro h; exact hhead' (by simp [h])
      rw [parseNatList_append_digit]
      rw [natToString_data_mul_add _ _ hpos hclt]
      rw [ih (by simp) hdig' hhead', digitChar_of_isDigit hc]

theorem natToString_parseNat_canonical {seg : String} (hne : seg.data ≠ [])
    (hdig : seg.data.all isDigitChar = true) (hhead : seg.data.head? ≠ some '0') :
    natToString (parseNat seg) = seg :=
  string_data_inj (natToString_parseNatList_canonical seg.data hne hdig hhead)

theorem parseNat_pos_canonical {seg : String} (hne : seg.data ≠ [])
    (hdig : seg.data.all isDigitChar = true) (hhead : seg.data.head? ≠ some '0') :
    0 < parseNat seg := by
  cases hd : seg.data with
  | nil => exact absurd hd hne
  | cons c rest =>
    rw [parseNat, hd]
    apply parseNatList_cons_pos
    · rw [List.all_eq_true] at hdig
      exact hdig c (by rw [hd]; simp)
    · intro h
      rw [hd, h] at hhead
      simp at hhead

theorem segs_eq_of_map_parse (l1 : List String) : ∀ l2 : List String,
    (∀ seg ∈ l1, seg.data ≠ [] ∧ seg.data.all isDigitChar = true ∧ seg.data.head? ≠ some '0') →
    (∀ seg ∈ l2, seg.data ≠ [] ∧ seg.data.all isDigitChar = true ∧ seg.data.head? ≠ some '0') →
    l1.map parseNat = l2.map parseNat → l1 = l2 := by
  induction l1 with
  | nil =>
    intro l2 _ _ h
    cases l2 with
    | nil => rfl
    | cons t ts => simp at h
  | cons s ss ih =>
    intro l2 h1 h2 h
    cases l2 with
    | nil => simp at h
    | cons t ts =>
      simp only [List.map_cons, List.cons.injEq] at h
      obtain ⟨hs1, hs2, hs3⟩ := h1 s (by simp)
      obtain ⟨ht1, ht2, ht3⟩ := h2 t (by simp)
      have hst : s = t := by
        rw [← natToString_parseNat_canonical hs1 hs2 hs3,
            ← natToString_parseNat_canonical ht1 ht2 ht3, h.1]
      rw [hst, ih ts (fun seg hseg => h1 seg (by simp [hseg])) (fun seg hseg => h2 seg (by simp [hseg])) h.2]

/-- C6 amended: the three concrete comparisons from the spec hold, and
version_gt is a strict order (irreflexive, asymmetric, transitive) on all
strings which is total on canonical version strings, i.e. those whose
segments are positive decimals without leading zeros. -/
theorem c6_strict_order :
    (versionGt "4.2" "4.1.1" = true ∧ versionGt "4.3" "4.3" = false ∧
     versionGt "4.3" "4.3.1" = false) ∧
    (∀ a : String, versionGt a a = false) ∧
    (∀ a b : String, versionGt a b = true → versionGt b a = false) ∧
    (∀ a b c : String, versionGt a b = true → versionGt b c = true → versionGt a c = true) ∧
    (∀ a b : String, CanonicalVersion a = true → CanonicalVersion b = true → a ≠ b →
      versionGt a b = true ∨ versionGt b a = true) := by
  refine ⟨by decide, ?_, ?_, ?_, ?_⟩
  · intro a
    exact padCmpGt_irrefl _
  · intro a b h
    exact padCmpGt_asymm _ _ h
  · intro a b c h1 h2
    exact padCmpGt_trans _ _ _ h1 h2
  · intro a b ha hb hne
    by_cases hAB : (splitDot a).map parseNat = (splitDot b).map parseNat
    · exfalso
      have hsegs : splitDot a = splitDot b := by
        apply segs_eq_of_map_parse _ _ _ _ hAB
        · intro seg hseg; exact canonicalVersion_segment ha hseg
        · intro seg hseg; exact canonicalVersion_segment hb hseg
      exact hne (by rw [← joinDot_splitDot a, ← joinDot_splitDot b, hsegs])
    · apply padCmpGt_total_pos
      · intro x hx
        obtain ⟨seg, hm, rfl⟩ := List.mem_map.mp hx
        obtain ⟨g1, g2, g3⟩ := canonicalVersion_segment ha hm
        exact parseNat_pos_canonical g1 g2 g3
      · intro x hx
        obtain ⟨seg, hm, rfl⟩ := List.mem_map.mp hx
        obtain ⟨g1, g2, g3⟩ := canonicalVersion_segment hb hm
        exact parseNat_pos_canonical g1 g2 g3
      · exact hAB

/-- C6 counterexample: "4.0" and "4" are distinct valid dotted version
strings but neither compares greater, so version_gt is not total on all
valid version strings as the claim states. -/
theorem c6_counterexample :
    ValidVersion "4.0" = true ∧ ValidVersion "4" = true ∧ "4.0" ≠ "4" ∧
    versionGt "4.0" "4" = false ∧ versionGt "4" "4.0" = false := by
  decide

/-- C6 witness: totality of the amended order at the concrete canonical
pair "4.2" and "4.1.1". -/
theorem c6_witness :
    CanonicalVersion "4.2" = true ∧ CanonicalVersion "4.1.1" = true ∧
    ("4.2" : String) ≠ "4.1.1" ∧
    (versionGt "4.2" "4.1.1" = true ∨ versionGt "4.1.1" "4.2" = true) :=
  ⟨by decide, by decide, by decide,
    c6_strict_order.2.2.2.2 "4.2" "4.1.1" (by decide) (by decide) (by decide)⟩

/-! ## Filename codec round-trip -/

theorem isDigitChar_ne_underscore {c : Char} (h : isDigitChar c = true) : c ≠ '_' := by
  simp only [isDigitChar, Bool.and_eq_true, decide_eq_true_eq] at h
  intro heq
  subst heq
  revert h
  decide

theorem afterFirst_through (P T : List Char) (h : '_' ∉ P) :
    afterFirst '_' (P ++ '_' :: T) = T := by
  induction P with
  | nil => simp [afterFirst]
  | cons x xs ih =>
    simp only [List.mem_cons, not_or] at h
    have hx : ¬ x = '_' := fun hx => h.1 hx.symm
    simp only [List.cons_append, afterFirst, if_neg hx]
    exact ih h.2

theorem prefixOfIndex_no_underscore (i n : Nat) : '_' ∉ (prefixOfIndex i n).data := by
  intro hm
  have hdata : (prefixOfIndex i n).data
      = List.replicate (max 2 (natToString n).data.length - (natToString (i + 1)).data.length) '0'
        ++ (natToString (i + 1)).data := rfl
  rw [hdata] at hm
  rcases List.mem_append.mp hm with hz | hd
  · have := List.eq_of_mem_replicate hz
    exact absurd this (by decide)
  · have := List.all_eq_true.mp (natToString_all_digits (i + 1)) '_' hd
    exact absurd rfl (isDigitChar_ne_underscore this)

theorem extract_of_concat (P T : List Char) (hP : '_' ∉ P) :
    extractTypeFromFilename (String.mk ((P ++ '_' :: T) ++ ['.', 'j', '2']))
      = .ok (String.mk T) := by
  rw [extractTypeFromFilename]
  have hcs : (String.mk ((P ++ '_' :: T) ++ ['.', 'j', '2'])).data
      = (P ++ '_' :: T) ++ ['.', 'j', '2'] := rfl
  rw [hcs]
  have hlen : ((P ++ '_' :: T) ++ ['.', 'j', '2']).length - 3 = (P ++ '_' :: T).length := by
    simp [List.length_append]
    omega
  rw [hlen]
  rw [if_neg (by rw [List.drop_left]; simp)]
  rw [List.take_left]
  rw [if_neg (by simp)]
  rw [afterFirst_through P T hP]

/-- C10: decomposing the generated filename recovers the type label, for
every type string and position, because the numeric prefix contains no
underscore and extraction splits on the first underscore only. -/
theorem c10_filename_roundtrip (t : String) (i n : Nat) :
    extractTypeFromFilename (typeToFilename t i n) = .ok t := by
  have hdata : typeToFilename t i n
      = String.mk (((prefixOfIndex i n).data ++ '_' :: t.data) ++ ['.', 'j', '2']) := by
    apply string_data_inj
    show ((prefixOfIndex i n ++ "_" ++ t) ++ ".j2").data = _
    rw [string_data_append, string_data_append, string_data_append]
    have h1 : ("_" : String).data = ['_'] := rfl
    have h2 : (".j2" : String).data = ['.', 'j', '2'] := rfl
    rw [h1, h2]
    simp
  rw [hdata, extract_of_concat _ _ (prefixOfIndex_no_underscore i n)]

/-! ## Dict lemmas -/

theorem dictGet_nil {α β : Type} [BEq α] (k : α) : dictGet ([] : List (α × β)) k = none := rfl

theorem dictGet_insert_same {α β : Type} [BEq α] [LawfulBEq α] (d : List (α × β)) (k : α) (v : β) :
    dictGet (dictInsert d k v) k = some v := by
  induction d with
  | nil => simp [dictInsert, dictGet]
  | cons p rest ih =>
    by_cases h : p.1 == k
    · simp [dictInsert, h, dictGet]
    · simp only [dictInsert, if_neg h, dictGet]
      rw [@List.find?_cons_of_neg _ (fun q => q.1 == k) p (dictInsert rest k v) h]
      exact ih

theorem dictGet_insert_other {α β : Type} [BEq α] [LawfulBEq α] (d : List (α × β))
    (k k' : α) (v : β) (h : k' ≠ k) : dictGet (dictInsert d k v) k' = dictGet d k' := by
  have hkv : ¬ (((k, v) : α × β).1 == k') = true := by
    intro hc
    have hc' : k = k' := by simpa using hc
    exact h hc'.symm
  induction d with
  | nil =>
    simp only [dictInsert, dictGet]
    rw [@List.find?_cons_of_neg _ (fun q => q.1 == k') (k, v) [] hkv]
  | cons p rest ih =>
    by_cases hp : p.1 == k
    · simp only [dictInsert, if_pos hp, dictGet]
      have hpk : p.1 = k := by simpa using hp
      have hpne : ¬ (p.1 == k') = true := by
        intro hc
        have hc' : p.1 = k' := by simpa using hc
        rw [hpk] at hc'
        exact h hc'.symm
      rw [@List.find?_cons_of_neg _ (fun q => q.1 == k') (k, v) rest hkv]
      rw [@List.find?_cons_of_neg _ (fun q => q.1 == k') p rest hpne]
    · simp only [dictInsert, if_neg hp]
      by_cases hp' : (p.1 == k') = true
      · simp only [dictGet]
        rw [@List.find?_cons_of_pos _ (fun q => q.1 == k') p (dictInsert rest k v) hp']
        rw [@List.find?_cons_of_pos _ (fun q => q.1 == k') p rest hp']
      · simp only [dictGet]
        rw [@List.find?_cons_of_neg _ (fun q => q.1 == k') p (dictInsert rest k v) hp']
        rw [@List.find?_cons_of_neg _ (fun q => q.1 == k') p rest hp']
        exact ih

theorem dictGet_foldl_insert {α β : Type} [BEq α] [LawfulBEq α] (l : List (α × β)) :
    ∀ (d : List (α × β)) (k : α),
    dictGet (l.foldl (fun d p => dictInsert d p.1 p.2) d) k
      = match l.reverse.find? (fun p => p.1 == k) with
        | some p => some p.2
        | none => dictGet d k := by
  induction l with
  | nil => intro d k; rfl
  | cons p l ih =>
    intro d k
    show dictGet (l.foldl (fun d p => dictInsert d p.1 p.2) (dictInsert d p.1 p.2)) k = _
    rw [ih (dictInsert d p.1 p.2) k]
    have hrev : (p :: l).reverse = l.reverse ++ [p] := by simp
    rw [hrev, List.find?_append]
    cases hfind : l.reverse.find? (fun q => q.1 == k) with
    | some q => simp [Option.or]
    | none =>
      simp only [Option.or]
      by_cases hpk : (p.1 == k) = true
      · rw [@List.find?_cons_of_pos _ (fun q => q.1 == k) p [] hpk]
        have hk : p.1 = k := by simpa using hpk
        subst hk
        rw [dictGet_insert_same]
      · rw [@List.find?_cons_of_neg _ (fun q => q.1 == k) p [] hpk]
        rw [dictGet_insert_other d p.1 k p.2 (fun he => hpk (by simp [he]))]
        rfl

theorem dictGet_dictOf {α β : Type} [BEq α] [LawfulBEq α] (l : List (α × β)) (k : α) :
    dictGet (dictOf l) k = (l.reverse.find? (fun p => p.1 == k)).map (fun p => p.2) := by
  rw [dictOf, dictGet_foldl_insert]
  cases hfind : l.reverse.find? (fun p => p.1 == k) <;> rfl

/-! ## C7: master version derivation -/

theorem deriveBranchCheck_eval_some (currentByType : List (String × String))
    (idToVer idToType : List (Nat × String)) (i : Nat) (v t cv : String)
    (hv : dictGet idToVer i = some v) (ht : dictGet idToType i = some t) (htne : t ≠ "")
    (hcv : dictGet currentByType t = some cv) :
    deriveBranchCheck currentByType idToVer idToType i
      = if v = "" then false else if cv = "" then false else isBranched v cv := by
  simp only [deriveBranchCheck, hv, ht, if_neg htne, hcv]

theorem deriveBranchCheck_eval_none (currentByType : List (String × String))
    (idToVer idToType : List (Nat × String)) (i : Nat) (v t : String)
    (hv : dictGet idToVer i = some v) (ht : dictGet idToType i = some t) (htne : t ≠ "")
    (hcv : dictGet currentByType t = none) :
    deriveBranchCheck currentByType idToVer idToType i = false := by
  simp only [deriveBranchCheck, hv, ht, if_neg htne, hcv]

/-- The branch check of one composed fragment is true exactly when the
fragment has a non-empty recorded version and a non-empty recorded type,
that type maps to a non-empty version in the current master, and the
fragment's version is branched relative to it; the Python truthiness
guards (if sub_type, if new_ver and old_ver) make every empty string
fail the check. -/
theorem deriveBranchCheck_true_iff (currentByType : List (String × String))
    (idToVer idToType : List (Nat × String)) (i : Nat) :
    deriveBranchCheck currentByType idToVer idToType i = true ↔
      ∃ v t cv, dictGet idToVer i = some v ∧ v ≠ "" ∧
        dictGet idToType i = some t ∧ t ≠ "" ∧
        dictGet currentByType t = some cv ∧ cv ≠ "" ∧ isBranched v cv = true := by
  constructor
  · intro h
    cases hv : dictGet idToVer i with
    | none => exact absurd h (by simp [deriveBranchCheck, hv])
    | some v =>
      cases ht : dictGet idToType i with
      | none => exact absurd h (by simp [deriveBranchCheck, hv, ht])
      | some t =>
        by_cases hte : t = ""
        · exact absurd h (by simp [deriveBranchCheck, hv, ht, hte])
        · cases hcv : dictGet currentByType t with
          | none =>
            rw [deriveBranchCheck_eval_none currentByType idToVer idToType i v t
              hv ht hte hcv] at h
            exact absurd h (by simp)
          | some cv =>
            rw [deriveBranchCheck_eval_some currentByType idToVer idToType i v t cv
              hv ht hte hcv] at h
            by_cases hve : v = ""
            · rw [if_pos hve] at h
              exact absurd h (by simp)
            · rw [if_neg hve] at h
              by_cases hcve : cv = ""
              · rw [if_pos hcve] at h
                exact absurd h (by simp)
              · rw [if_neg hcve] at h
                exact ⟨v, t, cv, rfl, hve, rfl, hte, hcv, hcve, h⟩
  · intro hex
    obtain ⟨v, t, cv, hv, hvne, ht, htne, hcv, hcvne, hbr⟩ := hex
    rw [deriveBranchCheck_eval_some currentByType idToVer idToType i v t cv hv ht htne hcv]
    rw [if_neg hvne, if_neg hcvne]
    exact hbr

/-- C7 (amended): derive_master_version returns "1" with no current master;
otherwise it branches the current master version exactly when some fragment
of the new composition has a non-empty recorded type that maps to a
non-empty version in the current master, a non-empty version of its own,
and is_branched holds for the pair; fragments with an empty type or an
empty version on either side are silently skipped by the Python truthiness
guards, so such a composition increments instead (see the counterexample,
reachable through a file named 01_.j2). -/
theorem c7_derive_master_version (currentByType : List (String × String))
    (newSubIds : List Nat) (idToVer idToType : List (Nat × String)) :
    deriveMasterVersion none currentByType newSubIds idToVer idToType = "1" ∧
    ∀ cmv : String,
      ((∃ i ∈ newSubIds, ∃ v t cv, dictGet idToVer i = some v ∧ v ≠ "" ∧
          dictGet idToType i = some t ∧ t ≠ "" ∧
          dictGet currentByType t = some cv ∧ cv ≠ "" ∧ isBranched v cv = true) →
        deriveMasterVersion (some cmv) currentByType newSubIds idToVer idToType
          = branchVersion cmv) ∧
      ((¬ ∃ i ∈ newSubIds, ∃ v t cv, dictGet idToVer i = some v ∧ v ≠ "" ∧
          dictGet idToType i = some t ∧ t ≠ "" ∧
          dictGet currentByType t = some cv ∧ cv ≠ "" ∧ isBranched v cv = true) →
        deriveMasterVersion (some cmv) currentByType newSubIds idToVer idToType
          = incrementVersion (some cmv)) := by
  constructor
  · rfl
  intro cmv
  constructor
  · intro hex
    obtain ⟨i, hi, v, t, cv, hv, hvne, ht, htne, hcv, hcvne, hbr⟩ := hex
    show (if _ then branchVersion cmv else _) = branchVersion cmv
    rw [if_pos]
    rw [List.any_eq_true]
    exact ⟨i, hi, (deriveBranchCheck_true_iff currentByType idToVer idToType i).mpr
      ⟨v, t, cv, hv, hvne, ht, htne, hcv, hcvne, hbr⟩⟩
  · intro hnex
    show (if _ then _ else incrementVersion (some cmv)) = incrementVersion (some cmv)
    rw [if_neg]
    intro hany
    rw [List.any_eq_true] at hany
    obtain ⟨i, hi, hbody⟩ := hany
    obtain ⟨v, t, cv, hv, hvne, ht, htne, hcv, hcvne, hbr⟩ :=
      (deriveBranchCheck_true_iff currentByType idToVer idToType i).mp hbody
    exact hnex ⟨i, hi, v, t, cv, hv, hvne, ht, htne, hcv, hcvne, hbr⟩

/-- C7 witness: a concrete derivation where a branched fragment version
forces the branch of the master version, plus the empty-table case. -/
theorem c7_witness :
    deriveMasterVersion none [("a", "1")] [5] [(5, "1.1")] [(5, "a")] = "1" ∧
    deriveMasterVersion (some "2") [("a", "1")] [5] [(5, "1.1")] [(5, "a")]
      = branchVersion "2" :=
  ⟨(c7_derive_master_version [("a", "1")] [5] [(5, "1.1")] [(5, "a")]).1,
   ((c7_derive_master_version [("a", "1")] [5] [(5, "1.1")] [(5, "a")]).2 "2").1
     ⟨5, by decide, "1.1", "a", "1", by decide, by decide, by decide, by decide,
      by decide, by decide, by decide⟩⟩

/-- C7 counterexample: a file named 01_.j2 yields the empty type.  Commit
it, then commit new contents with a branch directive naming fragment 1:
the new composition [2] holds fragment 2 of type "" and version "1.1",
the current master's fragment of the same type "" has version "1", and
is_branched "1.1" "1" is true, so the claim demands the branched master
version "1.1"; the code's truthiness guard skips the empty type and the
new master's version is the increment "2". -/
theorem c7_counterexample :
    (runCommitFiles "m2" [("01_.j2", "B")] [(1, "01_.j2")]
      (runCommitFiles "m1" [("01_.j2", "A")] [] emptyStore).store).error = none ∧
    (runCommitFiles "m2" [("01_.j2", "B")] [(1, "01_.j2")]
      (runCommitFiles "m1" [("01_.j2", "A")] [] emptyStore).store).noop = false ∧
    (getCurrentMaster (runCommitFiles "m1" [("01_.j2", "A")] [] emptyStore).store).map
      (fun m => (m.version, m.contents)) = some ("1", [1]) ∧
    getSubPromptsByIds (runCommitFiles "m1" [("01_.j2", "A")] [] emptyStore).store [1]
      = [⟨1, "", none, "1", "A", "m1"⟩] ∧
    dictGet (dictOf ((getSubPromptsByIds
      (runCommitFiles "m1" [("01_.j2", "A")] [] emptyStore).store [1]).map
      (fun r => (r.type, r.version)))) "" = some "1" ∧
    (getCurrentMaster (runCommitFiles "m2" [("01_.j2", "B")] [(1, "01_.j2")]
      (runCommitFiles "m1" [("01_.j2", "A")] [] emptyStore).store).store).map
      (fun m => (m.version, m.contents)) = some ("2", [2]) ∧
    getSubPromptById (runCommitFiles "m2" [("01_.j2", "B")] [(1, "01_.j2")]
      (runCommitFiles "m1" [("01_.j2", "A")] [] emptyStore).store).store 2
      = some ⟨2, "", some 1, "1.1", "B", "m2"⟩ ∧
    isBranched "1.1" "1" = true ∧
    ("2" : String) ≠ branchVersion "1" := by
  decide

/-! ## Resolution loop: store shape and table invariant -/

theorem subTableInv_insert (s : Store) (t : String) (p : Option Nat) (v c m : String)
    (hinv : subTableInv s) (hfresh : getSubPromptByContents s c = none)
    (hval : ValidVersion v = true) :
    subTableInv (insertSubPrompt s t p v c m).1 := by
  obtain ⟨h1, h2, h3, h4⟩ := hinv
  refine ⟨?_, ?_, ?_, ?_⟩
  · show (List.map (fun r => r.id) (s.subPrompts ++ [⟨s.nextSubId, t, p, v, c, m⟩])).Nodup
    rw [List.map_append, List.nodup_append]
    refine ⟨h1, by simp, ?_⟩
    simp only [List.map_cons, List.map_nil]
    rw [List.disjoint_singleton]
    intro hmem
    obtain ⟨r, hr, hrid⟩ := List.mem_map.mp hmem
    have := h2 r hr
    omega
  · intro r hr
    show r.id < s.nextSubId + 1
    rcases List.mem_append.mp hr with hold | hnew
    · have := h2 r hold
      omega
    · have : r = ⟨s.nextSubId, t, p, v, c, m⟩ := by simpa using hnew
      rw [this]
      show s.nextSubId < s.nextSubId + 1
      omega
  · show (List.map (fun r => r.contents) (s.subPrompts ++ [⟨s.nextSubId, t, p, v, c, m⟩])).Nodup
    rw [List.map_append, List.nodup_append]
    refine ⟨h3, by simp, ?_⟩
    simp only [List.map_cons, List.map_nil]
    rw [List.disjoint_singleton]
    intro hmem
    obtain ⟨r, hr, hrc⟩ := List.mem_map.mp hmem
    have := List.find?_eq_none.mp hfresh r hr
    simp [hrc] at this
  · intro r hr
    rcases List.mem_append.mp hr with hold | hnew
    · exact h4 r hold
    · have : r = ⟨s.nextSubId, t, p, v, c, m⟩ := by simpa using hnew
      rw [this]
      exact hval

theorem insertSubPrompt_snd (s : Store) (t : String) (p : Option Nat) (v c m : String) :
    (insertSubPrompt s t p v c m).2 = s.nextSubId := rfl

theorem insertSubPrompt_subPrompts (s : Store) (t : String) (p : Option Nat) (v c m : String) :
    (insertSubPrompt s t p v c m).1.subPrompts = s.subPrompts ++ [⟨s.nextSubId, t, p, v, c, m⟩] := rfl

theorem insertSubPrompt_masterPrompts (s : Store) (t : String) (p : Option Nat) (v c m : String) :
    (insertSubPrompt s t p v c m).1.masterPrompts = s.masterPrompts := rfl

theorem insertSubPrompt_nextSubId (s : Store) (t : String) (p : Option Nat) (v c m : String) :
    (insertSubPrompt s t p v c m).1.nextSubId = s.nextSubId + 1 := rfl

theorem insertSubPrompt_nextMasterId (s : Store) (t : String) (p : Option Nat) (v c m : String) :
    (insertSubPrompt s t p v c m).1.nextMasterId = s.nextMasterId := rfl

theorem resolveFragments_shape (message : String) (bbp : List (String × Nat))
    (curSubs : List SubPrompt) :
    ∀ (files : List FileData) (st : ResolveState),
    (resolveOutStore (resolveFragments message bbp curSubs files st)).masterPrompts
        = st.store.masterPrompts ∧
    (resolveOutStore (resolveFragments message bbp curSubs files st)).nextMasterId
        = st.store.nextMasterId ∧
    st.store.nextSubId ≤ (resolveOutStore (resolveFragments message bbp curSubs files st)).nextSubId ∧
    ∃ ext, (resolveOutStore (resolveFragments message bbp curSubs files st)).subPrompts
        = st.store.subPrompts ++ ext := by
  intro files
  induction files with
  | nil => intro st; exact ⟨rfl, rfl, le_rfl, [], by simp [resolveFragments, resolveOutStore]⟩
  | cons f files ih =>
    intro st
    cases hex : getSubPromptByContents st.store f.contents with
    | some existing =>
      simp only [resolveFragments, hex]
      exact ih _
    | none =>
      cases hbp : dictGet bbp f.path with
      | some parentPk =>
        cases hpr : getSubPromptById st.store parentPk with
        | none =>
          simp only [resolveFragments, hex, hbp, hpr]
          exact ⟨rfl, rfl, le_rfl, [], by simp [resolveOutStore]⟩
        | some parentRow =>
          by_cases hty : parentRow.type ≠ f.typeName
          · simp only [resolveFragments, hex, hbp, hpr, if_pos hty]
            exact ⟨rfl, rfl, le_rfl, [], by simp [resolveOutStore]⟩
          · simp only [resolveFragments, hex, hbp, hpr, if_neg hty]
            obtain ⟨g1, g2, g3, ext, g4⟩ := ih _
            refine ⟨?_, ?_, ?_, ?_⟩
            · rw [g1]
              exact insertSubPrompt_masterPrompts _ _ _ _ _ _
            · rw [g2]
              exact insertSubPrompt_nextMasterId _ _ _ _ _ _
            · calc st.store.nextSubId
                  ≤ (insertSubPrompt st.store f.typeName (some parentPk)
                      (branchVersion parentRow.version) f.contents message).1.nextSubId := by
                    rw [insertSubPrompt_nextSubId]
                    omega
              _ ≤ _ := g3
            · refine ⟨⟨st.store.nextSubId, f.typeName, some parentPk,
                branchVersion parentRow.version, f.contents, message⟩ :: ext, ?_⟩
              rw [g4, insertSubPrompt_subPrompts]
              simp
      | none =>
        simp only [resolveFragments, hex, hbp]
        obtain ⟨g1, g2, g3, ext, g4⟩ := ih _
        refine ⟨?_, ?_, ?_, ?_⟩
        · rw [g1]
          exact insertSubPrompt_masterPrompts _ _ _ _ _ _
        · rw [g2]
          exact insertSubPrompt_nextMasterId _ _ _ _ _ _
        · calc st.store.nextSubId
              ≤ (insertSubPrompt st.store f.typeName
                  ((curSubs.find? (fun sub => sub.type == f.typeName)).map (fun sub => sub.id))
                  (incrementVersion ((curSubs.find? (fun sub => sub.type == f.typeName)).map
                    (fun sub => sub.version)))
                  f.contents message).1.nextSubId := by
                rw [insertSubPrompt_nextSubId]
                omega
          _ ≤ _ := g3
        · refine ⟨⟨st.store.nextSubId, f.typeName,
            (curSubs.find? (fun sub => sub.type == f.typeName)).map (fun sub => sub.id),
            incrementVersion ((curSubs.find? (fun sub => sub.type == f.typeName)).map
              (fun sub => sub.version)),
            f.contents, message⟩ :: ext, ?_⟩
          rw [g4, insertSubPrompt_subPrompts]
          simp

theorem resolveFragments_subTableInv (message : String) (bbp : List (String × Nat))
    (curSubs : List SubPrompt) (hcur : ∀ r ∈ curSubs, ValidVersion r.version = true) :
    ∀ (files : List FileData) (st : ResolveState),
    subTableInv st.store →
    subTableInv (resolveOutStore (resolveFragments message bbp curSubs files st)) := by
  intro files
  induction files with
  | nil => intro st h; exact h
  | cons f files ih =>
    intro st hinv
    cases hex : getSubPromptByContents st.store f.contents with
    | some existing =>
      simp only [resolveFragments, hex]
      exact ih _ hinv
    | none =>
      cases hbp : dictGet bbp f.path with
      | some parentPk =>
        cases hpr : getSubPromptById st.store parentPk with
        | none =>
          simp only [resolveFragments, hex, hbp, hpr]
          exact hinv
        | some parentRow =>
          by_cases hty : parentRow.type ≠ f.typeName
          · simp only [resolveFragments, hex, hbp, hpr, if_pos hty]
            exact hinv
          · simp only [resolveFragments, hex, hbp, hpr, if_neg hty]
            apply ih
            apply subTableInv_insert _ _ _ _ _ _ hinv hex
            have hmem : parentRow ∈ st.store.subPrompts := List.mem_of_find?_eq_some hpr
            exact validVersion_branch _ (hinv.2.2.2 parentRow hmem)
      | none =>
        simp only [resolveFragments, hex, hbp]
        apply ih
        apply subTableInv_insert _ _ _ _ _ _ hinv hex
        cases hprior : curSubs.find? (fun sub => sub.type == f.typeName) with
        | none =>
          exact validVersion_increment_none
        | some prior =>
          have hmem : prior ∈ curSubs := List.mem_of_find?_eq_some hprior
          exact validVersion_increment_some _ (hcur prior hmem)

/-! ## Bounds on composed ids and master phase invariants -/

theorem getSubPromptsByIds_subset (s : Store) (ids : List Nat) :
    ∀ r ∈ getSubPromptsByIds s ids, r ∈ s.subPrompts := by
  intro r hr
  rw [getSubPromptsByIds] at hr
  obtain ⟨i, hi, hfind⟩ := List.mem_filterMap.mp hr
  exact List.mem_of_find?_eq_some hfind

theorem dictInsert_mem {α β : Type} [BEq α] (d : List (α × β)) (k : α) (v : β) :
    ∀ p ∈ dictInsert d k v, p ∈ d ∨ p = (k, v) := by
  induction d with
  | nil => intro p hp; right; simpa [dictInsert] using hp
  | cons q rest ih =>
    intro p hp
    by_cases hq : q.1 == k
    · simp only [dictInsert, if_pos hq] at hp
      rcases List.mem_cons.mp hp with h | h
      · right; exact h
      · left; exact List.mem_cons.mpr (Or.inr h)
    · simp only [dictInsert, if_neg hq] at hp
      rcases List.mem_cons.mp hp with h | h
      · left; exact List.mem_cons.mpr (Or.inl h)
      · rcases ih p h with h' | h'
        · left; exact List.mem_cons.mpr (Or.inr h')
        · right; exact h'

theorem resolveFragments_typeToId_bound (message : String) (bbp : List (String × Nat))
    (curSubs : List SubPrompt) :
    ∀ (files : List FileData) (st : ResolveState) (st' : ResolveState),
    resolveFragments message bbp curSubs files st = .ok st' →
    (∀ pr ∈ st.typeToId, pr.2 < st.store.nextSubId) →
    (∀ r ∈ st.store.subPrompts, r.id < st.store.nextSubId) →
    ∀ pr ∈ st'.typeToId, pr.2 < st'.store.nextSubId := by
  intro files
  induction files with
  | nil =>
    intro st st' hok hb _
    have : st = st' := by simpa [resolveFragments] using hok
    rw [← this]
    exact hb
  | cons f files ih =>
    intro st st' hok hb hr
    cases hex : getSubPromptByContents st.store f.contents with
    | some existing =>
      simp only [resolveFragments, hex] at hok
      apply ih _ _ hok _ hr
      intro pr hpr
      rcases dictInsert_mem _ _ _ pr hpr with h | h
      · exact hb pr h
      · rw [h]
        exact hr existing (List.mem_of_find?_eq_some hex)
    | none =>
      cases hbp : dictGet bbp f.path with
      | some parentPk =>
        cases hpr : getSubPromptById st.store parentPk with
        | none =>
          simp only [resolveFragments, hex, hbp, hpr] at hok
          exact absurd hok (by simp)
        | some parentRow =>
          by_cases hty : parentRow.type ≠ f.typeName
          · simp only [resolveFragments, hex, hbp, hpr, if_pos hty] at hok
            exact absurd hok (by simp)
          · simp only [resolveFragments, hex, hbp, hpr, if_neg hty, insertSubPrompt_snd] at hok
            apply ih _ _ hok
            · intro pr hpr'
              rcases dictInsert_mem _ _ _ pr hpr' with h | h
              · have := hb pr h
                rw [insertSubPrompt_nextSubId]
                omega
              · rw [h, insertSubPrompt_nextSubId]
                show st.store.nextSubId < st.store.nextSubId + 1
                omega
            · intro r hr'
              rw [insertSubPrompt_nextSubId]
              rw [insertSubPrompt_subPrompts] at hr'
              rcases List.mem_append.mp hr' with hold | hnew
              · have := hr r hold
                omega
              · have : r = ⟨st.store.nextSubId, f.typeName, some parentPk,
                    branchVersion parentRow.version, f.contents, message⟩ := by simpa using hnew
                rw [this]
                show st.store.nextSubId < st.store.nextSubId + 1
                omega
      | none =>
        simp only [resolveFragments, hex, hbp, insertSubPrompt_snd] at hok
        apply ih _ _ hok
        · intro pr hpr'
          rcases dictInsert_mem _ _ _ pr hpr' with h | h
          · have := hb pr h
            rw [insertSubPrompt_nextSubId]
            omega
          · rw [h, insertSubPrompt_nextSubId]
            show st.store.nextSubId < st.store.nextSubId + 1
            omega
        · intro r hr'
          rw [insertSubPrompt_nextSubId]
          rw [insertSubPrompt_subPrompts] at hr'
          rcases List.mem_append.mp hr' with hold | hnew
          · have := hr r hold
            omega
          · have : r = ⟨st.store.nextSubId, f.typeName,
                (curSubs.find? (fun sub => sub.type == f.typeName)).map (fun sub => sub.id),
                incrementVersion ((curSubs.find? (fun sub => sub.type == f.typeName)).map
                  (fun sub => sub.version)),
                f.contents, message⟩ := by simpa using hnew
            rw [this]
            show st.store.nextSubId < st.store.nextSubId + 1
            omega

theorem composeIds_sources (typeToId : List (String × Nat)) (hasCurrent : Bool)
    (currentSubs : List SubPrompt) :
    ∀ (order : List String) (acc : List Nat × List (Nat × String) × List (Nat × String)),
    ∀ i ∈ (composeIds typeToId hasCurrent currentSubs order acc).1,
    i ∈ acc.1 ∨ (∃ pr ∈ typeToId, pr.2 = i) ∨ (∃ r ∈ currentSubs, r.id = i) := by
  intro order
  induction order with
  | nil => intro acc i hi; left; exact hi
  | cons t rest ih =>
    intro acc i hi
    obtain ⟨ids, iv, it⟩ := acc
    cases hget : dictGet typeToId t with
    | some j =>
      simp only [composeIds, hget] at hi
      rcases ih _ i hi with h | h | h
      · rcases List.mem_append.mp h with h' | h'
        · left; exact h'
        · right; left
          have hij : i = j := by simpa using h'
          rw [dictGet] at hget
          cases hfind : typeToId.find? (fun p => p.1 == t) with
          | none => rw [hfind] at hget; exact absurd hget (by simp)
          | some pr =>
            rw [hfind] at hget
            have hj : pr.2 = j := by
              have h2 : some pr.2 = some j := by simpa using hget
              injection h2
            exact ⟨pr, List.mem_of_find?_eq_some hfind, by rw [hj, hij]⟩
      · right; left; exact h
      · right; right; exact h
    | none =>
      simp only [composeIds, hget] at hi
      by_cases hc : hasCurrent = true
      · rw [if_pos hc] at hi
        cases hfind : currentSubs.find? (fun sub => sub.type == t) with
        | some sub =>
          rw [hfind] at hi
          rcases ih (ids ++ [sub.id], dictInsert iv sub.id sub.version,
              dictInsert it sub.id sub.type) i hi with h | h | h
          · rcases List.mem_append.mp h with h' | h'
            · left; exact h'
            · right; right
              refine ⟨sub, List.mem_of_find?_eq_some hfind, ?_⟩
              have hsid : i = sub.id := by simpa using h'
              exact hsid.symm
          · right; left; exact h
          · right; right; exact h
        | none =>
          rw [hfind] at hi
          exact ih (ids, iv, it) i hi
      · rw [if_neg hc] at hi
        exact ih (ids, iv, it) i hi

theorem masterTableInv_of_shape (s s' : Store) (h : masterTableInv s)
    (hm : s'.masterPrompts = s.masterPrompts) (hnm : s'.nextMasterId = s.nextMasterId)
    (hns : s.nextSubId ≤ s'.nextSubId) : masterTableInv s' := by
  obtain ⟨h1, h2, h3, h4⟩ := h
  refine ⟨by rw [hm]; exact h1, ?_, by rw [hm]; exact h3, ?_⟩
  · intro m hmem
    rw [hm] at hmem
    rw [hnm]
    exact h2 m hmem
  · intro m hmem i hi
    rw [hm] at hmem
    have := h4 m hmem i hi
    omega

theorem subTableInv_of_shape (s s' : Store) (h : subTableInv s)
    (hsub : s'.subPrompts = s.subPrompts) (hns : s'.nextSubId = s.nextSubId) :
    subTableInv s' := by
  obtain ⟨h1, h2, h3, h4⟩ := h
  refine ⟨by rw [hsub]; exact h1, ?_, by rw [hsub]; exact h3, ?_⟩
  · intro r hr
    rw [hsub] at hr
    rw [hns]
    exact h2 r hr
  · intro r hr
    rw [hsub] at hr
    exact h4 r hr

theorem clearCurrentMaster_subPrompts (s : Store) :
    (clearCurrentMaster s).subPrompts = s.subPrompts := rfl

theorem clearCurrentMaster_nextSubId (s : Store) :
    (clearCurrentMaster s).nextSubId = s.nextSubId := rfl

theorem clearCurrentMaster_nextMasterId (s : Store) :
    (clearCurrentMaster s).nextMasterId = s.nextMasterId := rfl

theorem clearCurrentMaster_ids (s : Store) :
    (clearCurrentMaster s).masterPrompts.map (fun m => m.id)
      = s.masterPrompts.map (fun m => m.id) := by
  show (s.masterPrompts.map (fun m =>
      if m.isCurrent then { m with isCurrent := false } else m)).map (fun m => m.id) = _
  rw [List.map_map]
  apply List.map_congr_left
  intro m _
  by_cases h : m.isCurrent <;> simp [h]

theorem clearCurrentMaster_filter (s : Store) :
    (clearCurrentMaster s).masterPrompts.filter (fun m => m.isCurrent) = [] := by
  rw [List.filter_eq_nil_iff]
  intro m hm
  obtain ⟨m0, hm0, hmap⟩ := List.mem_map.mp hm
  by_cases h : m0.isCurrent
  · rw [if_pos h] at hmap
    rw [← hmap]
    simp
  · rw [if_neg h] at hmap
    rw [← hmap]
    simpa using h

theorem clearCurrentMaster_contents (s : Store) :
    ∀ m ∈ (clearCurrentMaster s).masterPrompts, ∃ m0 ∈ s.masterPrompts,
      m.contents = m0.contents ∧ m.id = m0.id := by
  intro m hm
  obtain ⟨m0, hm0, hmap⟩ := List.mem_map.mp hm
  refine ⟨m0, hm0, ?_⟩
  by_cases h : m0.isCurrent
  · rw [if_pos h] at hmap
    rw [← hmap]
    exact ⟨rfl, rfl⟩
  · rw [if_neg h] at hmap
    rw [← hmap]
    exact ⟨rfl, rfl⟩

theorem insertMasterPrompt_subPrompts (s : Store) (p : Option Nat) (v : String)
    (c : List Nat) (cur : Bool) (m : String) :
    (insertMasterPrompt s p v c cur m).1.subPrompts = s.subPrompts := rfl

theorem insertMasterPrompt_nextSubId (s : Store) (p : Option Nat) (v : String)
    (c : List Nat) (cur : Bool) (m : String) :
    (insertMasterPrompt s p v c cur m).1.nextSubId = s.nextSubId := rfl

theorem insertMasterPrompt_nextMasterId (s : Store) (p : Option Nat) (v : String)
    (c : List Nat) (cur : Bool) (m : String) :
    (insertMasterPrompt s p v c cur m).1.nextMasterId = s.nextMasterId + 1 := rfl

theorem insertMasterPrompt_masterPrompts (s : Store) (p : Option Nat) (v : String)
    (c : List Nat) (cur : Bool) (m : String) :
    (insertMasterPrompt s p v c cur m).1.masterPrompts
      = s.masterPrompts ++ [⟨s.nextMasterId, p, v, c, cur, m⟩] := rfl

theorem getCurrentMaster_none_filter (s : Store) (h : getCurrentMaster s = none) :
    s.masterPrompts.filter (fun m => m.isCurrent) = [] := by
  rw [List.filter_eq_nil_iff]
  exact List.find?_eq_none.mp h

theorem runCommitFinish_storeInv (message : String) (filesData : List FileData)
    (current : Option MasterPrompt) (currentIds : List Nat)
    (currentSubs : List SubPrompt) (currentByType : List (String × String))
    (res : Except (CommitErr × Store) ResolveState)
    (h1 : subTableInv (resolveOutStore res))
    (h2 : masterTableInv (resolveOutStore res))
    (h3 : current = none →
      (resolveOutStore res).masterPrompts.filter (fun mm => mm.isCurrent) = [])
    (h4 : ∀ rs, res = .ok rs → ∀ pr ∈ rs.typeToId, pr.2 < rs.store.nextSubId)
    (h5 : ∀ r ∈ currentSubs, r.id < (resolveOutStore res).nextSubId) :
    storeInv (runCommitFinish message filesData current currentIds currentSubs
      currentByType res).store := by
  cases res with
  | error es => exact ⟨h1, h2⟩
  | ok rs =>
    have hout : resolveOutStore (.ok rs) = rs.store := rfl
    rw [hout] at h1 h2 h3 h5
    simp only [runCommitFinish]
    cases hext : extendTypeOrder (filesData.map (fun f => f.typeName)) currentSubs
        (filesData.map (fun f => f.typeName)) with
    | error t => exact ⟨h1, h2⟩
    | ok typeOrder =>
      simp only []
      by_cases hempty : (composeIds rs.typeToId current.isSome currentSubs typeOrder
          ([], rs.idToVersion, rs.idToType)).1.isEmpty
      · rw [if_pos hempty]
        exact ⟨h1, h2⟩
      rw [if_neg hempty]
      by_cases hnoop : (!rs.insertedAny && current.isSome &&
          (composeIds rs.typeToId current.isSome currentSubs typeOrder
            ([], rs.idToVersion, rs.idToType)).1 == currentIds) = true
      · rw [if_pos hnoop]
        exact ⟨h1, h2⟩
      rw [if_neg hnoop]
      by_cases huniq : (rs.store.masterPrompts.any (fun mm => mm.contents ==
          (composeIds rs.typeToId current.isSome currentSubs typeOrder
            ([], rs.idToVersion, rs.idToType)).1)) = true
      · rw [if_pos huniq]
        exact ⟨h1, h2⟩
      rw [if_neg huniq]
      have hids : ∀ i ∈ (composeIds rs.typeToId current.isSome currentSubs typeOrder
          ([], rs.idToVersion, rs.idToType)).1, i < rs.store.nextSubId := by
        intro i hi
        rcases composeIds_sources rs.typeToId current.isSome currentSubs typeOrder
            ([], rs.idToVersion, rs.idToType) i hi with h | h | h
        · exact absurd h (by simp)
        · obtain ⟨pr, hpr, hpri⟩ := h
          rw [← hpri]
          exact h4 rs rfl pr hpr
        · obtain ⟨r, hr, hri⟩ := h
          rw [← hri]
          exact h5 r hr
      set s1 := (match current with
        | some _ => clearCurrentMaster rs.store
        | none => rs.store) with hs1
      have hs1sub : s1.subPrompts = rs.store.subPrompts := by
        rw [hs1]; cases current <;> rfl
      have hs1next : s1.nextSubId = rs.store.nextSubId := by
        rw [hs1]; cases current <;> rfl
      have hs1nextm : s1.nextMasterId = rs.store.nextMasterId := by
        rw [hs1]; cases current <;> rfl
      have hs1ids : s1.masterPrompts.map (fun mm => mm.id)
          = rs.store.masterPrompts.map (fun mm => mm.id) := by
        rw [hs1]; cases current with
        | none => rfl
        | some c => exact clearCurrentMaster_ids rs.store
      have hs1filter : s1.masterPrompts.filter (fun mm => mm.isCurrent) = [] := by
        rw [hs1]; cases hcm : current with
        | none => exact h3 hcm
        | some c => exact clearCurrentMaster_filter rs.store
      have hs1contents : ∀ mm ∈ s1.masterPrompts, ∀ i ∈ mm.contents, i < rs.store.nextSubId := by
        rw [hs1]; cases current with
        | none => exact h2.2.2.2
        | some c =>
          intro mm hmm i hi
          obtain ⟨m0, hm0, hcont, _⟩ := clearCurrentMaster_contents rs.store mm hmm
          rw [hcont] at hi
          exact h2.2.2.2 m0 hm0 i hi
      constructor
      · apply subTableInv_of_shape rs.store _ h1
        · rw [insertMasterPrompt_subPrompts]
          exact hs1sub
        · rw [insertMasterPrompt_nextSubId]
          exact hs1next
      · refine ⟨?_, ?_, ?_, ?_⟩
        · rw [insertMasterPrompt_masterPrompts, List.map_append, List.nodup_append]
          refine ⟨by rw [hs1ids]; exact h2.1, by simp, ?_⟩
          simp only [List.map_cons, List.map_nil]
          rw [List.disjoint_singleton]
          intro hmem
          rw [hs1ids] at hmem
          obtain ⟨m0, hm0, hm0id⟩ := List.mem_map.mp hmem
          have := h2.2.1 m0 hm0
          rw [hm0id] at this
          rw [hs1nextm] at this
          omega
        · intro mm hmm
          rw [insertMasterPrompt_nextMasterId, hs1nextm]
          rw [insertMasterPrompt_masterPrompts] at hmm
          rcases List.mem_append.mp hmm with hold | hnew
          · have hmemid : mm.id ∈ s1.masterPrompts.map (fun x => x.id) :=
              List.mem_map.mpr ⟨mm, hold, rfl⟩
            rw [hs1ids] at hmemid
            obtain ⟨m0, hm0, hm0id⟩ := List.mem_map.mp hmemid
            have := h2.2.1 m0 hm0
            rw [hm0id] at this
            omega
          · have hmmeq := List.mem_singleton.mp hnew
            rw [hmmeq]
            show s1.nextMasterId < rs.store.nextMasterId + 1
            rw [hs1nextm]
            omega
        · rw [insertMasterPrompt_masterPrompts, List.filter_append, hs1filter]
          simp
        · intro mm hmm i hi
          rw [insertMasterPrompt_nextSubId, hs1next]
          rw [insertMasterPrompt_masterPrompts] at hmm
          rcases List.mem_append.mp hmm with hold | hnew
          · exact hs1contents mm hold i hi
          · have hmmeq := List.mem_singleton.mp hnew
            rw [hmmeq] at hi
            exact hids i hi

/-! ## Uncommit: store well-formedness -/

theorem setCurrentMaster_masterPrompts (s : Store) (k : Nat) :
    (setCurrentMaster s k).masterPrompts = s.masterPrompts.map (fun m =>
      if m.id == k then { m with isCurrent := true }
      else if m.isCurrent then { m with isCurrent := false } else m) := by
  show ((clearCurrentMaster s).masterPrompts.map (fun m =>
      if m.id == k then { m with isCurrent := true } else m)) = _
  show ((s.masterPrompts.map (fun m =>
      if m.isCurrent then { m with isCurrent := false } else m)).map (fun m =>
      if m.id == k then { m with isCurrent := true } else m)) = _
  rw [List.map_map]
  apply List.map_congr_left
  intro m _
  by_cases hc : m.isCurrent <;> by_cases hk : m.id == k <;>
    simp [Function.comp, hc, hk]

theorem setCurrentMaster_subPrompts (s : Store) (k : Nat) :
    (setCurrentMaster s k).subPrompts = s.subPrompts := rfl

theorem setCurrentMaster_nextSubId (s : Store) (k : Nat) :
    (setCurrentMaster s k).nextSubId = s.nextSubId := rfl

theorem setCurrentMaster_nextMasterId (s : Store) (k : Nat) :
    (setCurrentMaster s k).nextMasterId = s.nextMasterId := rfl

theorem filter_id_length_le_one (l : List MasterPrompt) (k : Nat)
    (h : (l.map (fun m => m.id)).Nodup) :
    (l.filter (fun m => m.id == k)).length ≤ 1 := by
  induction l with
  | nil => simp
  | cons m rest ih =>
    simp only [List.map_cons, List.nodup_cons] at h
    by_cases hk : (m.id == k) = true
    · rw [@List.filter_cons_of_pos _ (fun x => x.id == k) m rest hk]
      have hrest : rest.filter (fun x => x.id == k) = [] := by
        rw [List.filter_eq_nil_iff]
        intro x hx hxk
        apply h.1
        have hxid : x.id = k := by simpa using hxk
        have hmid : m.id = k := by simpa using hk
        rw [List.mem_map]
        exact ⟨x, hx, by rw [hxid, hmid]⟩
      rw [hrest]
      simp
    · rw [@List.filter_cons_of_neg _ (fun x => x.id == k) m rest hk]
      exact ih h.2

theorem uncommitWrite_storeInv (s : Store) (curId prevId : Nat) (toDel : List Nat)
    (h : storeInv s) :
    storeInv (deleteSubPrompts (setCurrentMaster (deleteMasterPrompt s curId) prevId) toDel) := by
  obtain ⟨⟨g1, g2, g3, g4⟩, ⟨m1, m2, m3, m4⟩⟩ := h
  have hfil : (deleteSubPrompts (setCurrentMaster (deleteMasterPrompt s curId) prevId)
        toDel).subPrompts.Sublist s.subPrompts := by
    show (s.subPrompts.filter _).Sublist s.subPrompts
    exact List.filter_sublist _
  have hdel : (deleteMasterPrompt s curId).masterPrompts.Sublist s.masterPrompts :=
    List.filter_sublist _
  have hmap : (deleteSubPrompts (setCurrentMaster (deleteMasterPrompt s curId) prevId)
        toDel).masterPrompts
      = (deleteMasterPrompt s curId).masterPrompts.map (fun m =>
        if m.id == prevId then { m with isCurrent := true }
        else if m.isCurrent then { m with isCurrent := false } else m) := by
    show (setCurrentMaster (deleteMasterPrompt s curId) prevId).masterPrompts = _
    exact setCurrentMaster_masterPrompts _ _
  have hids : (deleteSubPrompts (setCurrentMaster (deleteMasterPrompt s curId) prevId)
        toDel).masterPrompts.map (fun m => m.id)
      = (deleteMasterPrompt s curId).masterPrompts.map (fun m => m.id) := by
    rw [hmap, List.map_map]
    apply List.map_congr_left
    intro m _
    by_cases hk : m.id == prevId <;> by_cases hc : m.isCurrent <;>
      simp [Function.comp, hk, hc]
  constructor
  · refine ⟨?_, ?_, ?_, ?_⟩
    · exact List.Nodup.sublist (List.Sublist.map _ hfil) g1
    · intro r hr
      exact g2 r (hfil.subset hr)
    · exact List.Nodup.sublist (List.Sublist.map _ hfil) g3
    · intro r hr
      exact g4 r (hfil.subset hr)
  · refine ⟨?_, ?_, ?_, ?_⟩
    · rw [hids]
      exact List.Nodup.sublist (List.Sublist.map _ hdel) m1
    · intro m hm
      have hmemid : m.id ∈ (deleteMasterPrompt s curId).masterPrompts.map (fun x => x.id) := by
        rw [← hids]
        exact List.mem_map.mpr ⟨m, hm, rfl⟩
      obtain ⟨m0, hm0, hm0id⟩ := List.mem_map.mp hmemid
      have := m2 m0 (hdel.subset hm0)
      rw [hm0id] at this
      exact this
    · rw [hmap, List.filter_map, List.length_map]
      have hcongr : (deleteMasterPrompt s curId).masterPrompts.filter
          ((fun m => m.isCurrent) ∘ (fun m =>
            if m.id == prevId then { m with isCurrent := true }
            else if m.isCurrent then { m with isCurrent := false } else m))
          = (deleteMasterPrompt s curId).masterPrompts.filter (fun m => m.id == prevId) := by
        apply List.filter_congr
        intro m _
        by_cases hk : m.id == prevId <;> by_cases hc : m.isCurrent <;>
          simp [Function.comp, hk, hc]
      rw [hcongr]
      apply filter_id_length_le_one
      exact List.Nodup.sublist (List.Sublist.map _ hdel) m1
    · intro m hm i hi
      rw [hmap] at hm
      obtain ⟨m0, hm0, hm0eq⟩ := List.mem_map.mp hm
      have hcont : m.contents = m0.contents := by
        rw [← hm0eq]
        by_cases hk : m0.id == prevId <;> by_cases hc : m0.isCurrent <;>
          simp [hk, hc]
      rw [hcont] at hi
      exact m4 m0 (hdel.subset hm0) i hi

theorem runUncommit_storeInv (s s' : Store) (h : storeInv s)
    (hrun : runUncommit s = .ok s') : storeInv s' := by
  rw [runUncommit] at hrun
  cases hcm : getCurrentMaster s with
  | none => rw [hcm] at hrun; exact absurd hrun (by simp)
  | some current =>
    rw [hcm] at hrun
    cases hpm : getPreviousMaster s with
    | none => rw [hpm] at hrun; exact absurd hrun (by simp)
    | some previous =>
      rw [hpm] at hrun
      simp only [Except.ok.injEq] at hrun
      rw [← hrun]
      exact uncommitWrite_storeInv s current.id previous.id _ h

/-! ## Commit: store well-formedness -/

theorem runCommit_storeInv (m : String) (files : List FileData)
    (specs : List (Nat × String)) (store : Store) (h : storeInv store) :
    storeInv (runCommit m files specs store).store := by
  obtain ⟨hsub, hmas⟩ := h
  simp only [runCommit]
  by_cases hmsg : m = ""
  · rw [if_pos hmsg]; exact ⟨hsub, hmas⟩
  rw [if_neg hmsg]
  by_cases hne : files.isEmpty
  · rw [if_pos hne]; exact ⟨hsub, hmas⟩
  rw [if_neg hne]
  by_cases hdup : hasDupTypes files = true
  · rw [if_pos hdup]; exact ⟨hsub, hmas⟩
  rw [if_neg hdup]
  have hcursubs : ∀ r ∈ getSubPromptsByIds store
      (match getCurrentMaster store with | some mm => mm.contents | none => []),
      r ∈ store.subPrompts := getSubPromptsByIds_subset store _
  have hshape := resolveFragments_shape m (dictOf (specs.map (fun sp => (sp.2, sp.1))))
    (getSubPromptsByIds store
      (match getCurrentMaster store with | some mm => mm.contents | none => []))
    files ⟨store, [], [], [], false⟩
  obtain ⟨g1, g2, g3, g4⟩ := hshape
  apply runCommitFinish_storeInv
  · exact resolveFragments_subTableInv m _ _
      (fun r hr => hsub.2.2.2 r (hcursubs r hr)) files ⟨store, [], [], [], false⟩ hsub
  · exact masterTableInv_of_shape store _ hmas g1 g2 g3
  · intro hnone
    rw [g1]
    exact getCurrentMaster_none_filter store hnone
  · intro rs hrs
    apply resolveFragments_typeToId_bound m _ _ files ⟨store, [], [], [], false⟩ rs hrs
    · intro pr hpr
      exact absurd hpr (by simp)
    · exact hsub.2.1
  · intro r hr
    calc r.id < store.nextSubId := hsub.2.1 r (hcursubs r hr)
    _ ≤ _ := g3

theorem runCommitFiles_storeInv (m : String) (files : List (String × String))
    (specs : List (Nat × String)) (store : Store) (h : storeInv store) :
    storeInv (runCommitFiles m files specs store).store := by
  rw [runCommitFiles]
  by_cases hmsg : m = ""
  · rw [if_pos hmsg]; exact h
  rw [if_neg hmsg]
  cases hbuild : buildFilesData files with
  | error e => exact h
  | ok fd => exact runCommit_storeInv m fd specs store h

theorem reachable_storeInv (s : Store) (h : Reachable s) : storeInv s := by
  induction h with
  | init =>
    refine ⟨⟨?_, ?_, ?_, ?_⟩, ⟨?_, ?_, ?_, ?_⟩⟩ <;> simp [emptyStore]
  | commit m files specs hr ih => exact runCommitFiles_storeInv m files specs _ ih
  | uncommit hr hrun ih => exact runUncommit_storeInv _ _ ih hrun

/-- C4: in every store state reachable from an empty store by commit and
uncommit invocations, at most one master row carries the is_current flag
(the operation that installs a new current master clears the previous
holder inside the same transaction, and uncommit re-flags only the parent
row). -/
theorem c4_at_most_one_current (s : Store) (h : Reachable s) :
    (s.masterPrompts.filter (fun m => m.isCurrent)).length ≤ 1 :=
  (reachable_storeInv s h).2.2.2.1

/-- C4 witness: the invariant after one concrete commit on a fresh store. -/
theorem c4_witness :
    (((runCommitFiles "m" [("01_a.j2", "A")] [] emptyStore).store.masterPrompts.filter
      (fun m => m.isCurrent)).length ≤ 1) :=
  c4_at_most_one_current _ (Reachable.commit "m" [("01_a.j2", "A")] [] Reachable.init)

/-! ## C2: what survives a failing commit -/

theorem resolveFragments_error_kinds (message : String) (bbp : List (String × Nat))
    (curSubs : List SubPrompt) :
    ∀ (files : List FileData) (st : ResolveState) (es : CommitErr × Store),
    resolveFragments message bbp curSubs files st = .error es →
    (∃ pk, es.1 = .parentNotFound pk) ∨ (∃ pk t1 t2, es.1 = .parentTypeMismatch pk t1 t2) := by
  intro files
  induction files with
  | nil =>
    intro st es herr
    exact absurd herr (by simp [resolveFragments])
  | cons f files ih =>
    intro st es herr
    cases hex : getSubPromptByContents st.store f.contents with
    | some existing =>
      simp only [resolveFragments, hex] at herr
      exact ih _ es herr
    | none =>
      cases hbp : dictGet bbp f.path with
      | some parentPk =>
        cases hpr : getSubPromptById st.store parentPk with
        | none =>
          simp only [resolveFragments, hex, hbp, hpr] at herr
          have : es = (.parentNotFound parentPk, st.store) := by
            injection herr with h'
            exact h'.symm
          rw [this]
          exact Or.inl ⟨parentPk, rfl⟩
        | some parentRow =>
          by_cases hty : parentRow.type ≠ f.typeName
          · simp only [resolveFragments, hex, hbp, hpr, if_pos hty] at herr
            have : es = (.parentTypeMismatch parentPk parentRow.type f.typeName, st.store) := by
              injection herr with h'
              exact h'.symm
            rw [this]
            exact Or.inr ⟨parentPk, parentRow.type, f.typeName, rfl⟩
          · simp only [resolveFragments, hex, hbp, hpr, if_neg hty] at herr
            exact ih _ es herr
      | none =>
        simp only [resolveFragments, hex, hbp] at herr
        exact ih _ es herr

theorem runCommitFinish_error_store (message : String) (filesData : List FileData)
    (current : Option MasterPrompt) (currentIds : List Nat)
    (currentSubs : List SubPrompt) (currentByType : List (String × String))
    (res : Except (CommitErr × Store) ResolveState)
    (herr : (runCommitFinish message filesData current currentIds currentSubs
      currentByType res).error.isSome) :
    (runCommitFinish message filesData current currentIds currentSubs
      currentByType res).store = resolveOutStore res ∧
    (∀ e, (runCommitFinish message filesData current currentIds currentSubs
        currentByType res).error = some e →
      (e = .emptyMessage ∨ e = .duplicateTypeInCommit ∨ (∃ fe, e = .invalidFilename fe)) →
      ∃ es, res = .error es ∧ e = es.1) := by
  cases res with
  | error es =>
    exact ⟨rfl, fun e he _ => ⟨es, rfl, by injection he with h'; exact h'.symm⟩⟩
  | ok rs =>
    simp only [runCommitFinish]
    cases hext : extendTypeOrder (filesData.map (fun f => f.typeName)) currentSubs
        (filesData.map (fun f => f.typeName)) with
    | error t =>
      refine ⟨rfl, ?_⟩
      intro e he hkind
      have het : e = .duplicateTypeInCurrent t := by injection he with h'; exact h'.symm
      rcases hkind with h | h | ⟨fe, h⟩ <;> rw [het] at h <;> exact absurd h (by simp)
    | ok typeOrder =>
      simp only []
      by_cases hempty : (composeIds rs.typeToId current.isSome currentSubs typeOrder
          ([], rs.idToVersion, rs.idToType)).1.isEmpty
      · rw [if_pos hempty]
        simp only [runCommitFinish, hext] at herr
        simp only [if_pos hempty] at herr
        exact absurd herr (by simp)
      rw [if_neg hempty]
      by_cases hnoop : (!rs.insertedAny && current.isSome &&
          (composeIds rs.typeToId current.isSome currentSubs typeOrder
            ([], rs.idToVersion, rs.idToType)).1 == currentIds) = true
      · rw [if_pos hnoop]
        simp only [runCommitFinish, hext] at herr
        simp only [if_neg hempty, if_pos hnoop] at herr
        exact absurd herr (by simp)
      rw [if_neg hnoop]
      by_cases huniq : (rs.store.masterPrompts.any (fun mm => mm.contents ==
          (composeIds rs.typeToId current.isSome currentSubs typeOrder
            ([], rs.idToVersion, rs.idToType)).1)) = true
      · rw [if_pos huniq]
        refine ⟨rfl, ?_⟩
        intro e he hkind
        have het : e = .masterContentsNotUnique := by injection he with h'; exact h'.symm
        rcases hkind with h | h | ⟨fe, h⟩ <;> rw [het] at h <;> exact absurd h (by simp)
      · rw [if_neg huniq]
        simp only [runCommitFinish, hext] at herr
        simp only [if_neg hempty, if_neg hnoop, if_neg huniq] at herr
        exact absurd herr (by simp)

/-- C2 amended: a failing commit never touches the master table, and can
only grow the fragment table (each fragment insert of the failed
invocation is committed immediately by the source, outside any enclosing
transaction); failures raised during input validation, before the store is
touched (empty message, malformed filename, duplicate type in the working
set), leave the whole store unchanged. -/
theorem c2_failure_effects (m : String) (files : List (String × String))
    (specs : List (Nat × String)) (store : Store)
    (herr : (runCommitFiles m files specs store).error.isSome) :
    (runCommitFiles m files specs store).store.masterPrompts = store.masterPrompts ∧
    (∃ ext, (runCommitFiles m files specs store).store.subPrompts
      = store.subPrompts ++ ext) ∧
    (((runCommitFiles m files specs store).error = some .emptyMessage ∨
      (runCommitFiles m files specs store).error = some .duplicateTypeInCommit ∨
      (∃ fe, (runCommitFiles m files specs store).error = some (.invalidFilename fe))) →
      (runCommitFiles m files specs store).store = store) := by
  rw [runCommitFiles]
  by_cases hmsg : m = ""
  · rw [if_pos hmsg]
    exact ⟨rfl, ⟨[], by simp⟩, fun _ => rfl⟩
  rw [if_neg hmsg]
  cases hbuild : buildFilesData files with
  | error e => exact ⟨rfl, ⟨[], by simp⟩, fun _ => rfl⟩
  | ok fd =>
    rw [runCommitFiles, if_neg hmsg, hbuild] at herr
    simp only [runCommit] at herr ⊢
    rw [if_neg hmsg] at herr ⊢
    by_cases hne : fd.isEmpty
    · rw [if_pos hne] at herr
      exact absurd herr (by simp)
    rw [if_neg hne] at herr ⊢
    by_cases hdup : hasDupTypes fd = true
    · rw [if_pos hdup] at herr ⊢
      exact ⟨rfl, ⟨[], by simp⟩, fun _ => rfl⟩
    rw [if_neg hdup] at herr ⊢
    obtain ⟨g1, g2, g3, g4⟩ := resolveFragments_shape m
      (dictOf (specs.map (fun sp => (sp.2, sp.1))))
      (getSubPromptsByIds store
        (match getCurrentMaster store with | some mm => mm.contents | none => []))
      fd ⟨store, [], [], [], false⟩
    obtain ⟨hstore, hkinds⟩ := runCommitFinish_error_store m fd (getCurrentMaster store) _ _ _ _ herr
    refine ⟨by rw [hstore]; exact g1, ⟨?_, ?_⟩, ?_⟩
    · exact Classical.choose g4
    · rw [hstore]
      exact Classical.choose_spec g4
    · intro hkind
      exfalso
      rcases hkind with h | h | ⟨fe, h⟩
      · obtain ⟨es, hres, heq⟩ := hkinds _ h (Or.inl rfl)
        rcases resolveFragments_error_kinds m _ _ fd ⟨store, [], [], [], false⟩ es hres with
          ⟨pk, hk⟩ | ⟨pk, t1, t2, hk⟩
        · rw [hk] at heq; exact absurd heq (by simp)
        · rw [hk] at heq; exact absurd heq (by simp)
      · obtain ⟨es, hres, heq⟩ := hkinds _ h (Or.inr (Or.inl rfl))
        rcases resolveFragments_error_kinds m _ _ fd ⟨store, [], [], [], false⟩ es hres with
          ⟨pk, hk⟩ | ⟨pk, t1, t2, hk⟩
        · rw [hk] at heq; exact absurd heq (by simp)
        · rw [hk] at heq; exact absurd heq (by simp)
      · obtain ⟨es, hres, heq⟩ := hkinds _ h (Or.inr (Or.inr ⟨fe, rfl⟩))
        rcases resolveFragments_error_kinds m _ _ fd ⟨store, [], [], [], false⟩ es hres with
          ⟨pk, hk⟩ | ⟨pk, t1, t2, hk⟩
        · rw [hk] at heq; exact absurd heq (by simp)
        · rw [hk] at heq; exact absurd heq (by simp)

/-- C2 counterexample: a commit failing with a listed failure mode (branch
directive naming a nonexistent parent, sub-prompt 99) leaves a freshly
inserted fragment row behind: the fragment table after the failed
invocation differs from its state before it. -/
theorem c2_counterexample :
    (runCommitFiles "m" [("01_a.j2", "A"), ("02_b.j2", "B")] [(99, "02_b.j2")]
      emptyStore).error = some (.parentNotFound 99) ∧
    (runCommitFiles "m" [("01_a.j2", "A"), ("02_b.j2", "B")] [(99, "02_b.j2")]
      emptyStore).store.subPrompts ≠ emptyStore.subPrompts := by
  decide

/-- C2 witness: the amended failure guarantees at the same failing input. -/
theorem c2_witness :
    (runCommitFiles "m" [("01_a.j2", "A"), ("02_b.j2", "B")] [(99, "02_b.j2")]
      emptyStore).error.isSome = true ∧
    ((runCommitFiles "m" [("01_a.j2", "A"), ("02_b.j2", "B")] [(99, "02_b.j2")]
        emptyStore).store.masterPrompts = emptyStore.masterPrompts ∧
      (∃ ext, (runCommitFiles "m" [("01_a.j2", "A"), ("02_b.j2", "B")] [(99, "02_b.j2")]
        emptyStore).store.subPrompts = emptyStore.subPrompts ++ ext) ∧
      (((runCommitFiles "m" [("01_a.j2", "A"), ("02_b.j2", "B")] [(99, "02_b.j2")]
          emptyStore).error = some .emptyMessage ∨
        (runCommitFiles "m" [("01_a.j2", "A"), ("02_b.j2", "B")] [(99, "02_b.j2")]
          emptyStore).error = some .duplicateTypeInCommit ∨
        (∃ fe, (runCommitFiles "m" [("01_a.j2", "A"), ("02_b.j2", "B")] [(99, "02_b.j2")]
          emptyStore).error = some (.invalidFilename fe))) →
        (runCommitFiles "m" [("01_a.j2", "A"), ("02_b.j2", "B")] [(99, "02_b.j2")]
          emptyStore).store = emptyStore)) :=
  ⟨by decide,
    c2_failure_effects "m" [("01_a.j2", "A"), ("02_b.j2", "B")] [(99, "02_b.j2")]
      emptyStore (by decide)⟩

/-! ## C1: the uncommit deletion rule -/

theorem computeToDelete_eq (curBT prevBT : List (String × Nat × String)) :
    computeToDelete curBT prevBT
      = (curBT.filter (fun p => match dictGet prevBT p.1 with
          | none => true
          | some q => versionGt p.2.2 q.2)).map (fun p => p.2.1) := by
  have hgen : ∀ (l : List (String × Nat × String)) (acc : List Nat),
      l.foldl (fun acc p =>
        match dictGet prevBT p.1 with
        | none => acc ++ [p.2.1]
        | some q => if versionGt p.2.2 q.2 then acc ++ [p.2.1] else acc) acc
      = acc ++ (l.filter (fun p => match dictGet prevBT p.1 with
          | none => true
          | some q => versionGt p.2.2 q.2)).map (fun p => p.2.1) := by
    intro l
    induction l with
    | nil => intro acc; simp
    | cons p l ih =>
      intro acc
      cases hq : dictGet prevBT p.1 with
      | none =>
        rw [List.foldl_cons]
        simp only [hq]
        rw [ih (acc ++ [p.2.1])]
        rw [@List.filter_cons_of_pos _ (fun p => match dictGet prevBT p.1 with
          | none => true
          | some q => versionGt p.2.2 q.2) p l (by simp [hq])]
        simp
      | some q =>
        rw [List.foldl_cons]
        simp only [hq]
        by_cases hgt : versionGt p.2.2 q.2 = true
        · rw [if_pos hgt, ih (acc ++ [p.2.1])]
          rw [@List.filter_cons_of_pos _ (fun p => match dictGet prevBT p.1 with
            | none => true
            | some q => versionGt p.2.2 q.2) p l (by simp [hq, hgt])]
          simp
        · rw [if_neg hgt, ih acc]
          rw [@List.filter_cons_of_neg _ (fun p => match dictGet prevBT p.1 with
            | none => true
            | some q => versionGt p.2.2 q.2) p l (by simp [hq, hgt])]
  rw [computeToDelete, hgen]
  simp

theorem contains_computeToDelete (store : Store) (current previous : MasterPrompt) (i : Nat) :
    (computeToDelete
        (dictOf ((getSubPromptsByIds store current.contents).map
          (fun r => (r.type, (r.id, r.version)))))
        (dictOf ((getSubPromptsByIds store previous.contents).map
          (fun r => (r.type, (r.id, r.version)))))).contains i
      = typeBasedDeleted store current previous i := by
  rw [Bool.eq_iff_iff]
  rw [computeToDelete_eq, typeBasedDeleted]
  constructor
  · intro h
    have hmem : i ∈ _ := List.elem_iff.mp h
    obtain ⟨p, hp, hpi⟩ := List.mem_map.mp hmem
    obtain ⟨hpmem, hpcond⟩ := List.mem_filter.mp hp
    rw [List.any_eq_true]
    refine ⟨p, hpmem, ?_⟩
    rw [Bool.and_eq_true]
    exact ⟨by simp [hpi], hpcond⟩
  · intro h
    obtain ⟨p, hpmem, hpcond⟩ := List.any_eq_true.mp h
    rw [Bool.and_eq_true] at hpcond
    apply List.elem_iff.mpr
    apply List.mem_map.mpr
    refine ⟨p, List.mem_filter.mpr ⟨hpmem, hpcond.2⟩, by simpa using hpcond.1⟩

/-- C1 amended: run_uncommit succeeds whenever a current master with a
parent exists, deletes the current master row, re-flags the parent as
current, and deletes exactly the fragment rows selected by the type-based
rule typeBasedDeleted (type absent from the previous master, or version
strictly later than the previous master's version for that type) - not the
id set difference of the two contents lists. -/
theorem c1_uncommit_type_based (store : Store) (current previous : MasterPrompt)
    (hcm : getCurrentMaster store = some current)
    (hpm : getPreviousMaster store = some previous) :
    ∃ s', runUncommit store = .ok s' ∧
      s'.subPrompts = store.subPrompts.filter
        (fun r => !(typeBasedDeleted store current previous r.id)) ∧
      s'.masterPrompts = (store.masterPrompts.filter
          (fun m => !(m.id == current.id))).map (fun m =>
        if m.id == previous.id then { m with isCurrent := true }
        else if m.isCurrent then { m with isCurrent := false } else m) := by
  rw [runUncommit, hcm, hpm]
  refine ⟨_, rfl, ?_, ?_⟩
  · show (store.subPrompts.filter _) = _
    apply List.filter_congr
    intro r _
    rw [contains_computeToDelete store current previous r.id]
  · show (setCurrentMaster (deleteMasterPrompt store current.id) previous.id).masterPrompts = _
    rw [setCurrentMaster_masterPrompts]
    rfl

/-- C1 counterexample: a reachable store (three commits: types a and b,
then an update of b, then a revert of b's contents which reuses the old
fragment row 2) where the current master's contents are the list containing
2 then 1 and the previous master's are 3 then 1, so the id set difference
is the single id 2; the claim demands fragment 2 be deleted, but uncommit
deletes nothing: all three fragment rows survive. -/
theorem c1_counterexample :
    (getCurrentMaster (runCommit "c3" [⟨"02_b.j2", "B1", "b"⟩] []
        (runCommit "c2" [⟨"02_b.j2", "B2", "b"⟩] []
          (runCommit "c1" [⟨"01_a.j2", "A1", "a"⟩, ⟨"02_b.j2", "B1", "b"⟩] []
            emptyStore).store).store).store).map
      (fun mm => (mm.contents, mm.parentId)) = some ([2, 1], some 2) ∧
    (getMasterById (runCommit "c3" [⟨"02_b.j2", "B1", "b"⟩] []
        (runCommit "c2" [⟨"02_b.j2", "B2", "b"⟩] []
          (runCommit "c1" [⟨"01_a.j2", "A1", "a"⟩, ⟨"02_b.j2", "B1", "b"⟩] []
            emptyStore).store).store).store 2).map (fun mm => mm.contents) = some [3, 1] ∧
    (runUncommit (runCommit "c3" [⟨"02_b.j2", "B1", "b"⟩] []
        (runCommit "c2" [⟨"02_b.j2", "B2", "b"⟩] []
          (runCommit "c1" [⟨"01_a.j2", "A1", "a"⟩, ⟨"02_b.j2", "B1", "b"⟩] []
            emptyStore).store).store).store).toOption.map
      (fun s2 => s2.subPrompts.map (fun r => r.id)) = some [1, 2, 3] := by
  decide

/-- C1 witness: the amended deletion rule at a concrete two-commit store. -/
theorem c1_witness :
    getCurrentMaster (runCommit "c2" [⟨"01_a.j2", "B", "a"⟩] []
        (runCommit "c1" [⟨"01_a.j2", "A", "a"⟩] [] emptyStore).store).store
      = some ⟨2, some 1, "2", [2], true, "c2"⟩ ∧
    getPreviousMaster (runCommit "c2" [⟨"01_a.j2", "B", "a"⟩] []
        (runCommit "c1" [⟨"01_a.j2", "A", "a"⟩] [] emptyStore).store).store
      = some ⟨1, none, "1", [1], false, "c1"⟩ ∧
    (∃ s', runUncommit (runCommit "c2" [⟨"01_a.j2", "B", "a"⟩] []
        (runCommit "c1" [⟨"01_a.j2", "A", "a"⟩] [] emptyStore).store).store = .ok s' ∧
      s'.subPrompts = (runCommit "c2" [⟨"01_a.j2", "B", "a"⟩] []
        (runCommit "c1" [⟨"01_a.j2", "A", "a"⟩] [] emptyStore).store).store.subPrompts.filter
        (fun r => !(typeBasedDeleted (runCommit "c2" [⟨"01_a.j2", "B", "a"⟩] []
          (runCommit "c1" [⟨"01_a.j2", "A", "a"⟩] [] emptyStore).store).store
          ⟨2, some 1, "2", [2], true, "c2"⟩ ⟨1, none, "1", [1], false, "c1"⟩ r.id)) ∧
      s'.masterPrompts = ((runCommit "c2" [⟨"01_a.j2", "B", "a"⟩] []
          (runCommit "c1" [⟨"01_a.j2", "A", "a"⟩] [] emptyStore).store).store.masterPrompts.filter
          (fun m => !(m.id == (2 : Nat)))).map (fun m =>
        if m.id == (1 : Nat) then { m with isCurrent := true }
        else if m.isCurrent then { m with isCurrent := false } else m)) :=
  ⟨by decide, by decide,
    c1_uncommit_type_based _ ⟨2, some 1, "2", [2], true, "c2"⟩
      ⟨1, none, "1", [1], false, "c1"⟩ (by decide) (by decide)⟩

/-! ## C3: observed behavior of a partial commit with a missing backing file -/

/-- C3: the code at the spec's rejected-partial-commit scenario.  A store
holds a current master with types a_header, b_consideration and
c_instruction; only b_consideration is committed while c_instruction's
backing file is gone from the working directory.  The spec and the
repository's own test suite (PartialCommitMissingCwdFileError in
tests/test_commit.py) demand a failure naming c_instruction with no store
mutation; run_commit instead succeeds, never consults the working
directory for carried types, inserts a new master (two master rows), and
reorders the composition to put the committed type first. -/
theorem c3_code_behavior :
    (runCommit "Update consideration"
        [⟨"02_b_consideration.j2", "Consideration v2", "b_consideration"⟩] []
        (runCommit "All three"
          [⟨"01_a_header.j2", "Header", "a_header"⟩,
           ⟨"02_b_consideration.j2", "Consideration v1", "b_consideration"⟩,
           ⟨"03_c_instruction.j2", "Instruction", "c_instruction"⟩] []
          emptyStore).store).error = none ∧
    (runCommit "Update consideration"
        [⟨"02_b_consideration.j2", "Consideration v2", "b_consideration"⟩] []
        (runCommit "All three"
          [⟨"01_a_header.j2", "Header", "a_header"⟩,
           ⟨"02_b_consideration.j2", "Consideration v1", "b_consideration"⟩,
           ⟨"03_c_instruction.j2", "Instruction", "c_instruction"⟩] []
          emptyStore).store).noop = false ∧
    (runCommit "Update consideration"
        [⟨"02_b_consideration.j2", "Consideration v2", "b_consideration"⟩] []
        (runCommit "All three"
          [⟨"01_a_header.j2", "Header", "a_header"⟩,
           ⟨"02_b_consideration.j2", "Consideration v1", "b_consideration"⟩,
           ⟨"03_c_instruction.j2", "Instruction", "c_instruction"⟩] []
          emptyStore).store).store.masterPrompts.length = 2 ∧
    (getCurrentMaster (runCommit "Update consideration"
        [⟨"02_b_consideration.j2", "Consideration v2", "b_consideration"⟩] []
        (runCommit "All three"
          [⟨"01_a_header.j2", "Header", "a_header"⟩,
           ⟨"02_b_consideration.j2", "Consideration v1", "b_consideration"⟩,
           ⟨"03_c_instruction.j2", "Instruction", "c_instruction"⟩] []
          emptyStore).store).store).map (fun mm => mm.contents) = some [4, 1, 3] := by
  decide

/-! ## C8: content addressing through the commit pipeline -/

theorem getSubPromptByContents_insert (s : Store) (t : String) (p : Option Nat)
    (v c m : String) (C : String) (ex : SubPrompt)
    (h : getSubPromptByContents s C = some ex) :
    getSubPromptByContents (insertSubPrompt s t p v c m).1 C = some ex := by
  show ((s.subPrompts ++ [(⟨s.nextSubId, t, p, v, c, m⟩ : SubPrompt)]).find?
      (fun r => r.contents == C)) = some ex
  have h' : s.subPrompts.find? (fun r => r.contents == C) = some ex := h
  rw [List.find?_append, h']
  rfl

theorem resolveFragments_content_stable (message : String) (bbp : List (String × Nat))
    (curSubs : List SubPrompt) :
    ∀ (files : List FileData) (st st' : ResolveState),
    resolveFragments message bbp curSubs files st = .ok st' →
    ∀ (C : String) (ex : SubPrompt), getSubPromptByContents st.store C = some ex →
    getSubPromptByContents st'.store C = some ex ∧
    st'.store.subPrompts.filter (fun r => r.contents == C)
      = st.store.subPrompts.filter (fun r => r.contents == C) := by
  intro files
  induction files with
  | nil =>
    intro st st' hok C ex hC
    have : st = st' := by simpa [resolveFragments] using hok
    rw [← this]
    exact ⟨hC, rfl⟩
  | cons f files ih =>
    intro st st' hok C ex hC
    cases hex : getSubPromptByContents st.store f.contents with
    | some existing =>
      simp only [resolveFragments, hex] at hok
      exact ih _ _ hok C ex hC
    | none =>
      have hCne : f.contents ≠ C := by
        intro he
        rw [he] at hex
        rw [hex] at hC
        exact absurd hC (by simp)
      cases hbp : dictGet bbp f.path with
      | some parentPk =>
        cases hpr : getSubPromptById st.store parentPk with
        | none =>
          simp only [resolveFragments, hex, hbp, hpr] at hok
          exact absurd hok (by simp)
        | some parentRow =>
          by_cases hty : parentRow.type ≠ f.typeName
          · simp only [resolveFragments, hex, hbp, hpr, if_pos hty] at hok
            exact absurd hok (by simp)
          · simp only [resolveFragments, hex, hbp, hpr, if_neg hty, insertSubPrompt_snd] at hok
            obtain ⟨g1, g2⟩ := ih _ _ hok C ex
              (getSubPromptByContents_insert st.store f.typeName (some parentPk)
                (branchVersion parentRow.version) f.contents message C ex hC)
            refine ⟨g1, ?_⟩
            rw [g2]
            show (st.store.subPrompts ++ [_]).filter (fun r : SubPrompt => r.contents == C) = _
            rw [List.filter_append]
            have hnil : List.filter (fun r => r.contents == C)
                [(⟨st.store.nextSubId, f.typeName, some parentPk,
                  branchVersion parentRow.version, f.contents, message⟩ : SubPrompt)] = [] := by
              rw [List.filter_eq_nil_iff]
              intro x hx
              have hxeq := List.mem_singleton.mp hx
              rw [hxeq]
              simpa using hCne
            rw [hnil]
            simp
      | none =>
        simp only [resolveFragments, hex, hbp, insertSubPrompt_snd] at hok
        obtain ⟨g1, g2⟩ := ih _ _ hok C ex
          (getSubPromptByContents_insert st.store f.typeName _ _ f.contents message C ex hC)
        refine ⟨g1, ?_⟩
        rw [g2]
        show (st.store.subPrompts ++ [_]).filter (fun r : SubPrompt => r.contents == C) = _
        rw [List.filter_append]
        have hnil : List.filter (fun r => r.contents == C)
            [(⟨st.store.nextSubId, f.typeName,
              (curSubs.find? (fun sub => sub.type == f.typeName)).map (fun sub => sub.id),
              incrementVersion ((curSubs.find? (fun sub => sub.type == f.typeName)).map
                (fun sub => sub.version)),
              f.contents, message⟩ : SubPrompt)] = [] := by
          rw [List.filter_eq_nil_iff]
          intro x hx
          have hxeq := List.mem_singleton.mp hx
          rw [hxeq]
          simpa using hCne
        rw [hnil]
        simp

theorem resolveFragments_typeToId_frozen (message : String) (bbp : List (String × Nat))
    (curSubs : List SubPrompt) :
    ∀ (files : List FileData) (st st' : ResolveState),
    resolveFragments message bbp curSubs files st = .ok st' →
    ∀ k, k ∉ files.map (fun g => g.typeName) →
    dictGet st'.typeToId k = dictGet st.typeToId k := by
  intro files
  induction files with
  | nil =>
    intro st st' hok k hk
    have : st = st' := by simpa [resolveFragments] using hok
    rw [← this]
  | cons f files ih =>
    intro st st' hok k hk
    simp only [List.map_cons, List.mem_cons, not_or] at hk
    have hkne : k ≠ f.typeName := hk.1
    cases hex : getSubPromptByContents st.store f.contents with
    | some existing =>
      simp only [resolveFragments, hex] at hok
      rw [ih _ _ hok k hk.2]
      exact dictGet_insert_other _ _ _ _ hkne
    | none =>
      cases hbp : dictGet bbp f.path with
      | some parentPk =>
        cases hpr : getSubPromptById st.store parentPk with
        | none =>
          simp only [resolveFragments, hex, hbp, hpr] at hok
          exact absurd hok (by simp)
        | some parentRow =>
          by_cases hty : parentRow.type ≠ f.typeName
          · simp only [resolveFragments, hex, hbp, hpr, if_pos hty] at hok
            exact absurd hok (by simp)
          · simp only [resolveFragments, hex, hbp, hpr, if_neg hty, insertSubPrompt_snd] at hok
            rw [ih _ _ hok k hk.2]
            exact dictGet_insert_other _ _ _ _ hkne
      | none =>
        simp only [resolveFragments, hex, hbp, insertSubPrompt_snd] at hok
        rw [ih _ _ hok k hk.2]
        exact dictGet_insert_other _ _ _ _ hkne

theorem resolveFragments_typeToId_reuse (message : String) (bbp : List (String × Nat))
    (curSubs : List SubPrompt) :
    ∀ (files : List FileData) (st st' : ResolveState),
    resolveFragments message bbp curSubs files st = .ok st' →
    ∀ (f : FileData) (ex : SubPrompt), f ∈ files →
    (files.map (fun g => g.typeName)).Nodup →
    getSubPromptByContents st.store f.contents = some ex →
    dictGet st'.typeToId f.typeName = some ex.id := by
  intro files
  induction files with
  | nil =>
    intro st st' _ f ex hf
    exact absurd hf (by simp)
  | cons g files ih =>
    intro st st' hok f ex hf hnd hfind
    simp only [List.map_cons, List.nodup_cons] at hnd
    rcases List.mem_cons.mp hf with hfg | hfrest
    · subst hfg
      cases hex : getSubPromptByContents st.store f.contents with
      | some existing =>
        rw [hex] at hfind
        have hexeq : existing = ex := by injection hfind
        subst hexeq
        simp only [resolveFragments, hex] at hok
        rw [resolveFragments_typeToId_frozen message bbp curSubs files _ _ hok
          f.typeName hnd.1]
        exact dictGet_insert_same _ _ _
      | none =>
        rw [hex] at hfind
        exact absurd hfind (by simp)
    · cases hex : getSubPromptByContents st.store g.contents with
      | some existing =>
        simp only [resolveFragments, hex] at hok
        exact ih _ _ hok f ex hfrest hnd.2 hfind
      | none =>
        have hgne : g.contents ≠ f.contents := by
          intro he
          rw [he, hfind] at hex
          exact absurd hex (by simp)
        cases hbp : dictGet bbp g.path with
        | some parentPk =>
          cases hpr : getSubPromptById st.store parentPk with
          | none =>
            simp only [resolveFragments, hex, hbp, hpr] at hok
            exact absurd hok (by simp)
          | some parentRow =>
            by_cases hty : parentRow.type ≠ g.typeName
            · simp only [resolveFragments, hex, hbp, hpr, if_pos hty] at hok
              exact absurd hok (by simp)
            · simp only [resolveFragments, hex, hbp, hpr, if_neg hty, insertSubPrompt_snd] at hok
              exact ih _ _ hok f ex hfrest hnd.2
                (getSubPromptByContents_insert st.store g.typeName (some parentPk)
                  (branchVersion parentRow.version) g.contents message f.contents ex hfind)
        | none =>
          simp only [resolveFragments, hex, hbp, insertSubPrompt_snd] at hok
          exact ih _ _ hok f ex hfrest hnd.2
            (getSubPromptByContents_insert st.store g.typeName _ _ g.contents message
              f.contents ex hfind)

theorem extendTypeOrder_mem (tic : List String) :
    ∀ (rows : List SubPrompt) (acc out : List String),
    extendTypeOrder tic rows acc = .ok out → ∀ t ∈ acc, t ∈ out := by
  intro rows
  induction rows with
  | nil =>
    intro acc out hok t ht
    have : acc = out := by simpa [extendTypeOrder] using hok
    rw [← this]
    exact ht
  | cons row rest ih =>
    intro acc out hok t ht
    by_cases h1 : tic.contains row.type
    · simp only [extendTypeOrder, if_pos h1] at hok
      exact ih acc out hok t ht
    · by_cases h2 : acc.contains row.type
      · simp only [extendTypeOrder, if_neg h1, if_pos h2] at hok
        exact absurd hok (by simp)
      · simp only [extendTypeOrder, if_neg h1, if_neg h2] at hok
        exact ih (acc ++ [row.type]) out hok t (List.mem_append_left _ ht)

theorem composeIds_ids_mono (tti : List (String × Nat)) (hc : Bool)
    (cs : List SubPrompt) :
    ∀ (order : List String) (acc : List Nat × List (Nat × String) × List (Nat × String))
    (x : Nat), x ∈ acc.1 → x ∈ (composeIds tti hc cs order acc).1 := by
  intro order
  induction order with
  | nil => intro acc x hx; simpa [composeIds] using hx
  | cons t rest ih =>
    intro acc x hx
    obtain ⟨ids, iv, it⟩ := acc
    have hx1 : x ∈ ids := hx
    cases hd : dictGet tti t with
    | some i =>
      simp only [composeIds, hd]
      exact ih (ids ++ [i], iv, it) x (List.mem_append_left _ hx1)
    | none =>
      cases hc with
      | true =>
        cases hfind : cs.find? (fun sub => sub.type == t) with
        | some sub =>
          simp only [composeIds, hd, hfind]
          exact ih (ids ++ [sub.id], dictInsert iv sub.id sub.version,
            dictInsert it sub.id sub.type) x (List.mem_append_left _ hx1)
        | none =>
          simp only [composeIds, hd, hfind]
          exact ih (ids, iv, it) x hx1
      | false =>
        simp only [composeIds, hd]
        exact ih (ids, iv, it) x hx1

theorem composeIds_mem_of_dict (tti : List (String × Nat)) (hc : Bool)
    (cs : List SubPrompt) :
    ∀ (order : List String) (acc : List Nat × List (Nat × String) × List (Nat × String))
    (t : String) (i : Nat), t ∈ order → dictGet tti t = some i →
    i ∈ (composeIds tti hc cs order acc).1 := by
  intro order
  induction order with
  | nil => intro acc t i ht; exact absurd ht (by simp)
  | cons t' rest ih =>
    intro acc t i ht hd
    obtain ⟨ids, iv, it⟩ := acc
    rcases List.mem_cons.mp ht with hteq | htrest
    · subst hteq
      simp only [composeIds, hd]
      exact composeIds_ids_mono tti hc cs rest (ids ++ [i], iv, it) i
        (List.mem_append_right _ (List.mem_singleton.mpr rfl))
    · cases hd' : dictGet tti t' with
      | some j =>
        simp only [composeIds, hd']
        exact ih (ids ++ [j], iv, it) t i htrest hd
      | none =>
        cases hc with
        | true =>
          cases hfind : cs.find? (fun sub => sub.type == t') with
          | some sub =>
            simp only [composeIds, hd', hfind]
            exact ih (ids ++ [sub.id], dictInsert iv sub.id sub.version,
              dictInsert it sub.id sub.type) t i htrest hd
          | none =>
            simp only [composeIds, hd', hfind]
            exact ih (ids, iv, it) t i htrest hd
        | false =>
          simp only [composeIds, hd']
          exact ih (ids, iv, it) t i htrest hd

theorem count_le_one_nodup :
    ∀ (l : List String), (∀ t ∈ l, l.count t ≤ 1) → l.Nodup := by
  intro l
  induction l with
  | nil => intro _; exact List.nodup_nil
  | cons a l ih =>
    intro h
    refine List.nodup_cons.mpr ⟨?_, ?_⟩
    · intro hmem
      have h1 := h a (List.mem_cons_self a l)
      rw [List.count_cons_self] at h1
      have h2 : 0 < l.count a := List.count_pos_iff.mpr hmem
      omega
    · refine ih ?_
      intro t ht
      have h1 := h t (List.mem_cons_of_mem a ht)
      have h2 : l.count t ≤ (a :: l).count t := List.count_le_count_cons t a l
      omega

theorem nodup_of_not_hasDupTypes (files : List FileData)
    (h : hasDupTypes files = false) :
    (files.map (fun f => f.typeName)).Nodup := by
  refine count_le_one_nodup _ ?_
  intro t ht
  by_contra hgt
  have hlt : 1 < (files.map (fun f => f.typeName)).count t := by omega
  have : hasDupTypes files = true := by
    simp only [hasDupTypes, List.any_eq_true]
    exact ⟨t, ht, by simpa using hlt⟩
  rw [h] at this
  exact absurd this (by simp)

theorem successStore_subPrompts (message : String) (current : Option MasterPrompt)
    (currentByType : List (String × String)) (rs : ResolveState)
    (composed : List Nat × List (Nat × String) × List (Nat × String)) :
    (successStore message current currentByType rs composed).subPrompts
      = rs.store.subPrompts := by
  cases current <;> rfl

theorem successStore_masterPrompts (message : String) (current : Option MasterPrompt)
    (currentByType : List (String × String)) (rs : ResolveState)
    (composed : List Nat × List (Nat × String) × List (Nat × String)) :
    (successStore message current currentByType rs composed).masterPrompts
      = (match current with
          | some _ => clearCurrentMaster rs.store
          | none => rs.store).masterPrompts
        ++ [⟨rs.store.nextMasterId, current.map (fun m => m.id),
            deriveMasterVersion (current.map (fun m => m.version)) currentByType
              composed.1 composed.2.1 composed.2.2,
            composed.1, true, message⟩] := by
  cases current <;> rfl

theorem find_isCurrent_append (l : List MasterPrompt) (mm : MasterPrompt)
    (hl : l.filter (fun x => x.isCurrent) = []) (hm : mm.isCurrent = true) :
    (l ++ [mm]).find? (fun x => x.isCurrent) = some mm := by
  rw [List.find?_append]
  have h1 : l.find? (fun x => x.isCurrent) = none := by
    refine List.find?_eq_none.mpr ?_
    intro x hx
    have := List.filter_eq_nil_iff.mp hl x hx
    simpa using this
  rw [h1]
  simp [List.find?, hm]

theorem runCommitFinish_success (message : String) (filesData : List FileData)
    (current : Option MasterPrompt) (currentIds : List Nat)
    (currentSubs : List SubPrompt) (currentByType : List (String × String))
    (res : Except (CommitErr × Store) ResolveState) (S2 : Store)
    (h : runCommitFinish message filesData current currentIds currentSubs
      currentByType res = ⟨none, false, S2⟩) :
    ∃ rs typeOrder,
      res = Except.ok rs ∧
      extendTypeOrder (filesData.map (fun f => f.typeName)) currentSubs
        (filesData.map (fun f => f.typeName)) = .ok typeOrder ∧
      (newComposition rs current currentSubs typeOrder).1.isEmpty = false ∧
      (!rs.insertedAny && current.isSome
        && ((newComposition rs current currentSubs typeOrder).1 == currentIds)) = false ∧
      rs.store.masterPrompts.any
        (fun m => m.contents == (newComposition rs current currentSubs typeOrder).1) = false ∧
      S2 = successStore message current currentByType rs
        (newComposition rs current currentSubs typeOrder) := by
  cases res with
  | error es =>
    simp only [runCommitFinish] at h
    exact absurd (congrArg (fun c => c.error) h) (by simp)
  | ok rs =>
    cases hord : extendTypeOrder (filesData.map (fun f => f.typeName)) currentSubs
        (filesData.map (fun f => f.typeName)) with
    | error t =>
      simp only [runCommitFinish, hord] at h
      exact absurd (congrArg (fun c => c.error) h) (by simp)
    | ok typeOrder =>
      refine ⟨rs, typeOrder, rfl, rfl, ?_⟩
      simp only [runCommitFinish, hord] at h
      have hfold : composeIds rs.typeToId current.isSome currentSubs typeOrder
          ([], rs.idToVersion, rs.idToType) = newComposition rs current currentSubs typeOrder :=
        rfl
      rw [hfold] at h
      by_cases h1 : (newComposition rs current currentSubs typeOrder).1.isEmpty = true
      · rw [if_pos h1] at h
        exact absurd (congrArg (fun c => c.noop) h) (by simp)
      · rw [if_neg h1] at h
        by_cases h2 : (!rs.insertedAny && current.isSome
            && ((newComposition rs current currentSubs typeOrder).1 == currentIds)) = true
        · rw [if_pos h2] at h
          exact absurd (congrArg (fun c => c.noop) h) (by simp)
        · rw [if_neg h2] at h
          by_cases h3 : rs.store.masterPrompts.any
              (fun m => m.contents
                == (newComposition rs current currentSubs typeOrder).1) = true
          · rw [if_pos h3] at h
            exact absurd (congrArg (fun c => c.error) h) (by simp)
          · rw [if_neg h3] at h
            refine ⟨Bool.eq_false_iff.mpr (fun he => h1 he), ?_, ?_, ?_⟩
            · exact Bool.eq_false_iff.mpr (fun he => h2 he)
            · exact Bool.eq_false_iff.mpr (fun he => h3 he)
            · exact (congrArg (fun c => c.store) h).symm

/-- C8: for every commit whose working set contains a file with contents
byte-identical to an existing fragment, a successful run_commit creates no
new fragment row for that contents (the rows holding it are unchanged), the
new current master references the pre-existing fragment's id, and the store
still holds no two fragments with identical contents. -/
theorem c8_content_addressing (message : String) (files : List FileData)
    (specs : List (Nat × String)) (store S2 : Store) (f : FileData) (ex : SubPrompt)
    (hre : Reachable store) (hf : f ∈ files)
    (hex : getSubPromptByContents store f.contents = some ex)
    (hrun : runCommit message files specs store = ⟨none, false, S2⟩) :
    S2.subPrompts.filter (fun r => r.contents == f.contents)
        = store.subPrompts.filter (fun r => r.contents == f.contents) ∧
    (∃ mNew, getCurrentMaster S2 = some mNew ∧ ex.id ∈ mNew.contents) ∧
    (S2.subPrompts.map (fun r => r.contents)).Nodup := by
  have hinv2 := runCommit_storeInv message files specs store (reachable_storeInv store hre)
  have hst : (runCommit message files specs store).store = S2 :=
    congrArg (fun c => c.store) hrun
  rw [hst] at hinv2
  simp only [runCommit] at hrun
  by_cases hmsg : message = ""
  · rw [if_pos hmsg] at hrun
    exact absurd (congrArg (fun c => c.error) hrun) (by simp)
  rw [if_neg hmsg] at hrun
  have hne : files.isEmpty = false := by
    cases files with
    | nil => exact absurd hf (by simp)
    | cons a l => rfl
  rw [if_neg (by rw [hne]; simp : ¬ files.isEmpty = true)] at hrun
  by_cases hdup : hasDupTypes files = true
  · rw [if_pos hdup] at hrun
    exact absurd (congrArg (fun c => c.error) hrun) (by simp)
  rw [if_neg hdup] at hrun
  have hndt : hasDupTypes files = false := Bool.eq_false_iff.mpr hdup
  obtain ⟨rs, typeOrder, hres, hord, hne', hnoop, huniq, hS2⟩ :=
    runCommitFinish_success _ _ _ _ _ _ _ _ hrun
  have hnd := nodup_of_not_hasDupTypes files hndt
  have hstable := resolveFragments_content_stable _ _ _ files _ rs hres f.contents ex hex
  have hdict := resolveFragments_typeToId_reuse _ _ _ files _ rs hres f ex hf hnd hex
  have htyo := extendTypeOrder_mem _ _ _ _ hord f.typeName
    (List.mem_map_of_mem (fun g => g.typeName) hf)
  have hpre : (match getCurrentMaster store with
      | some _ => clearCurrentMaster rs.store
      | none => rs.store).masterPrompts.filter (fun m : MasterPrompt => m.isCurrent) = [] := by
    cases hcur : getCurrentMaster store with
    | some c => exact clearCurrentMaster_filter rs.store
    | none =>
      have hsh := (resolveFragments_shape message
        (dictOf (List.map (fun sp => (sp.2, sp.1)) specs))
        (getSubPromptsByIds store
          (match getCurrentMaster store with | some m => m.contents | none => ([] : List Nat)))
        files (⟨store, [], [], [], false⟩ : ResolveState)).1
      rw [hres] at hsh
      have hms : rs.store.masterPrompts = store.masterPrompts := hsh
      rw [hms]
      exact getCurrentMaster_none_filter store hcur
  refine ⟨?_, ?_, ?_⟩
  · rw [hS2, successStore_subPrompts]
    exact hstable.2
  · rw [hS2]
    simp only [getCurrentMaster]
    rw [successStore_masterPrompts]
    exact ⟨_, find_isCurrent_append _ _ hpre rfl,
      composeIds_mem_of_dict _ _ _ _ _ _ _ htyo hdict⟩
  · exact hinv2.1.2.2.1

theorem c8_witness :
    ((runCommit "m2" [⟨"01_a.j2", "A", "a"⟩, ⟨"02_b.j2", "B", "b"⟩] []
        (runCommitFiles "m1" [("01_a.j2", "A")] [] emptyStore).store).store.subPrompts.filter
      (fun r => r.contents == (⟨"01_a.j2", "A", "a"⟩ : FileData).contents))
      = ((runCommitFiles "m1" [("01_a.j2", "A")] [] emptyStore).store.subPrompts.filter
        (fun r => r.contents == (⟨"01_a.j2", "A", "a"⟩ : FileData).contents)) ∧
    (∃ mNew, getCurrentMaster (runCommit "m2" [⟨"01_a.j2", "A", "a"⟩, ⟨"02_b.j2", "B", "b"⟩] []
        (runCommitFiles "m1" [("01_a.j2", "A")] [] emptyStore).store).store = some mNew ∧
      (⟨1, "a", none, "1", "A", "m1"⟩ : SubPrompt).id ∈ mNew.contents) ∧
    ((runCommit "m2" [⟨"01_a.j2", "A", "a"⟩, ⟨"02_b.j2", "B", "b"⟩] []
        (runCommitFiles "m1" [("01_a.j2", "A")] [] emptyStore).store).store.subPrompts.map
      (fun r => r.contents)).Nodup := by
  exact c8_content_addressing "m2" [⟨"01_a.j2", "A", "a"⟩, ⟨"02_b.j2", "B", "b"⟩] []
    (runCommitFiles "m1" [("01_a.j2", "A")] [] emptyStore).store
    (runCommit "m2" [⟨"01_a.j2", "A", "a"⟩, ⟨"02_b.j2", "B", "b"⟩] []
      (runCommitFiles "m1" [("01_a.j2", "A")] [] emptyStore).store).store
    ⟨"01_a.j2", "A", "a"⟩ ⟨1, "a", none, "1", "A", "m1"⟩
    (Reachable.commit "m1" [("01_a.j2", "A")] [] Reachable.init)
    (by decide) (by decide) (by decide)

/-! ## C9: groundwork -/

theorem versionGt_irrefl (v : String) : versionGt v v = false :=
  padCmpGt_irrefl _

theorem versionGt_increment (v : String) (h : ValidVersion v = true) :
    versionGt (incrementVersion (some v)) v = true := by
  obtain ⟨Q, L, hQL⟩ := (splitDot v).eq_nil_or_concat'.resolve_left (splitDot_ne_nil v)
  have hinc := splitDot_increment v h hQL
  rw [versionGt, hinc, hQL, List.map_append, List.map_append]
  simp only [List.map_cons, List.map_nil]
  rw [parseNat_natToString]
  exact padCmpGt_append_succ _ _

theorem find_key_nodup {α β : Type} [BEq β] [LawfulBEq β] (key : α → β) :
    ∀ (l : List α), ((l.map key).Nodup) → ∀ x ∈ l,
    l.find? (fun y => key y == key x) = some x := by
  intro l
  induction l with
  | nil => intro _ x hx; exact absurd hx (by simp)
  | cons a l ih =>
    intro hnd x hx
    simp only [List.map_cons, List.nodup_cons] at hnd
    rcases List.mem_cons.mp hx with hax | hxl
    · subst hax
      rw [List.find?_cons_of_pos]
      simp
    · have hne : ¬ (key a == key x) = true := by
        intro hc
        have hc' : key a = key x := by simpa using hc
        exact hnd.1 (hc' ▸ List.mem_map_of_mem key hxl)
      rw [@List.find?_cons_of_neg _ (fun y => key y == key x) a l hne]
      exact ih hnd.2 x hxl

theorem nodup_key_inj {α β : Type} (key : α → β) (l : List α)
    (hnd : (l.map key).Nodup) :
    ∀ x ∈ l, ∀ y ∈ l, key x = key y → x = y := by
  induction l with
  | nil => intro x hx; exact absurd hx (by simp)
  | cons a l ih =>
    intro x hx y hy hk
    simp only [List.map_cons, List.nodup_cons] at hnd
    rcases List.mem_cons.mp hx with hax | hxl <;> rcases List.mem_cons.mp hy with hay | hyl
    · rw [hax, hay]
    · subst hax
      exact absurd (hk ▸ List.mem_map_of_mem key hyl) hnd.1
    · subst hay
      exact absurd (hk ▸ List.mem_map_of_mem key hxl) (by
        intro hc
        exact hnd.1 (by simpa using hc))
    · exact ih hnd.2 x hxl y hyl hk

theorem dictGet_map_assoc {α β γ : Type} [BEq β] (key : α → β) (val : α → γ) :
    ∀ (l : List α) (k : β),
    dictGet (l.map (fun r => (key r, val r))) k
      = (l.find? (fun r => key r == k)).map val := by
  intro l
  induction l with
  | nil => intro k; rfl
  | cons a l ih =>
    intro k
    by_cases h : (key a == k) = true
    · simp only [dictGet, List.map_cons]
      rw [@List.find?_cons_of_pos _ (fun p => p.1 == k) (key a, val a) _ (by simpa using h),
        @List.find?_cons_of_pos _ (fun r => key r == k) a l h]
      rfl
    · simp only [dictGet, List.map_cons]
      rw [@List.find?_cons_of_neg _ (fun p => p.1 == k) (key a, val a) _ (by simpa using h),
        @List.find?_cons_of_neg _ (fun r => key r == k) a l h]
      exact ih k

theorem dictInsert_not_mem {α β : Type} [BEq α] :
    ∀ (d : List (α × β)) (k : α) (v : β),
    (∀ p ∈ d, ¬ (p.1 == k) = true) → dictInsert d k v = d ++ [(k, v)] := by
  intro d
  induction d with
  | nil => intro k v _; rfl
  | cons p rest ih =>
    intro k v h
    have hp : ¬ (p.1 == k) = true := h p (List.mem_cons_self p rest)
    simp only [dictInsert, if_neg hp, List.cons_append]
    rw [ih k v (fun q hq => h q (List.mem_cons_of_mem p hq))]

theorem dictOf_foldl_nodup {α β : Type} [BEq α] [LawfulBEq α] :
    ∀ (l acc : List (α × β)), (((acc ++ l).map (fun p => p.1)).Nodup) →
    l.foldl (fun d p => dictInsert d p.1 p.2) acc = acc ++ l := by
  intro l
  induction l with
  | nil => intro acc _; simp
  | cons p rest ih =>
    intro acc hnd
    have hnd' := hnd
    rw [List.map_append, List.nodup_append] at hnd'
    have hins : dictInsert acc p.1 p.2 = acc ++ [p] := by
      apply dictInsert_not_mem
      intro q hq hqk
      have hqk' : q.1 = p.1 := by simpa using hqk
      have hp1 : p.1 ∈ (p :: rest).map (fun x => x.1) :=
        List.mem_map_of_mem _ (List.mem_cons_self p rest)
      rw [← hqk'] at hp1
      exact hnd'.2.2 (List.mem_map_of_mem _ hq) hp1
    show List.foldl (fun d p => dictInsert d p.1 p.2) (dictInsert acc p.1 p.2) rest
        = acc ++ p :: rest
    rw [hins]
    have hmapeq : ((acc ++ [p]) ++ rest).map (fun q => q.1)
        = ((acc ++ p :: rest)).map (fun q => q.1) := by simp
    rw [ih (acc ++ [p]) (by rw [hmapeq]; exact hnd)]
    simp

theorem dictOf_nodup {α β : Type} [BEq α] [LawfulBEq α] (l : List (α × β))
    (hnd : (l.map (fun p => p.1)).Nodup) : dictOf l = l := by
  have := dictOf_foldl_nodup l [] (by simpa using hnd)
  simpa [dictOf] using this

theorem two_mem_length {α : Type} (l : List α) (x y : α) (hx : x ∈ l) (hy : y ∈ l)
    (hne : x ≠ y) : 2 ≤ l.length := by
  match l with
  | [] => exact absurd hx (by simp)
  | [a] =>
    have hxa : x = a := by simpa using hx
    have hya : y = a := by simpa using hy
    exact absurd (hxa.trans hya.symm) hne
  | a :: b :: t => simp

theorem freshInserted_ids (message : String) (curSubs : List SubPrompt) :
    ∀ (files : List FileData) (n : Nat),
    (freshInserted message curSubs files n).map (fun r => r.id)
      = List.range' n files.length := by
  intro files
  induction files with
  | nil => intro n; rfl
  | cons f rest ih =>
    intro n
    simp only [freshInserted, List.map_cons, List.length_cons, List.range'_succ]
    rw [ih (n + 1)]

theorem freshInserted_id_ge (message : String) (curSubs : List SubPrompt) :
    ∀ (files : List FileData) (n : Nat),
    ∀ r ∈ freshInserted message curSubs files n, n ≤ r.id := by
  intro files
  induction files with
  | nil => intro n r hr; exact absurd hr (by simp [freshInserted])
  | cons f rest ih =>
    intro n r hr
    rcases List.mem_cons.mp hr with hr0 | hrrest
    · rw [hr0]
    · have := ih (n + 1) r hrrest
      omega

theorem freshInserted_types (message : String) (curSubs : List SubPrompt) :
    ∀ (files : List FileData) (n : Nat),
    (freshInserted message curSubs files n).map (fun r => r.type)
      = files.map (fun f => f.typeName) := by
  intro files
  induction files with
  | nil => intro n; rfl
  | cons f rest ih =>
    intro n
    simp only [freshInserted, List.map_cons]
    rw [ih (n + 1)]

theorem freshInserted_version (message : String) (curSubs : List SubPrompt) :
    ∀ (files : List FileData) (n : Nat),
    ∀ r ∈ freshInserted message curSubs files n,
    r.version = incrementVersion ((curSubs.find? (fun sub => sub.type == r.type)).map
      (fun sub => sub.version)) := by
  intro files
  induction files with
  | nil => intro n r hr; exact absurd hr (by simp [freshInserted])
  | cons f rest ih =>
    intro n r hr
    rcases List.mem_cons.mp hr with hr0 | hrrest
    · rw [hr0]
    · exact ih (n + 1) r hrrest

theorem resolveFragments_fresh (message : String) (curSubs : List SubPrompt) :
    ∀ (files : List FileData) (S : Store) (tti : List (String × Nat))
      (iv it : List (Nat × String)) (b : Bool) (rs : ResolveState),
    (∀ f ∈ files, getSubPromptByContents S f.contents = none) →
    files.Pairwise (fun f g => f.contents ≠ g.contents) →
    (files.map (fun f => f.typeName)).Nodup →
    resolveFragments message [] curSubs files ⟨S, tti, iv, it, b⟩ = .ok rs →
    rs.store.subPrompts = S.subPrompts ++ freshInserted message curSubs files S.nextSubId ∧
    rs.store.nextSubId = S.nextSubId + files.length ∧
    (∀ k (hk : k < files.length),
      dictGet rs.typeToId ((files.get ⟨k, hk⟩).typeName) = some (S.nextSubId + k)) ∧
    ((files ≠ [] ∨ b = true) → rs.insertedAny = true) := by
  intro files
  induction files with
  | nil =>
    intro S tti iv it b rs _ _ _ hok
    have heq : (⟨S, tti, iv, it, b⟩ : ResolveState) = rs := by
      simpa [resolveFragments] using hok
    rw [← heq]
    refine ⟨by simp [freshInserted], by simp, ?_, ?_⟩
    · intro k hk; exact absurd hk (by simp)
    · intro h
      rcases h with h | h
      · exact absurd rfl h
      · exact h
  | cons f rest ih =>
    intro S tti iv it b rs hfresh hpw hnd hok
    have hex : getSubPromptByContents S f.contents = none :=
      hfresh f (List.mem_cons_self f rest)
    simp only [resolveFragments, hex, dictGet_nil, insertSubPrompt_snd] at hok
    simp only [List.map_cons, List.nodup_cons] at hnd
    have hpw' := List.pairwise_cons.mp hpw
    have hfresh' : ∀ g ∈ rest,
        getSubPromptByContents (insertSubPrompt S f.typeName
          ((curSubs.find? (fun sub => sub.type == f.typeName)).map (fun sub => sub.id))
          (incrementVersion ((curSubs.find? (fun sub => sub.type == f.typeName)).map
            (fun sub => sub.version)))
          f.contents message).1 g.contents = none := by
      intro g hg
      show ((S.subPrompts ++ [_]).find? (fun r : SubPrompt => r.contents == g.contents)) = none
      have hSg : S.subPrompts.find? (fun r : SubPrompt => r.contents == g.contents) = none :=
        hfresh g (List.mem_cons_of_mem f hg)
      rw [List.find?_append, hSg]
      simp only [Option.none_or]
      rw [List.find?_eq_none]
      intro x hx
      have hxeq := List.mem_singleton.mp hx
      rw [hxeq]
      simpa using hpw'.1 g hg
    obtain ⟨g1, g2, g3, g4⟩ := ih _ _ _ _ _ rs hfresh' hpw'.2 hnd.2 hok
    refine ⟨?_, ?_, ?_, ?_⟩
    · rw [g1, insertSubPrompt_subPrompts, insertSubPrompt_nextSubId]
      simp only [freshInserted, List.append_assoc, List.cons_append, List.nil_append]
    · rw [g2, insertSubPrompt_nextSubId]
      simp only [List.length_cons]
      omega
    · intro k hk
      match k with
      | 0 =>
        show dictGet rs.typeToId f.typeName = some (S.nextSubId + 0)
        have hfro := resolveFragments_typeToId_frozen message [] curSubs rest _ rs hok
          f.typeName hnd.1
        rw [hfro]
        show dictGet (dictInsert tti f.typeName S.nextSubId) f.typeName = _
        rw [dictGet_insert_same]
        simp
      | k + 1 =>
        have hg3 := g3 k (by simpa using hk)
        rw [insertSubPrompt_nextSubId] at hg3
        show dictGet rs.typeToId ((rest.get ⟨k, by simpa using hk⟩).typeName)
            = some (S.nextSubId + (k + 1))
        rw [hg3]
        congr 1
        omega
    · intro _
      exact g4 (Or.inr rfl)

theorem composeIds_fst (tti : List (String × Nat)) (cs : List SubPrompt) :
    ∀ (order : List String) (ids : List Nat) (iv it : List (Nat × String)),
    (composeIds tti true cs order (ids, iv, it)).1
      = ids ++ composedIdsSpec tti cs order := by
  intro order
  induction order with
  | nil => intro ids iv it; simp [composeIds, composedIdsSpec]
  | cons t rest ih =>
    intro ids iv it
    cases hd : dictGet tti t with
    | some i =>
      simp only [composeIds, composedIdsSpec, hd]
      rw [ih]
      simp
    | none =>
      cases hfind : cs.find? (fun sub => sub.type == t) with
      | some sub =>
        simp only [composeIds, composedIdsSpec, hd, hfind, if_true]
        rw [ih]
        simp
      | none =>
        simp only [composeIds, composedIdsSpec, hd, hfind, if_true]
        rw [ih]

theorem composedIdsSpec_append (tti : List (String × Nat)) (cs : List SubPrompt) :
    ∀ (l1 l2 : List String),
    composedIdsSpec tti cs (l1 ++ l2)
      = composedIdsSpec tti cs l1 ++ composedIdsSpec tti cs l2 := by
  intro l1
  induction l1 with
  | nil => intro l2; rfl
  | cons t rest ih =>
    intro l2
    cases hd : dictGet tti t with
    | some i => simp only [List.cons_append, composedIdsSpec, hd, List.append_eq, ih,
        List.nil_append]
    | none =>
      cases hfind : cs.find? (fun sub => sub.type == t) with
      | some sub => simp only [List.cons_append, composedIdsSpec, hd, hfind, List.append_eq, ih]
      | none => simp only [List.cons_append, composedIdsSpec, hd, hfind, List.append_eq, ih]

theorem composedIdsSpec_files (tti : List (String × Nat)) (cs : List SubPrompt) :
    ∀ (files : List FileData) (n : Nat),
    (∀ k (hk : k < files.length), dictGet tti ((files.get ⟨k, hk⟩).typeName) = some (n + k)) →
    composedIdsSpec tti cs (files.map (fun f => f.typeName))
      = List.range' n files.length := by
  intro files
  induction files with
  | nil => intro n _; rfl
  | cons f rest ih =>
    intro n hdict
    have h0 : dictGet tti f.typeName = some n := by
      have := hdict 0 (by simp)
      simpa using this
    simp only [List.map_cons, composedIdsSpec, h0, List.length_cons, List.range'_succ]
    rw [ih (n + 1)]
    intro k hk
    have := hdict (k + 1) (by simpa using hk)
    rw [show n + (k + 1) = n + 1 + k by omega] at this
    exact this

theorem composedIdsSpec_carried (tti : List (String × Nat)) (cs : List SubPrompt)
    (hnd : (cs.map (fun r => r.type)).Nodup) :
    ∀ (L : List SubPrompt), (∀ r ∈ L, r ∈ cs) →
    (∀ r ∈ L, dictGet tti r.type = none) →
    composedIdsSpec tti cs (L.map (fun r => r.type)) = L.map (fun r => r.id) := by
  intro L
  induction L with
  | nil => intro _ _; rfl
  | cons r rest ih =>
    intro hmem hdict
    have hd : dictGet tti r.type = none := hdict r (List.mem_cons_self r rest)
    have hfind : cs.find? (fun sub => sub.type == r.type) = some r :=
      find_key_nodup (fun sub => sub.type) cs hnd r (hmem r (List.mem_cons_self r rest))
    simp only [List.map_cons, composedIdsSpec, hd, hfind]
    rw [ih (fun x hx => hmem x (List.mem_cons_of_mem r hx))
      (fun x hx => hdict x (List.mem_cons_of_mem r hx))]

theorem extendTypeOrder_ok (tic : List String) :
    ∀ (rows : List SubPrompt) (acc out : List String),
    extendTypeOrder tic rows acc = .ok out →
    (rows.map (fun r => r.type)).Nodup →
    (∀ r ∈ rows, tic.contains r.type = false → acc.contains r.type = false) →
    out = acc ++ (rows.filter (fun r => !tic.contains r.type)).map (fun r => r.type) := by
  intro rows
  induction rows with
  | nil =>
    intro acc out hok _ _
    have : acc = out := by simpa [extendTypeOrder] using hok
    simp [← this]
  | cons row rest ih =>
    intro acc out hok hnd hacc
    simp only [List.map_cons, List.nodup_cons] at hnd
    by_cases h1 : tic.contains row.type
    · have h1t : tic.contains row.type = true := h1
      simp only [extendTypeOrder, if_pos h1] at hok
      have hrow : (!tic.contains row.type) = false := by rw [h1t]; rfl
      rw [List.filter_cons_of_neg (by rw [hrow]; simp)]
      exact ih acc out hok hnd.2 (fun r hr => hacc r (List.mem_cons_of_mem row hr))
    · have h1f : tic.contains row.type = false := Bool.eq_false_iff.mpr h1
      have h2f : acc.contains row.type = false :=
        hacc row (List.mem_cons_self row rest) h1f
      have h2 : ¬ (acc.contains row.type = true) := by rw [h2f]; simp
      simp only [extendTypeOrder, if_neg (by rw [h1f]; simp : ¬ (tic.contains row.type = true)),
        if_neg h2] at hok
      rw [List.filter_cons_of_pos (by rw [h1f]; rfl)]
      rw [ih (acc ++ [row.type]) out hok hnd.2 ?_]
      · simp
      · intro r hr hrtic
        have hra : acc.contains r.type = false := hacc r (List.mem_cons_of_mem row hr) hrtic
        have hrne : r.type ≠ row.type := by
          intro he
          exact hnd.1 (he ▸ List.mem_map_of_mem (fun x => x.type) hr)
        apply Bool.eq_false_iff.mpr
        intro hc
        rcases List.mem_append.mp (List.elem_iff.mp hc) with hmem | hmem
        · have hct : acc.contains r.type = true := List.elem_iff.mpr hmem
          rw [hct] at hra
          exact absurd hra (by simp)
        · exact hrne (List.mem_singleton.mp hmem)

theorem find_id_lt_none (l : List SubPrompt) (n i : Nat)
    (h : ∀ r ∈ l, r.id < n) (hi : n ≤ i) :
    l.find? (fun r => r.id == i) = none := by
  rw [List.find?_eq_none]
  intro r hr
  have := h r hr
  simp only [beq_iff_eq]
  omega

theorem find_id_ge_none (l : List SubPrompt) (n i : Nat)
    (h : ∀ r ∈ l, n ≤ r.id) (hi : i < n) :
    l.find? (fun r => r.id == i) = none := by
  rw [List.find?_eq_none]
  intro r hr
  have := h r hr
  simp only [beq_iff_eq]
  omega

theorem filterMap_fresh (message : String) (curSubs : List SubPrompt) :
    ∀ (files : List FileData) (pre : List SubPrompt) (n : Nat),
    (∀ r ∈ pre, r.id < n) →
    (List.range' n files.length).filterMap
      (fun i => (pre ++ freshInserted message curSubs files n).find? (fun r => r.id == i))
      = freshInserted message curSubs files n := by
  intro files
  induction files with
  | nil => intro pre n _; rfl
  | cons f rest ih =>
    intro pre n hpre
    simp only [freshInserted, List.length_cons, List.range'_succ, List.filterMap_cons]
    have hfind0 : (pre ++ (⟨n, f.typeName,
        (curSubs.find? (fun sub => sub.type == f.typeName)).map (fun sub => sub.id),
        incrementVersion ((curSubs.find? (fun sub => sub.type == f.typeName)).map
          (fun sub => sub.version)),
        f.contents, message⟩ : SubPrompt) :: freshInserted message curSubs rest (n + 1)).find?
        (fun r => r.id == n) = some ⟨n, f.typeName,
        (curSubs.find? (fun sub => sub.type == f.typeName)).map (fun sub => sub.id),
        incrementVersion ((curSubs.find? (fun sub => sub.type == f.typeName)).map
          (fun sub => sub.version)),
        f.contents, message⟩ := by
      rw [List.find?_append, find_id_lt_none pre n n hpre le_rfl]
      simp only [Option.none_or]
      rw [List.find?_cons_of_pos]
      simp
    rw [hfind0]
    have hrearr : pre ++ (⟨n, f.typeName,
        (curSubs.find? (fun sub => sub.type == f.typeName)).map (fun sub => sub.id),
        incrementVersion ((curSubs.find? (fun sub => sub.type == f.typeName)).map
          (fun sub => sub.version)),
        f.contents, message⟩ : SubPrompt) :: freshInserted message curSubs rest (n + 1)
        = (pre ++ [⟨n, f.typeName,
        (curSubs.find? (fun sub => sub.type == f.typeName)).map (fun sub => sub.id),
        incrementVersion ((curSubs.find? (fun sub => sub.type == f.typeName)).map
          (fun sub => sub.version)),
        f.contents, message⟩]) ++ freshInserted message curSubs rest (n + 1) := by
      simp
    rw [hrearr, ih (pre ++ [_]) (n + 1) ?_]
    intro r hr
    rcases List.mem_append.mp hr with hrp | hrs
    · have := hpre r hrp
      omega
    · have hreq := List.mem_singleton.mp hrs
      rw [hreq]
      show n < n + 1
      omega

theorem filterMap_carried (full : List SubPrompt) :
    ∀ (L : List SubPrompt),
    (∀ r ∈ L, full.find? (fun x => x.id == r.id) = some r) →
    (L.map (fun r => r.id)).filterMap (fun i => full.find? (fun x => x.id == i)) = L := by
  intro L
  induction L with
  | nil => intro _; rfl
  | cons r rest ih =>
    intro h
    simp only [List.map_cons, List.filterMap_cons, h r (List.mem_cons_self r rest)]
    rw [ih (fun x hx => h x (List.mem_cons_of_mem r hx))]

theorem filterMap_extend (subs ext : List SubPrompt) (n : Nat)
    (hext : ∀ r ∈ ext, n ≤ r.id) :
    ∀ (ids : List Nat), (∀ i ∈ ids, i < n) →
    ids.filterMap (fun i => (subs ++ ext).find? (fun r => r.id == i))
      = ids.filterMap (fun i => subs.find? (fun r => r.id == i)) := by
  intro ids
  induction ids with
  | nil => intro _; rfl
  | cons i rest ih =>
    intro h
    simp only [List.filterMap_cons]
    rw [List.find?_append, find_id_ge_none ext n i hext (h i (List.mem_cons_self i rest))]
    have hor : ((subs.find? (fun r => r.id == i)).or none)
        = subs.find? (fun r => r.id == i) := by
      cases subs.find? (fun r => r.id == i) <;> rfl
    rw [hor]
    cases hfs : subs.find? (fun r => r.id == i) with
    | some r =>
      rw [ih (fun j hj => h j (List.mem_cons_of_mem i hj))]
    | none =>
      rw [ih (fun j hj => h j (List.mem_cons_of_mem i hj))]

theorem find_id_clear (l : List MasterPrompt) (i : Nat) :
    (l.map (fun m => if m.isCurrent then { m with isCurrent := false } else m)).find?
      (fun m => m.id == i)
      = (l.find? (fun m => m.id == i)).map
        (fun m => if m.isCurrent then { m with isCurrent := false } else m) := by
  induction l with
  | nil => rfl
  | cons m rest ih =>
    have hid : (if m.isCurrent then { m with isCurrent := false } else m).id = m.id := by
      by_cases h : m.isCurrent <;> simp [h]
    by_cases hmi : (m.id == i) = true
    · simp only [List.map_cons]
      rw [@List.find?_cons_of_pos _ (fun x => x.id == i)
          (if m.isCurrent then { m with isCurrent := false } else m)
          (rest.map (fun m => if m.isCurrent then { m with isCurrent := false } else m))
          (by simp only [hid]; exact hmi),
        @List.find?_cons_of_pos _ (fun x => x.id == i) m rest hmi]
      rfl
    · simp only [List.map_cons]
      rw [@List.find?_cons_of_neg _ (fun x => x.id == i)
          (if m.isCurrent then { m with isCurrent := false } else m)
          (rest.map (fun m => if m.isCurrent then { m with isCurrent := false } else m))
          (by simp only [hid]; exact hmi),
        @List.find?_cons_of_neg _ (fun x => x.id == i) m rest hmi]
      exact ih

theorem masters_restore (l : List MasterPrompt) (cm : MasterPrompt)
    (hnd : (l.map (fun m => m.id)).Nodup)
    (hcm : cm ∈ l) (hcur : cm.isCurrent = true)
    (hone : (l.filter (fun m => m.isCurrent)).length ≤ 1) :
    (l.map (fun m => if m.isCurrent then { m with isCurrent := false } else m)).map
      (fun m => if m.id == cm.id then { m with isCurrent := true }
                else if m.isCurrent then { m with isCurrent := false } else m) = l := by
  rw [List.map_map]
  have hstep : ∀ m ∈ l,
      ((fun m => if m.id == cm.id then { m with isCurrent := true }
                 else if m.isCurrent then { m with isCurrent := false } else m)
        ∘ (fun m => if m.isCurrent then { m with isCurrent := false } else m)) m = m := by
    intro m hm
    by_cases hmc : m = cm
    · subst hmc
      obtain ⟨mid, mp, mv, mc, mcur, mmsg⟩ := m
      simp only at hcur
      subst hcur
      simp [Function.comp]
    · have hidne : (m.id == cm.id) = false := by
        apply Bool.eq_false_iff.mpr
        intro hc
        exact hmc (nodup_key_inj (fun x => x.id) l hnd m hm cm hcm (by simpa using hc))
      have hmcur : m.isCurrent = false := by
        apply Bool.eq_false_iff.mpr
        intro hc
        have h2 := two_mem_length (l.filter (fun x => x.isCurrent)) m cm
          (List.mem_filter.mpr ⟨hm, hc⟩) (List.mem_filter.mpr ⟨hcm, hcur⟩) hmc
        omega
      simp [Function.comp, hmcur, hidne]
  have hcongr := List.map_congr_left hstep
  simpa using hcongr

theorem freshInserted_length (message : String) (curSubs : List SubPrompt) :
    ∀ (files : List FileData) (n : Nat),
    (freshInserted message curSubs files n).length = files.length := by
  intro files
  induction files with
  | nil => intro n; rfl
  | cons f rest ih =>
    intro n
    simp only [freshInserted, List.length_cons, ih (n + 1)]

theorem filterMap_ids_self :
    ∀ (rows pre : List SubPrompt) (n : Nat),
    rows.map (fun r => r.id) = List.range' n rows.length →
    (∀ r ∈ pre, r.id < n) →
    (rows.map (fun r => r.id)).filterMap
      (fun i => (pre ++ rows).find? (fun x => x.id == i)) = rows := by
  intro rows
  induction rows with
  | nil => intro pre n _ _; rfl
  | cons row rest ih =>
    intro pre n hids hpre
    simp only [List.map_cons, List.length_cons, List.range'_succ, List.cons.injEq] at hids
    obtain ⟨hid0, hidr⟩ := hids
    simp only [List.map_cons, List.filterMap_cons]
    have hfind0 : (pre ++ row :: rest).find? (fun x => x.id == row.id) = some row := by
      rw [List.find?_append, find_id_lt_none pre n row.id hpre (by omega)]
      simp only [Option.none_or]
      rw [List.find?_cons_of_pos]
      simp
    rw [hfind0]
    have hrearr : pre ++ row :: rest = (pre ++ [row]) ++ rest := by simp
    rw [hrearr, ih (pre ++ [row]) (n + 1) hidr ?_]
    intro r hr
    rcases List.mem_append.mp hr with hrp | hrs
    · have := hpre r hrp
      omega
    · have hreq := List.mem_singleton.mp hrs
      rw [hreq]
      omega

theorem uncommit_of_appended (S1 S2 : Store) (cm newM : MasterPrompt)
    (freshRows L : List SubPrompt)
    (hinv : storeInv S1)
    (hcm : getCurrentMaster S1 = some cm)
    (hndT : ((getSubPromptsByIds S1 cm.contents).map (fun r => r.type)).Nodup)
    (hL : ∀ r ∈ L, r ∈ getSubPromptsByIds S1 cm.contents)
    (hS2sub : S2.subPrompts = S1.subPrompts ++ freshRows)
    (hS2mas : S2.masterPrompts = (clearCurrentMaster S1).masterPrompts ++ [newM])
    (hMid : newM.id = S1.nextMasterId)
    (hMpar : newM.parentId = some cm.id)
    (hMcur : newM.isCurrent = true)
    (hMcont : newM.contents = freshRows.map (fun r => r.id) ++ L.map (fun r => r.id))
    (hfids : freshRows.map (fun r => r.id) = List.range' S1.nextSubId freshRows.length)
    (hfver : ∀ r ∈ freshRows, r.version = incrementVersion
      (((getSubPromptsByIds S1 cm.contents).find? (fun sub => sub.type == r.type)).map
        (fun sub => sub.version)))
    (hndCur : ((freshRows ++ L).map (fun r => r.type)).Nodup) :
    ∃ S3, runUncommit S2 = .ok S3 ∧ S3.subPrompts = S1.subPrompts ∧
      S3.masterPrompts = S1.masterPrompts := by
  obtain ⟨⟨s1a, s1b, s1c, s1d⟩, ⟨m1a, m1b, m1c, m1d⟩⟩ := hinv
  have hcmmem : cm ∈ S1.masterPrompts := List.mem_of_find?_eq_some hcm
  have hcmcur : cm.isCurrent = true := by
    have := List.find?_some hcm
    simpa using this
  have hfge : ∀ r ∈ freshRows, S1.nextSubId ≤ r.id := by
    intro r hr
    have hmem : r.id ∈ List.range' S1.nextSubId freshRows.length := by
      rw [← hfids]
      exact List.mem_map_of_mem (fun r => r.id) hr
    exact (List.mem_range'_1.mp hmem).1
  -- current master of S2 is the new master
  have hcur2 : getCurrentMaster S2 = some newM := by
    simp only [getCurrentMaster]
    rw [hS2mas]
    exact find_isCurrent_append _ _ (clearCurrentMaster_filter S1) hMcur
  -- previous master of S2 is the cleared cm
  have hprev2 : getPreviousMaster S2 = some { cm with isCurrent := false } := by
    have hfind : S1.masterPrompts.find? (fun y => y.id == cm.id) = some cm :=
      find_key_nodup (fun m => m.id) S1.masterPrompts m1a cm hcmmem
    have hgmb : getMasterById S2 cm.id = some { cm with isCurrent := false } := by
      simp only [getMasterById]
      rw [hS2mas, List.find?_append]
      have hfc : (clearCurrentMaster S1).masterPrompts.find? (fun m => m.id == cm.id)
          = some { cm with isCurrent := false } := by
        show (S1.masterPrompts.map (fun m =>
            if m.isCurrent then { m with isCurrent := false } else m)).find?
            (fun m => m.id == cm.id) = _
        rw [find_id_clear, hfind]
        show some (if cm.isCurrent then { cm with isCurrent := false } else cm) = _
        rw [if_pos hcmcur]
      rw [hfc]
      rfl
    simp only [getPreviousMaster, hcur2, hMpar, hgmb]
  -- the current master's fragments in S2
  have hcurSubs : getSubPromptsByIds S2 newM.contents = freshRows ++ L := by
    simp only [getSubPromptsByIds]
    rw [hMcont, List.filterMap_append, hS2sub]
    rw [filterMap_ids_self freshRows S1.subPrompts S1.nextSubId hfids s1b]
    rw [filterMap_carried (S1.subPrompts ++ freshRows) L ?_]
    intro r hr
    have hrS1 : r ∈ S1.subPrompts := getSubPromptsByIds_subset S1 cm.contents r (hL r hr)
    have hfind : S1.subPrompts.find? (fun x => x.id == r.id) = some r :=
      find_key_nodup (fun x => x.id) S1.subPrompts s1a r hrS1
    rw [List.find?_append, hfind]
    rfl
  -- the previous master's fragments in S2 are exactly those of S1
  have hprevSubs : getSubPromptsByIds S2 cm.contents
      = getSubPromptsByIds S1 cm.contents := by
    simp only [getSubPromptsByIds]
    rw [hS2sub]
    exact filterMap_extend S1.subPrompts freshRows S1.nextSubId hfge cm.contents
      (m1d cm hcmmem)
  -- the deletion set is exactly the fresh rows
  have htodel : computeToDelete
      (dictOf ((getSubPromptsByIds S2 newM.contents).map (fun r => (r.type, (r.id, r.version)))))
      (dictOf ((getSubPromptsByIds S2 cm.contents).map (fun r => (r.type, (r.id, r.version)))))
      = freshRows.map (fun r => r.id) := by
    rw [hcurSubs, hprevSubs]
    have hkeysCur : (((freshRows ++ L).map (fun r => (r.type, (r.id, r.version)))).map
        (fun p => p.1)).Nodup := by
      rw [List.map_map]
      exact hndCur
    have hkeysPrev : (((getSubPromptsByIds S1 cm.contents).map
        (fun r => (r.type, (r.id, r.version)))).map (fun p => p.1)).Nodup := by
      rw [List.map_map]
      exact hndT
    rw [dictOf_nodup _ hkeysCur, dictOf_nodup _ hkeysPrev, computeToDelete_eq]
    have hgen : ∀ (P : String × Nat × String → Bool),
        (∀ r ∈ freshRows, P (r.type, (r.id, r.version)) = true) →
        (∀ r ∈ L, P (r.type, (r.id, r.version)) = false) →
        ((((freshRows ++ L).map (fun r => (r.type, (r.id, r.version)))).filter P).map
          (fun p => p.2.1)) = freshRows.map (fun r => r.id) := by
      intro P hP1 hP2
      rw [List.map_append, List.filter_append]
      have h1 : (freshRows.map (fun r => (r.type, (r.id, r.version)))).filter P
          = freshRows.map (fun r => (r.type, (r.id, r.version))) := by
        apply List.filter_eq_self.mpr
        intro p hp
        obtain ⟨r, hr, hpe⟩ := List.mem_map.mp hp
        rw [← hpe]
        exact hP1 r hr
      have h2 : (L.map (fun r => (r.type, (r.id, r.version)))).filter P = [] := by
        rw [List.filter_eq_nil_iff]
        intro p hp
        obtain ⟨r, hr, hpe⟩ := List.mem_map.mp hp
        rw [← hpe, hP2 r hr]
        simp
      rw [h1, h2, List.append_nil, List.map_map]
      rfl
    have hdga : ∀ k, dictGet ((getSubPromptsByIds S1 cm.contents).map
        (fun r => (r.type, (r.id, r.version)))) k
        = ((getSubPromptsByIds S1 cm.contents).find? (fun r => r.type == k)).map
          (fun r => (r.id, r.version)) :=
      fun k => dictGet_map_assoc (fun r : SubPrompt => r.type)
        (fun r : SubPrompt => (r.id, r.version)) _ k
    apply hgen
    · intro r hr
      show (match dictGet ((getSubPromptsByIds S1 cm.contents).map
          (fun r => (r.type, (r.id, r.version)))) r.type with
        | none => true
        | some q => versionGt r.version q.2) = true
      rw [hdga]
      cases hfind : (getSubPromptsByIds S1 cm.contents).find?
          (fun sub => sub.type == r.type) with
      | none => rfl
      | some prior =>
        have hver := hfver r hr
        rw [hfind] at hver
        simp only [Option.map_some'] at hver
        have hvalid : ValidVersion prior.version = true :=
          s1d prior (getSubPromptsByIds_subset _ _ prior (List.mem_of_find?_eq_some hfind))
        show versionGt r.version prior.version = true
        rw [hver]
        exact versionGt_increment prior.version hvalid
    · intro r hr
      show (match dictGet ((getSubPromptsByIds S1 cm.contents).map
          (fun r => (r.type, (r.id, r.version)))) r.type with
        | none => true
        | some q => versionGt r.version q.2) = false
      rw [hdga]
      have hfind : (getSubPromptsByIds S1 cm.contents).find?
          (fun sub => sub.type == r.type) = some r :=
        find_key_nodup (fun sub => sub.type) (getSubPromptsByIds S1 cm.contents) hndT r
          (hL r hr)
      rw [hfind]
      show versionGt r.version r.version = false
      exact versionGt_irrefl r.version
  -- masters after delete + set-current
  have hmasters : (setCurrentMaster (deleteMasterPrompt S2 newM.id) cm.id).masterPrompts
      = S1.masterPrompts := by
    have hdel : (deleteMasterPrompt S2 newM.id).masterPrompts
        = (clearCurrentMaster S1).masterPrompts := by
      show S2.masterPrompts.filter (fun m => !(m.id == newM.id)) = _
      rw [hS2mas, List.filter_append]
      have hkeep : (clearCurrentMaster S1).masterPrompts.filter
          (fun m => !(m.id == newM.id)) = (clearCurrentMaster S1).masterPrompts := by
        apply List.filter_eq_self.mpr
        intro m hm
        obtain ⟨m0, hm0, _, hmid⟩ := clearCurrentMaster_contents S1 m hm
        have hlt := m1b m0 hm0
        have : ¬ (m.id == newM.id) = true := by
          intro hc
          have hc' : m.id = newM.id := by simpa using hc
          rw [hMid] at hc'
          omega
        simpa using this
      have hdrop : [newM].filter (fun m => !(m.id == newM.id)) = [] := by simp
      rw [hkeep, hdrop, List.append_nil]
    rw [setCurrentMaster_masterPrompts, hdel]
    show ((S1.masterPrompts.map (fun m =>
        if m.isCurrent then { m with isCurrent := false } else m)).map (fun m =>
        if m.id == cm.id then { m with isCurrent := true }
        else if m.isCurrent then { m with isCurrent := false } else m)) = S1.masterPrompts
    exact masters_restore S1.masterPrompts cm m1a hcmmem hcmcur m1c
  -- sub-prompts after the deletion
  have hsubs : (S1.subPrompts ++ freshRows).filter
      (fun r => !((freshRows.map (fun x => x.id)).contains r.id)) = S1.subPrompts := by
    rw [List.filter_append]
    have ha : S1.subPrompts.filter
        (fun r => !((freshRows.map (fun x => x.id)).contains r.id)) = S1.subPrompts := by
      apply List.filter_eq_self.mpr
      intro r hr
      have hlt := s1b r hr
      have hnm : ¬ ((freshRows.map (fun x => x.id)).contains r.id = true) := by
        intro hc
        have hmem : r.id ∈ freshRows.map (fun x => x.id) := List.elem_iff.mp hc
        rw [hfids] at hmem
        have := (List.mem_range'_1.mp hmem).1
        omega
      simpa using hnm
    have hb : freshRows.filter
        (fun r => !((freshRows.map (fun x => x.id)).contains r.id)) = [] := by
      rw [List.filter_eq_nil_iff]
      intro r hr
      have hmem : r.id ∈ freshRows.map (fun x => x.id) :=
        List.mem_map_of_mem (fun x => x.id) hr
      have hc : (freshRows.map (fun x => x.id)).contains r.id = true :=
        List.elem_iff.mpr hmem
      rw [hc]
      simp
    rw [ha, hb, List.append_nil]
  have hrun : runUncommit S2 = .ok (deleteSubPrompts
      (setCurrentMaster (deleteMasterPrompt S2 newM.id) cm.id)
      (computeToDelete
        (dictOf ((getSubPromptsByIds S2 newM.contents).map
          (fun r => (r.type, (r.id, r.version)))))
        (dictOf ((getSubPromptsByIds S2 cm.contents).map
          (fun r => (r.type, (r.id, r.version))))))) := by
    simp only [runUncommit, hcur2, hprev2]
  refine ⟨_, hrun, ?_, ?_⟩
  · show S2.subPrompts.filter (fun r => !((computeToDelete
        (dictOf ((getSubPromptsByIds S2 newM.contents).map
          (fun r => (r.type, (r.id, r.version)))))
        (dictOf ((getSubPromptsByIds S2 cm.contents).map
          (fun r => (r.type, (r.id, r.version)))))).contains r.id)) = S1.subPrompts
    rw [htodel, hS2sub]
    exact hsubs
  · exact hmasters

theorem successStore_exists (message : String) (cm : MasterPrompt)
    (cbt : List (String × String)) (rs : ResolveState)
    (comp : List Nat × List (Nat × String) × List (Nat × String)) :
    ∃ nm : MasterPrompt,
      (successStore message (some cm) cbt rs comp).masterPrompts
        = (clearCurrentMaster rs.store).masterPrompts ++ [nm] ∧
      nm.id = rs.store.nextMasterId ∧ nm.parentId = some cm.id ∧
      nm.isCurrent = true ∧ nm.contents = comp.1 :=
  ⟨⟨rs.store.nextMasterId, some cm.id,
    deriveMasterVersion (some cm.version) cbt comp.1 comp.2.1 comp.2.2,
    comp.1, true, message⟩, rfl, rfl, rfl, rfl, rfl⟩

/-- C9 (amended): after a successful, non-noop commit without branch
directives from a well-formed store S1 that has a current master with
distinct fragment types, where every committed file carries fresh,
pairwise-distinct contents, run_uncommit succeeds and restores the
fragment and master tables exactly to S1; in general (branch directives)
restoration fails, see the counterexample. -/
theorem c9_commit_then_uncommit (message : String) (files : List FileData)
    (S1 S2 : Store) (cm : MasterPrompt)
    (hinv : storeInv S1)
    (hcm : getCurrentMaster S1 = some cm)
    (hndT : ((getSubPromptsByIds S1 cm.contents).map (fun r => r.type)).Nodup)
    (hfresh : ∀ f ∈ files, getSubPromptByContents S1 f.contents = none)
    (hpw : files.Pairwise (fun f g => f.contents ≠ g.contents))
    (hrun : runCommit message files [] S1 = ⟨none, false, S2⟩) :
    ∃ S3, runUncommit S2 = .ok S3 ∧ S3.subPrompts = S1.subPrompts ∧
      S3.masterPrompts = S1.masterPrompts := by
  simp only [runCommit] at hrun
  by_cases hmsg : message = ""
  · rw [if_pos hmsg] at hrun
    exact absurd (congrArg (fun c => c.error) hrun) (by simp)
  rw [if_neg hmsg] at hrun
  by_cases hemp : files.isEmpty = true
  · rw [if_pos hemp] at hrun
    exact absurd (congrArg (fun c => c.noop) hrun) (by simp)
  rw [if_neg hemp] at hrun
  by_cases hdup : hasDupTypes files = true
  · rw [if_pos hdup] at hrun
    exact absurd (congrArg (fun c => c.error) hrun) (by simp)
  rw [if_neg hdup] at hrun
  have hndt : hasDupTypes files = false := Bool.eq_false_iff.mpr hdup
  have hnd := nodup_of_not_hasDupTypes files hndt
  obtain ⟨rs, typeOrder, hres, hord, hne', hnoop, huniq, hS2⟩ :=
    runCommitFinish_success _ _ _ _ _ _ _ _ hrun
  have hcid : (match getCurrentMaster S1 with
      | some m => m.contents | none => ([] : List Nat)) = cm.contents := by rw [hcm]
  rw [hcid] at hres hord hS2
  rw [hcm] at hS2
  have hres' : resolveFragments message [] (getSubPromptsByIds S1 cm.contents) files
      ⟨S1, [], [], [], false⟩ = .ok rs := hres
  obtain ⟨g1, g2, g3, _⟩ := resolveFragments_fresh message
    (getSubPromptsByIds S1 cm.contents) files S1 [] [] [] false rs hfresh hpw hnd hres'
  have hsh := resolveFragments_shape message [] (getSubPromptsByIds S1 cm.contents) files
    (⟨S1, [], [], [], false⟩ : ResolveState)
  rw [hres'] at hsh
  have hm1 : rs.store.masterPrompts = S1.masterPrompts := hsh.1
  have hm2 : rs.store.nextMasterId = S1.nextMasterId := hsh.2.1
  have hord' : extendTypeOrder (files.map (fun f => f.typeName))
      (getSubPromptsByIds S1 cm.contents) (files.map (fun f => f.typeName))
      = .ok typeOrder := hord
  have hto := extendTypeOrder_ok (files.map (fun f => f.typeName))
    (getSubPromptsByIds S1 cm.contents) (files.map (fun f => f.typeName)) typeOrder hord'
    hndT (fun r _ h => h)
  have hdictnone : ∀ r ∈ (getSubPromptsByIds S1 cm.contents).filter
      (fun r => !((files.map (fun f => f.typeName)).contains r.type)),
      dictGet rs.typeToId r.type = none := by
    intro r hr
    have hcond := (List.mem_filter.mp hr).2
    have hnotin : r.type ∉ files.map (fun f => f.typeName) := by
      intro hmem
      have hct : (files.map (fun f => f.typeName)).contains r.type = true :=
        List.elem_iff.mpr hmem
      rw [hct] at hcond
      exact absurd hcond (by simp)
    rw [resolveFragments_typeToId_frozen message [] _ files _ rs hres' r.type hnotin]
    rfl
  have hspec1 : composedIdsSpec rs.typeToId (getSubPromptsByIds S1 cm.contents)
      (files.map (fun f => f.typeName)) = List.range' S1.nextSubId files.length :=
    composedIdsSpec_files rs.typeToId _ files S1.nextSubId g3
  have hspec2 : composedIdsSpec rs.typeToId (getSubPromptsByIds S1 cm.contents)
      (((getSubPromptsByIds S1 cm.contents).filter
        (fun r => !((files.map (fun f => f.typeName)).contains r.type))).map
        (fun r => r.type))
      = ((getSubPromptsByIds S1 cm.contents).filter
        (fun r => !((files.map (fun f => f.typeName)).contains r.type))).map
        (fun r => r.id) :=
    composedIdsSpec_carried rs.typeToId _ hndT _ (fun r hr => (List.mem_filter.mp hr).1)
      hdictnone
  have hnewIds : (newComposition rs (some cm) (getSubPromptsByIds S1 cm.contents)
      typeOrder).1
      = List.range' S1.nextSubId files.length
        ++ ((getSubPromptsByIds S1 cm.contents).filter
          (fun r => !((files.map (fun f => f.typeName)).contains r.type))).map
          (fun r => r.id) := by
    show (composeIds rs.typeToId true (getSubPromptsByIds S1 cm.contents) typeOrder
      ([], rs.idToVersion, rs.idToType)).1 = _
    rw [composeIds_fst, hto, composedIdsSpec_append, hspec1, hspec2]
    simp
  have hS2sub : S2.subPrompts = S1.subPrompts
      ++ freshInserted message (getSubPromptsByIds S1 cm.contents) files S1.nextSubId := by
    rw [hS2, successStore_subPrompts, g1]
  obtain ⟨newM, hmas0, hMid0, hMpar, hMcur, hMcont0⟩ := successStore_exists message cm
    (dictOf ((getSubPromptsByIds S1 cm.contents).map (fun r => (r.type, r.version)))) rs
    (newComposition rs (some cm) (getSubPromptsByIds S1 cm.contents) typeOrder)
  have hS2mas : S2.masterPrompts = (clearCurrentMaster S1).masterPrompts ++ [newM] := by
    rw [hS2, hmas0]
    congr 1
    show rs.store.masterPrompts.map _ = S1.masterPrompts.map _
    rw [hm1]
  have hMid : newM.id = S1.nextMasterId := by rw [hMid0, hm2]
  have hfreshids : (freshInserted message (getSubPromptsByIds S1 cm.contents) files
      S1.nextSubId).map (fun r => r.id) = List.range' S1.nextSubId files.length := by
    rw [freshInserted_ids]
  have hMcont : newM.contents = (freshInserted message (getSubPromptsByIds S1 cm.contents)
      files S1.nextSubId).map (fun r => r.id)
      ++ ((getSubPromptsByIds S1 cm.contents).filter
        (fun r => !((files.map (fun f => f.typeName)).contains r.type))).map
        (fun r => r.id) := by
    rw [hMcont0, hnewIds, hfreshids]
  refine uncommit_of_appended S1 S2 cm newM _ _ hinv hcm hndT
    (fun r hr => (List.mem_filter.mp hr).1) hS2sub hS2mas hMid hMpar hMcur hMcont ?_ ?_ ?_
  · rw [freshInserted_ids, freshInserted_length]
  · intro r hr
    exact freshInserted_version message (getSubPromptsByIds S1 cm.contents) files
      S1.nextSubId r hr
  · rw [List.map_append, freshInserted_types]
    rw [List.nodup_append]
    refine ⟨hnd, ?_, ?_⟩
    · exact List.Nodup.sublist (List.Sublist.map (fun r : SubPrompt => r.type)
        (List.filter_sublist _)) hndT
    · intro a ha hb
      obtain ⟨r, hr, hra⟩ := List.mem_map.mp hb
      have hcond := (List.mem_filter.mp hr).2
      have hct : (files.map (fun f => f.typeName)).contains r.type = true :=
        List.elem_iff.mpr (hra ▸ ha)
      rw [hct] at hcond
      exact absurd hcond (by simp)

/-- C9 counterexample: from the store built by commits A, B, C of type a,
two further successful commits m4 (contents D) and m5 (contents E, with a
branch directive naming fragment 1 as parent) leave a store from which
uncommit does not restore the fragment table to its post-m4 state: the
branched fragment 5 (version "1.1") survives because version_gt "1.1" "4"
is false. -/
theorem c9_counterexample :
    (runCommitFiles "m4" [("01_a.j2", "D")] []
      (runCommitFiles "m3" [("01_a.j2", "C")] []
        (runCommitFiles "m2" [("01_a.j2", "B")] []
          (runCommitFiles "m1" [("01_a.j2", "A")] [] emptyStore).store).store).store).error
      = none ∧
    (runCommitFiles "m4" [("01_a.j2", "D")] []
      (runCommitFiles "m3" [("01_a.j2", "C")] []
        (runCommitFiles "m2" [("01_a.j2", "B")] []
          (runCommitFiles "m1" [("01_a.j2", "A")] [] emptyStore).store).store).store).noop
      = false ∧
    (runCommitFiles "m5" [("01_a.j2", "E")] [(1, "01_a.j2")]
      (runCommitFiles "m4" [("01_a.j2", "D")] []
        (runCommitFiles "m3" [("01_a.j2", "C")] []
          (runCommitFiles "m2" [("01_a.j2", "B")] []
            (runCommitFiles "m1" [("01_a.j2", "A")] []
              emptyStore).store).store).store).store).error = none ∧
    (runCommitFiles "m5" [("01_a.j2", "E")] [(1, "01_a.j2")]
      (runCommitFiles "m4" [("01_a.j2", "D")] []
        (runCommitFiles "m3" [("01_a.j2", "C")] []
          (runCommitFiles "m2" [("01_a.j2", "B")] []
            (runCommitFiles "m1" [("01_a.j2", "A")] []
              emptyStore).store).store).store).store).noop = false ∧
    (runUncommit (runCommitFiles "m5" [("01_a.j2", "E")] [(1, "01_a.j2")]
      (runCommitFiles "m4" [("01_a.j2", "D")] []
        (runCommitFiles "m3" [("01_a.j2", "C")] []
          (runCommitFiles "m2" [("01_a.j2", "B")] []
            (runCommitFiles "m1" [("01_a.j2", "A")] []
              emptyStore).store).store).store).store).store).map (fun s => s.subPrompts)
      ≠ .ok ((runCommitFiles "m4" [("01_a.j2", "D")] []
        (runCommitFiles "m3" [("01_a.j2", "C")] []
          (runCommitFiles "m2" [("01_a.j2", "B")] []
            (runCommitFiles "m1" [("01_a.j2", "A")] []
              emptyStore).store).store).store).store.subPrompts) := by
  decide

theorem c9_witness :
    storeInv (runCommitFiles "m1" [("01_a.j2", "A")] [] emptyStore).store ∧
    getCurrentMaster (runCommitFiles "m1" [("01_a.j2", "A")] [] emptyStore).store
      = some ⟨1, none, "1", [1], true, "m1"⟩ ∧
    (∃ S3, runUncommit (runCommit "m2" [⟨"01_a.j2", "B", "a"⟩] []
        (runCommitFiles "m1" [("01_a.j2", "A")] [] emptyStore).store).store = .ok S3 ∧
      S3.subPrompts
        = (runCommitFiles "m1" [("01_a.j2", "A")] [] emptyStore).store.subPrompts ∧
      S3.masterPrompts
        = (runCommitFiles "m1" [("01_a.j2", "A")] [] emptyStore).store.masterPrompts) :=
  ⟨by decide, by decide,
    c9_commit_then_uncommit "m2" [⟨"01_a.j2", "B", "a"⟩]
      (runCommitFiles "m1" [("01_a.j2", "A")] [] emptyStore).store
      (runCommit "m2" [⟨"01_a.j2", "B", "a"⟩] []
        (runCommitFiles "m1" [("01_a.j2", "A")] [] emptyStore).store).store
      ⟨1, none, "1", [1], true, "m1"⟩
      (by decide) (by decide) (by decide) (by decide) (by decide) (by decide)⟩
